import Mathlib

/-!
# wallet.c: mnemonic codec, key derivation entry points and secret hygiene

A shallow embedding of `src/wallet.c`.

* A C string is the list of the characters that precede its terminating NUL.
* A byte buffer is a list of naturals; every store into a `uint8_t` slot is
  reduced modulo 256, every store into a `uint16_t` slot modulo 65536.
* Functions that live outside `wallet.c` (the word list, SHA-256, PBKDF2, the
  BIP32 node operations, the signing primitive, flash storage, the random
  source) are parameters of the definitions that call them.
* The definitions describe the values the functions compute.  The declared
  capacities of the scratch arrays (`msg[256]`, `seed_words[25]`,
  `current_word[10]`, `bits[33]`, `mnemo[240]`, `mnemonic[256]`) are recorded in
  the comments of the definitions that use them; a store whose index is past
  the end of a list leaves the list unchanged.
-/

namespace Wallet

/-- A C string: the characters before the terminating NUL. -/
abbrev CStr := List Char

/-- The status argument of `commander_fill_report`. -/
inductive Status where
  | SUCCESS
  | ERROR
deriving DecidableEq, Repr

/-- One call `commander_fill_report(cmd, msg, status)`. -/
structure Report where
  cmd : String
  msg : String
  status : Status
deriving DecidableEq, Repr

/-- Value kept by a `uint8_t` slot. -/
def u8 (x : Nat) : Nat := x % 256

/-- Value kept by a `uint16_t` slot. -/
def u16 (x : Nat) : Nat := x % 65536

/-- The `n` bytes found at a `const uint8_t *`; a position past the end of the list reads as 0. -/
def bytes_at (src : List Nat) (n : Nat) : List Nat :=
  (List.range n).map (fun i => u8 (src.getD i 0))

/-- Effect of `memcpy(dst, src, n)` on a byte buffer `dst`. -/
def memcpy (dst src : List Nat) (n : Nat) : List Nat :=
  bytes_at src n ++ dst.drop n

/-- Tokens that successive `strtok` calls with delimiter set `delims` return on a string:
maximal runs of non-delimiter characters.  `cur` is the token being read. -/
def strtok_from (delims : List Char) : List Char → List Char → List CStr
  | [], cur => if cur = [] then [] else [cur]
  | c :: cs, cur =>
    if c ∈ delims then
      (if cur = [] then strtok_from delims cs [] else cur :: strtok_from delims cs [])
    else strtok_from delims cs (cur ++ [c])

/-- All tokens of `s` for the delimiter set `delims`. -/
def strtok_all (delims : List Char) (s : CStr) : List CStr :=
  strtok_from delims s []

/-- Source `split_seed`: copies the message into `msg[256]` and collects the `strtok`
tokens for the delimiters space and comma into `seed_words` (the callers pass 25 slots);
returns the number of tokens `i` together with the tokens.  This is the value of a call
that stays inside both arrays (`split_seed_fits`); the source checks neither capacity, and
the stores it makes are listed by `split_seed_msg_stores` and `split_seed_word_stores`. -/
def split_seed (message : CStr) : Nat × List CStr :=
  let seed_words := strtok_all [' ', ','] message
  (seed_words.length, seed_words)

/-- The indices of `static char msg[256]` that `memcpy(msg, message, strlen(message))` of
`split_seed` stores to. -/
def split_seed_msg_stores (message : CStr) : List Nat := List.range message.length

/-- The indices of the caller's array `seed_words` that `split_seed` stores to:
`seed_words[0] = strtok(msg, " ,")`, then `seed_words[++i] = strtok(NULL, " ,")` after every
token; the last store is the NULL that ends the loop. -/
def split_seed_word_stores (message : CStr) : List Nat :=
  List.range ((strtok_all [' ', ','] message).length + 1)

/-- A call of `split_seed` with a 25-slot array stays inside its arrays: the text and a
terminator fit `msg[256]`, the tokens and the closing NULL fit the 25 slots. -/
def split_seed_fits (message : CStr) : Prop :=
  message.length < 256 ∧ (strtok_all [' ', ','] message).length < 25

/-- Linear scan `for (k = start; wordlist[k]; k++) if (strcmp(w, wordlist[k]) == 0)`:
position of the first entry equal to `w`, or `none` when the terminating NULL is reached. -/
def find_word : List CStr → CStr → Nat → Option Nat
  | [], _, _ => none
  | x :: xs, w, k => if w = x then some k else find_word xs w (k + 1)

/-- One pass of the outer loop of `wallet_index_from_mnemonic`: a word found at `j`
is stored as `seed_index[k++] = j + 1`; a word that is not found stores nothing. -/
def index_step (wordlist : List CStr) (st : List Nat × Nat) (w : CStr) : List Nat × Nat :=
  match find_word wordlist w 0 with
  | some j => (st.1.set st.2 (u16 (j + 1)), st.2 + 1)
  | none => st

/-- Source `wallet_index_from_mnemonic`: the 25-entry `seed_index` after the call. -/
def wallet_index_from_mnemonic (wordlist : List CStr) (mnemo : CStr) : List Nat :=
  let seed_index := List.replicate 25 0
  let seed_word := (split_seed mnemo).2
  (seed_word.foldl (index_step wordlist) (seed_index, 0)).1

/-- Modelled from the spec: `MEM_PAGE_ERASE` is declared `extern` and defined outside
`wallet.c`; the spec calls it the all-bits-erased pattern, so every byte is 0xFF. -/
def MEM_PAGE_ERASE : List Nat := List.replicate 32 0xFF

/-- Modelled from the spec: `MEM_PAGE_ERASE_2X` is declared `extern` and defined outside
`wallet.c`; the all-bits-erased pattern in 16-bit entries, so every entry is 0xFFFF. -/
def MEM_PAGE_ERASE_2X : List Nat := List.replicate 32 0xFFFF

/-- Test `memcmp(a, MEM_PAGE_ERASE, 32) == 0`. -/
def is_erased (a : List Nat) : Bool :=
  (List.range 32).all (fun i => a.getD i 0 == MEM_PAGE_ERASE.getD i 0)

/-- Test `memcmp(a, MEM_PAGE_ERASE_2X, 64) == 0` on 16-bit entries (64 bytes are 32 entries). -/
def is_erased_2x (a : List Nat) : Bool :=
  (List.range 32).all (fun i => a.getD i 0 == MEM_PAGE_ERASE_2X.getD i 0)

/-- Loop `for (i = 0; idx[i]; i++) { strcat(mnemonic, wordlist[idx[i] - 1]); strcat(mnemonic, " "); }`
of `wallet_mnemonic_from_index`. -/
def from_index_loop (wordlist : List CStr) : List Nat → CStr → CStr
  | [], m => m
  | x :: xs, m =>
    if x = 0 then m else from_index_loop wordlist xs (m ++ wordlist.getD (x - 1) [] ++ [' '])

/-- Source `wallet_mnemonic_from_index`: `none` is the NULL returned for the erase
pattern; otherwise the text left in `mnemonic[256]`, whose last character is overwritten
by the terminator. -/
def wallet_mnemonic_from_index (wordlist : List CStr) (idx : List Nat) : Option CStr :=
  if is_erased_2x idx then none
  else some (from_index_loop wordlist idx []).dropLast

/-- Inner loop of `wallet_mnemonic_from_data`: the 11-bit group number `i` of `bits`,
`idx <<= 1; idx += (bits[(i*11+j)/8] & (1 << (7 - ((i*11+j) % 8)))) > 0` for `j = 0..10`. -/
def word_index (bits : List Nat) (i : Nat) : Nat :=
  (List.range 11).foldl
    (fun idx j =>
      2 * idx + (if bits.getD ((i * 11 + j) / 8) 0 &&& (1 <<< (7 - (i * 11 + j) % 8)) > 0
                 then 1 else 0))
    0

/-- The `bits[33]` array of `wallet_mnemonic_from_data` when the word loop starts:
`sha256_Raw(data, len, bits); bits[len] = bits[0]; memcpy(bits, data, len)`. -/
def from_data_bits (sha256_Raw : List Nat → List Nat) (data : List Nat) (len : Nat) : List Nat :=
  let bits := memcpy (List.replicate 33 0) (sha256_Raw (bytes_at data len)) 32
  let bits := bits.set len (bits.getD 0 0)
  memcpy bits data len

/-- What one pass `i` of the outer loop of `wallet_mnemonic_from_data` writes at `p`:
`strcpy(p, wordlist[idx])`, then a space, or the terminator after the last word
(`*p = (i < mlen - 1) ? ' ' : 0`). -/
def from_data_piece (wordlist : List CStr) (bits : List Nat) (mlen i : Nat) : CStr :=
  wordlist.getD (word_index bits i) [] ++ (if i + 1 < mlen then [' '] else [])

/-- Outer loop `for (i = 0; i < mlen; i++)` of `wallet_mnemonic_from_data`: the characters
written to `mnemo`, pass after pass, up to the terminator written by the last pass. -/
def from_data_loop (wordlist : List CStr) (bits : List Nat) (mlen : Nat) : CStr :=
  (List.range mlen).foldl (fun p i => p ++ from_data_piece wordlist bits mlen i) []

/-- Source `wallet_mnemonic_from_data`: `none` is the null pointer returned for a rejected
length; otherwise the text left in `mnemo[240]`. -/
def wallet_mnemonic_from_data (wordlist : List CStr) (sha256_Raw : List Nat → List Nat)
    (data : List Nat) (len : Int) : Option CStr :=
  if len.tmod 4 ≠ 0 ∨ len < 16 ∨ len > 32 then none
  else
    let bits := from_data_bits sha256_Raw data len.toNat
    let mlen := len.toNat * 3 / 4
    some (from_data_loop wordlist bits mlen)

/-- Inner loop `while (mnemo[i] != ' ' && mnemo[i] != 0)` of `wallet_mnemonic_check`,
copying characters to `current_word[10]`: `none` when the test
`j >= sizeof(current_word)` fires; otherwise the word read and the text that starts
at the character that stopped the loop. -/
def read_current_word : List Char → List Char → Option (CStr × List Char)
  | [], w => some (w, [])
  | c :: cs, w =>
    if c = ' ' then some (w, c :: cs)
    else if 10 ≤ w.length then none
    else read_current_word cs (w ++ [c])

/-- One pass `ki` of the bit loop of `wallet_mnemonic_check` on the pair `(bits, bi)`:
`if (k & (1 << (10 - ki))) bits[bi / 8] |= 1 << (7 - (bi % 8)); bi++;`. -/
def push_index_bit (k : Nat) (st : List Nat × Nat) (ki : Nat) : List Nat × Nat :=
  ((if k &&& (1 <<< (10 - ki)) ≠ 0
    then st.1.set (st.2 / 8) (u8 (st.1.getD (st.2 / 8) 0 ||| (1 <<< (7 - st.2 % 8))))
    else st.1),
   st.2 + 1)

/-- Loop `for (ki = 0; ki < 11; ki++)` of `wallet_mnemonic_check` for a word found at `k`. -/
def push_index_bits (k : Nat) (st : List Nat × Nat) : List Nat × Nat :=
  (List.range 11).foldl (push_index_bit k) st

/-- The report of `wallet_mnemonic_check` for an over-long or unknown word. -/
def report_word_not_in_list : Report := ⟨"seed", "Word not in bip39 wordlist.", .ERROR⟩

/-- The report of `wallet_mnemonic_check` for a wrong number of words. -/
def report_word_count : Report := ⟨"seed", "Mnemonic must have 12, 18, or 24 words.", .ERROR⟩

/-- The report placed after the three checksum comparisons of `wallet_mnemonic_check`. -/
def report_checksum : Report := ⟨"seed", "Invalid mnemonic: checksum error.", .ERROR⟩

/-- Outer loop `while (mnemo[i])` of `wallet_mnemonic_check` on the text that starts at
`mnemo[i]` and the pair `(bits, bi)`: reads one word, steps over one space, looks the word
up and appends the 11 bits of its position.  An error is the report made before
`return 0`.  Every pass consumes a character, so `fuel = strlen(mnemo)` passes suffice. -/
def check_loop (wordlist : List CStr) :
    Nat → List Char → List Nat × Nat → Except Report (List Nat × Nat)
  | 0, _, st => .ok st
  | _ + 1, [], st => .ok st
  | fuel + 1, c :: cs, st =>
    match read_current_word (c :: cs) [] with
    | none => .error report_word_not_in_list
    | some (current_word, rest) =>
      match find_word wordlist current_word 0 with
      | none => .error report_word_not_in_list
      | some k => check_loop wordlist fuel (rest.drop 1) (push_index_bits k st)

/-- Source `wallet_mnemonic_check`: the returned `int` and the reports made, in order.
`mnemo = none` is the null pointer. -/
def wallet_mnemonic_check (wordlist : List CStr) (sha256_Raw : List Nat → List Nat)
    (mnemo : Option CStr) : Int × List Report :=
  match mnemo with
  | none => (0, [⟨"seed", "Empty mnemonic.", .ERROR⟩])
  | some mnemo =>
    let n := (split_seed mnemo).1
    if n ≠ 12 ∧ n ≠ 18 ∧ n ≠ 24 then (0, [report_word_count])
    else
      match check_loop wordlist mnemo.length mnemo (List.replicate 33 0, 0) with
      | .error r => (0, [r])
      | .ok (bits, bi) =>
        if bi ≠ n * 11 then (0, [⟨"seed", "Mnemonic check error. [0]", .ERROR⟩])
        else
          let bits := bits.set 32 (bits.getD (n * 4 / 3) 0)
          let bits := memcpy bits (sha256_Raw (bytes_at bits (n * 4 / 3))) 32
          if n = 12 then
            ((if bits.getD 0 0 &&& 0xF0 = bits.getD 32 0 &&& 0xF0 then 1 else 0), [])
          else if n = 18 then
            ((if bits.getD 0 0 &&& 0xFC = bits.getD 32 0 &&& 0xFC then 1 else 0), [])
          else if n = 24 then
            ((if bits.getD 0 0 = bits.getD 32 0 then 1 else 0), [])
          else (0, [report_checksum])

/-- The `HDNode` record of `bip32.h`, as the spec lists its fields. -/
structure HDNode where
  depth : Nat
  child_num : Nat
  fingerprint : Nat
  chain_code : List Nat
  private_key : List Nat
  public_key : List Nat
deriving DecidableEq, Repr

/-- Contents of the flash pages behind `memory_master`, `memory_chaincode` and
`memory_mnemonic`. -/
structure Storage where
  master : List Nat
  chaincode : List Nat
  mnemonic : List Nat
deriving DecidableEq, Repr

/-- The functions and tables `wallet.c` uses and does not define, and the indeterminate
initial values of the locals it declares without an initialiser. -/
structure Env where
  /-- The table `wordlist` of `bip39_english.h`, its terminating NULL left out. -/
  wordlist : List CStr
  /-- Digest computed by `sha256_Raw(data, len, digest)`. -/
  sha256_Raw : List Nat → List Nat
  /-- Bytes that `random_bytes(buf, 32, 1)` delivers. -/
  random_bytes : List Nat
  /-- Key computed by `pbkdf2_hmac_sha512(pass, passlen, salt, saltlen, iterations, key, keylen, cb)`. -/
  pbkdf2_hmac_sha512 : List Nat → List Nat → Nat → Nat → List Nat
  /-- Node written by `hdnode_from_seed(seed, seed_len, &node)`. -/
  hdnode_from_seed : List Nat → HDNode
  /-- Node left by `hdnode_fill_public_key(node)`. -/
  hdnode_fill_public_key : HDNode → HDNode
  /-- Node left by `hdnode_private_ckd(node, i)` and the status it returns. -/
  hdnode_private_ckd : HDNode → Nat → HDNode × Int
  /-- Node left by `hdnode_private_ckd_prime(node, i)` and the status it returns. -/
  hdnode_private_ckd_prime : HDNode → Nat → HDNode × Int
  /-- Text left in `str` by `hdnode_serialize_public(node, str, strsize)`. -/
  hdnode_serialize_public : HDNode → Nat → String
  /-- Call `memory_master(p)`: stores the 32 bytes at `p` unless `p` is NULL; returns the page read back. -/
  memory_master : Storage → Option (List Nat) → Storage × List Nat
  /-- Call `memory_chaincode(p)`, as `memory_master`. -/
  memory_chaincode : Storage → Option (List Nat) → Storage × List Nat
  /-- Call `memory_mnemonic(p)` on 16-bit entries, as `memory_master`. -/
  memory_mnemonic : Storage → Option (List Nat) → Storage × List Nat
  /-- Status returned by `uECC_sign_digest(private_key, digest, sig)` and the bytes left in `sig`. -/
  uECC_sign_digest : List Nat → List Nat → Int × List Nat
  /-- Bytes written by `uECC_get_public_key33(private_key, pub_key)`. -/
  uECC_get_public_key33 : List Nat → List Nat
  /-- Bytes returned by `hex_to_uint8(str)`. -/
  hex_to_uint8 : CStr → List Nat
  /-- Text returned by `uint8_to_hex(bytes, len)`. -/
  uint8_to_hex : List Nat → Nat → String
  /-- Indeterminate initial contents of a local `HDNode node;`. -/
  uninit_node : HDNode
  /-- Indeterminate initial value of the local `unsigned long idx;`. -/
  uninit_idx : Nat
  /-- Indeterminate characters that lie behind the variable-length array `char s[s_len]`
  of `wallet_master_from_mnemonic`, up to the first NUL. -/
  uninit_stack : List Char

/-- The file-scope `static` buffers of `wallet.c`, the flash storage and the reports made so far. -/
structure State where
  /-- Buffer `static char mnemonic[256]`, terminators included. -/
  mnemonic : List Char
  /-- Buffer `static uint16_t seed_index[25]`. -/
  seed_index : List Nat
  /-- Buffer `static uint8_t seed[64]`. -/
  seed : List Nat
  /-- Buffer `static uint8_t rand_data_32[32]`. -/
  rand_data_32 : List Nat
  /-- Buffer `static uint8_t salt[8 + 256 + 4]` of `wallet_mnemonic_to_seed`. -/
  salt : List Nat
  storage : Storage
  /-- Calls of `commander_fill_report`, oldest first. -/
  reports : List Report
deriving DecidableEq, Repr

/-- The NUL character. -/
def NUL : Char := Char.ofNat 0

/-- The C string that starts at the beginning of a character buffer. -/
def cstr (buf : List Char) : CStr := buf.takeWhile (fun c => c ≠ NUL)

/-- Effect of `memcpy(dst, src, n)` on a character buffer; the source string is followed
by its terminator, and positions past it read as NUL. -/
def memcpy_chars (dst : List Char) (src : CStr) (n : Nat) : List Char :=
  (List.range n).map (fun i => src.getD i NUL) ++ dst.drop n

/-- Effect of `memcpy(dst + off, src, n)` on a byte buffer. -/
def memcpy_at (dst : List Nat) (off : Nat) (src : List Nat) (n : Nat) : List Nat :=
  dst.take off ++ bytes_at src n ++ dst.drop (off + n)

/-- Adds one call of `commander_fill_report`. -/
def commander_fill_report (st : State) (cmd msg : String) (status : Status) : State :=
  { st with reports := st.reports ++ [⟨cmd, msg, status⟩] }

/-- Source `clear_static_variables`: four `memset(.., 0, sizeof ..)`. -/
def clear_static_variables (st : State) : State :=
  { st with
    seed := List.replicate 64 0
    mnemonic := List.replicate 256 NUL
    seed_index := List.replicate 25 0
    rand_data_32 := List.replicate 32 0 }

/-- Modelled from the spec: `BIP39_PBKDF2_ROUNDS` is a macro defined outside `wallet.c`;
the spec gives the fixed round count 2048. -/
def BIP39_PBKDF2_ROUNDS : Nat := 2048

/-- Source `wallet_mnemonic_to_seed` with a null progress callback: the 64 bytes written
to `s` and the `static` buffer `salt` after the call. -/
def wallet_mnemonic_to_seed (env : Env) (salt : List Nat) (mnemo passphrase : CStr) :
    List Nat × List Nat :=
  let saltlen := passphrase.length
  let salt := memcpy salt ("mnemonic".toList.map Char.toNat) 8
  let salt := memcpy_at salt 8 (passphrase.map Char.toNat) saltlen
  let saltlen := saltlen + 8
  (bytes_at (env.pbkdf2_hmac_sha512 (mnemo.map Char.toNat) (salt.take saltlen)
      BIP39_PBKDF2_ROUNDS (512 / 8)) 64,
   salt)

/-- The passphrase `wallet_master_from_mnemonic` hands to `wallet_mnemonic_to_seed`: the
literal "" for a null `salt`; otherwise the string that `strlen` finds at the start of the
array `char s[s_len]` after `memcpy(s, salt, s_len)`.  The array gets no terminator of
its own, so when the `s_len` bytes copied hold no NUL the string runs on into the
characters behind the array. -/
def master_passphrase (env : Env) (salt : Option CStr) (s_len : Nat) : CStr :=
  match salt with
  | none => []
  | some salt => cstr (memcpy_chars [] salt s_len ++ env.uninit_stack)

/-- The `salt` and `s_len` of a call of `wallet_master_from_mnemonic` keep it inside the
array `s` and inside `salt[8 + 256 + 4]` of `wallet_mnemonic_to_seed`: a null pointer, or
a string of at most 256 characters that is copied together with its terminator. -/
def salt_fits (salt : Option CStr) (s_len : Nat) : Prop :=
  match salt with
  | none => True
  | some p => NUL ∉ p ∧ p.length ≤ 256 ∧ p.length < s_len

/-- The last part of `wallet_master_from_mnemonic`, entered when `wallet_mnemonic_check`
accepted the text in `mnemonic`: seed, master node, the three stores and the final
`clear_static_variables`. -/
def master_store (env : Env) (st : State) (salt : Option CStr) (s_len : Nat) : State :=
  let passphrase : CStr := master_passphrase env salt s_len
  let r := wallet_mnemonic_to_seed env st.salt (cstr st.mnemonic) passphrase
  let st := { st with seed := r.1, salt := r.2 }
  let node := env.hdnode_from_seed st.seed
  let m := env.memory_master st.storage (some node.private_key)
  let st := { st with storage := m.1 }
  let st :=
    if is_erased m.2 then commander_fill_report st "seed" "Problem saving BIP32 master key." .ERROR
    else
      let c := env.memory_chaincode st.storage (some node.chain_code)
      let st := { st with storage := c.1 }
      if is_erased c.2 then
        commander_fill_report st "seed" "Problem saving BIP32 master key." .ERROR
      else
        let st := { st with seed_index := wallet_index_from_mnemonic env.wordlist (cstr st.mnemonic) }
        let w := env.memory_mnemonic st.storage (some st.seed_index)
        let st := { st with storage := w.1 }
        if is_erased_2x w.2 then
          commander_fill_report st "seed" "Problem saving BIP32 master key." .ERROR
        else commander_fill_report st "seed" "success" .SUCCESS
  clear_static_variables st

/-- The node `hdnode_from_seed(seed, sizeof(seed), &node)` that `wallet_master_from_mnemonic`
computes from the text in `mnemonic` and the passphrase. -/
def master_node (env : Env) (st : State) (salt : Option CStr) (s_len : Nat) : HDNode :=
  env.hdnode_from_seed
    (wallet_mnemonic_to_seed env st.salt (cstr st.mnemonic) (master_passphrase env salt s_len)).1

/-- The test `!memcmp(memory_master(node.private_key), MEM_PAGE_ERASE, 32) ||
!memcmp(memory_chaincode(node.chain_code), MEM_PAGE_ERASE, 32) ||
!memcmp(memory_mnemonic(wallet_index_from_mnemonic(mnemonic)), MEM_PAGE_ERASE_2X, 64)` of
`wallet_master_from_mnemonic` on the blocks the storage collaborator returns, for the text
in `mnemonic`: true when one of the blocks is erased. -/
def master_store_failed (env : Env) (st : State) (salt : Option CStr) (s_len : Nat) : Bool :=
  let node := master_node env st salt s_len
  let m := env.memory_master st.storage (some node.private_key)
  is_erased m.2 ||
    (let c := env.memory_chaincode m.1 (some node.chain_code)
     is_erased c.2 ||
       is_erased_2x
         (env.memory_mnemonic c.1
           (some (wallet_index_from_mnemonic env.wordlist (cstr st.mnemonic)))).2)

/-- The middle part of `wallet_master_from_mnemonic`, entered with the text in
`mnemonic`: `wallet_mnemonic_check(mnemonic)`, whose reports are appended, and the
`return` taken when it answers 0. -/
def master_check (env : Env) (st : State) (salt : Option CStr) (s_len : Nat) : State :=
  let r := wallet_mnemonic_check env.wordlist env.sha256_Raw (some (cstr st.mnemonic))
  let st := { st with reports := st.reports ++ r.2 }
  if r.1 = 0 then st
  else master_store env st salt s_len

/-- Source `wallet_master_from_mnemonic`; `mnemo = none` and `salt = none` are null pointers. -/
def wallet_master_from_mnemonic (env : Env) (st : State) (mnemo : Option CStr) (m_len : Nat)
    (salt : Option CStr) (s_len : Nat) (strength : Int) : State :=
  let st := clear_static_variables st
  match mnemo with
  | none =>
    let strength := if strength = 0 then 256 else strength
    if strength.tmod 32 ≠ 0 ∨ strength < 128 ∨ strength > 256 then
      commander_fill_report st "seed" "Strength must be a multiple of 32 between 128 and 256." .ERROR
    else
      let st := { st with rand_data_32 := memcpy st.rand_data_32 env.random_bytes 32 }
      let mnemo :=
        (wallet_mnemonic_from_data env.wordlist env.sha256_Raw st.rand_data_32
          (strength / 8)).getD []
      master_check env { st with mnemonic := memcpy_chars st.mnemonic mnemo mnemo.length } salt s_len
  | some mnemo =>
    master_check env { st with mnemonic := memcpy_chars st.mnemonic mnemo m_len } salt s_len

/-- The state in which a call of `wallet_master_from_mnemonic` with `mnemo == NULL` and a
strength that passes the strength test calls `wallet_mnemonic_check`: the buffers cleared,
the 32 random bytes in `rand_data_32` and the generated text in `mnemonic`. -/
def generation_state (env : Env) (st : State) (strength : Int) : State :=
  let st := clear_static_variables st
  let strength := if strength = 0 then 256 else strength
  let st := { st with rand_data_32 := memcpy st.rand_data_32 env.random_bytes 32 }
  let mnemo :=
    (wallet_mnemonic_from_data env.wordlist env.sha256_Raw st.rand_data_32
      (strength / 8)).getD []
  { st with mnemonic := memcpy_chars st.mnemonic mnemo mnemo.length }

/-- Characters `isspace` accepts. -/
def is_space (c : Char) : Bool := c = ' ' ∨ (9 ≤ c.toNat ∧ c.toNat ≤ 13)

/-- Characters `isdigit` accepts. -/
def is_digit (c : Char) : Bool := 48 ≤ c.toNat ∧ c.toNat ≤ 57

/-- Value of a run of decimal digits, most significant first, starting from `acc`;
stops at the first character that is not a digit. -/
def scan_digits : List Char → Nat → Nat
  | [], acc => acc
  | c :: cs, acc => if is_digit c then scan_digits cs (10 * acc + (c.toNat - 48)) else acc

/-- Largest value of `unsigned long` on the 32-bit target. -/
def ULONG_MAX : Nat := 2 ^ 32 - 1

/-- Conversion `sscanf(pch, "%lu", &idx)`: white space is skipped, a sign is accepted, and
the digits that follow are converted as `strtoul` does (a value too large becomes
`ULONG_MAX`, a minus sign negates modulo `ULONG_MAX + 1`).  `none` when no digit follows:
nothing is stored and `idx` keeps its value. -/
def sscanf_lu (pch : CStr) : Option Nat :=
  let s := pch.dropWhile is_space
  let neg := s.head? = some '-'
  let s := if s.head? = some '-' ∨ s.head? = some '+' then s.drop 1 else s
  match s with
  | [] => none
  | c :: cs =>
    if is_digit c then
      let v := scan_digits (c :: cs) 0
      some (if ULONG_MAX < v then ULONG_MAX else if neg then (ULONG_MAX + 1 - v) % (ULONG_MAX + 1) else v)
    else none

/-- Test on the last character of a path token: `pch[strlen(pch)-1]` is one of the
apostrophe, `p`, `h`, `H`. -/
def is_prime_token (pch : CStr) : Bool :=
  match pch.getLast? with
  | some c => c = Char.ofNat 39 ∨ c = 'p' ∨ c = 'h' ∨ c = 'H'
  | none => false

/-- One pass of the `while (pch != NULL)` loop of `wallet_generate_key` on the pair
`(node, idx)`; the index is passed as a `uint32_t` and the status the derivation returns
is not used. -/
def generate_key_step (env : Env) (st : HDNode × Nat) (pch : CStr) : HDNode × Nat :=
  let idx := (sscanf_lu pch).getD st.2
  if is_prime_token pch then ((env.hdnode_private_ckd_prime st.1 (idx % 2 ^ 32)).1, idx)
  else ((env.hdnode_private_ckd st.1 (idx % 2 ^ 32)).1, idx)

/-- The delimiter set of the `strtok` calls of `wallet_generate_key`: space, slash, comma,
`m` and backslash. -/
def key_path_delims : List Char := [' ', '/', ',', 'm', Char.ofNat 92]

/-- Source `wallet_generate_key`: the node left in `*node`.  The two `memcpy` calls fill
the 32-byte fields `chain_code` and `private_key` completely. -/
def wallet_generate_key (env : Env) (node : HDNode) (key_path : CStr)
    (privkeymaster chaincode : List Nat) : HDNode :=
  let node := { node with depth := 0, child_num := 0, fingerprint := 0 }
  let node := { node with chain_code := bytes_at chaincode 32 }
  let node := { node with private_key := bytes_at privkeymaster 32 }
  let node := env.hdnode_fill_public_key node
  ((strtok_all key_path_delims key_path).foldl (generate_key_step env) (node, env.uninit_idx)).1

/-- Source `wallet_report_xpub`. -/
def wallet_report_xpub (env : Env) (st : State) (keypath : CStr) : State :=
  let m := env.memory_master st.storage none
  let c := env.memory_chaincode m.1 none
  let st := { st with storage := c.1 }
  let priv_key_master := m.2
  let chain_code := c.2
  let st :=
    if is_erased priv_key_master ∨ is_erased chain_code then
      commander_fill_report st "xpub" "A bip32 master private key is not set." .ERROR
    else
      let node := wallet_generate_key env env.uninit_node keypath priv_key_master chain_code
      let xpub := env.hdnode_serialize_public node 112
      commander_fill_report st "xpub" xpub .SUCCESS
  clear_static_variables st

/-- Source `wallet_sign`. -/
def wallet_sign (env : Env) (st : State) (message : CStr) (msg_len : Int) (keypath : CStr) :
    State :=
  let m := env.memory_master st.storage none
  let c := env.memory_chaincode m.1 none
  let st := { st with storage := c.1 }
  let priv_key_master := m.2
  let chain_code := c.2
  let st :=
    if msg_len ≠ 32 * 2 then
      commander_fill_report st "sign"
        "Incorrect data length. A 32-byte hexadecimal value (64 characters) is expected." .ERROR
    else if is_erased priv_key_master ∨ is_erased chain_code then
      commander_fill_report st "sign" "A BIP32 master private key is not set." .ERROR
    else
      let data := bytes_at (env.hex_to_uint8 message) 32
      let node := wallet_generate_key env env.uninit_node keypath priv_key_master chain_code
      let r := env.uECC_sign_digest node.private_key data
      if r.1 = 0 then commander_fill_report st "sign" "Could not sign data." .ERROR
      else
        let sig := r.2
        let pub_key := env.uECC_get_public_key33 node.private_key
        let st := commander_fill_report st "sign" (env.uint8_to_hex sig 64) .SUCCESS
        commander_fill_report st "pubkey" (env.uint8_to_hex pub_key 33) .SUCCESS
  clear_static_variables st

/-- A stand-in word list used to instantiate the theorems: 2048 distinct three-letter
words over the letters a to p, word `k` spelling `k` in base 16. -/
def demo_word (k : Nat) : CStr :=
  [Char.ofNat (97 + k / 256), Char.ofNat (97 + k / 16 % 16), Char.ofNat (97 + k % 16)]

/-- The stand-in word list. -/
def demo_wordlist : List CStr := (List.range 2048).map demo_word

/-- A stand-in digest used to instantiate the theorems: 32 bytes, each the number of
input bytes modulo 256. -/
def demo_sha256 (input : List Nat) : List Nat := List.replicate 32 (input.length % 256)

/-- Bit number `p` of a byte string, each byte read from its most significant bit. -/
def bit_at (bytes : List Nat) (p : Nat) : Bool := (bytes.getD (p / 8) 0).testBit (7 - p % 8)

/-- Big-endian value of the bits `11 * i .. 11 * i + 10` of a byte string. -/
def group_value (bytes : List Nat) (i : Nat) : Nat :=
  ((List.range 11).map (fun j => (bit_at bytes (11 * i + j)).toNat * 2 ^ (10 - j))).sum

/-- What the proofs use of the table `wordlist` of `bip39_english.h`: 2048 entries, all
different, each a non-empty word of at most 8 characters (the bound the comment on
`mnemonic[256]` states) without a space, a comma or a NUL. -/
structure WordlistOK (wordlist : List CStr) : Prop where
  length_eq : wordlist.length = 2048
  nodup : wordlist.Nodup
  word_ok : ∀ w ∈ wordlist, w ≠ [] ∧ w.length ≤ 8 ∧ ' ' ∉ w ∧ ',' ∉ w ∧ NUL ∉ w

/-- Value of eleven bits read most significant first. -/
def value11 (f : Nat → Bool) : Nat :=
  ((List.range 11).map (fun j => (f j).toNat * 2 ^ (10 - j))).sum

/-- Bit number `p` of the bit string made of the 11-bit values `ks`, each written most
significant bit first; a bit past the end of the string is 0. -/
def index_string_bit (ks : List Nat) (p : Nat) : Bool :=
  (ks.getD (p / 11) 0).testBit (10 - p % 11)

/-- Byte number `q` of the bit string of `ks` packed big-endian into bytes. -/
def packed_byte (ks : List Nat) (q : Nat) : Nat :=
  ((List.range 8).map (fun j => (index_string_bit ks (8 * q + j)).toNat * 2 ^ (7 - j))).sum

/-- The first `n` bytes of the bit string of `ks` packed big-endian into bytes. -/
def packed_bytes (ks : List Nat) (n : Nat) : List Nat := (List.range n).map (packed_byte ks)

/-- The top `c` bits of a byte. -/
def top_bits (b c : Nat) : Nat := b % 256 / 2 ^ (8 - c)

/-- The words of a text looked up one after the other as `wallet_mnemonic_check` does it:
a word of more than 10 characters or a word missing from the list ends the scan with the
report; a word found at `k` appends the 11 bits of `k`. -/
def check_words (wordlist : List CStr) :
    List CStr → List Nat × Nat → Except Report (List Nat × Nat)
  | [], st => .ok st
  | w :: ws, st =>
    if 10 < w.length then .error report_word_not_in_list
    else
      match find_word wordlist w 0 with
      | none => .error report_word_not_in_list
      | some k => check_words wordlist ws (push_index_bits k st)

/-- The pair `(bits, bi)` of `wallet_mnemonic_check` after the bit loop ran for the word
positions `ks`, one after the other. -/
def push_all (ks : List Nat) (st : List Nat × Nat) : List Nat × Nat :=
  ks.foldl (fun st k => push_index_bits k st) st

/-- The 0-based position of the first entry of the word list equal to `w` (the length of
the list when there is none). -/
def word_position : List CStr → CStr → Nat
  | [], _ => 0
  | x :: xs, w => if w = x then 0 else word_position xs w + 1

/-- Invariant of the pair `(bits, bi)` after the words at positions `ks` were appended. -/
structure BitsInv (ks : List Nat) (st : List Nat × Nat) : Prop where
  bi_eq : st.2 = 11 * ks.length
  length_eq : st.1.length = 33
  lt : ∀ q, st.1.getD q 0 < 256
  bit : ∀ p, bit_at st.1 p = index_string_bit ks p

/-- A stand-in phrase: eleven times word 0 of the stand-in list, then word 1. -/
def demo_phrase : List CStr := List.replicate 11 (demo_word 0) ++ [demo_word 1]

/-- The round trip of the spec: `wallet_mnemonic_from_data`, then
`wallet_index_from_mnemonic`, then `wallet_mnemonic_from_index`, then the value returned by
`wallet_mnemonic_check`; `none` when one of the two texts is the null pointer. -/
def mnemonic_roundtrip (wordlist : List CStr) (sha256_Raw : List Nat → List Nat)
    (data : List Nat) (len : Int) : Option Int :=
  match wallet_mnemonic_from_data wordlist sha256_Raw data len with
  | none => none
  | some m =>
    match wallet_mnemonic_from_index wordlist (wallet_index_from_mnemonic wordlist m) with
    | none => none
    | some m2 => some (wallet_mnemonic_check wordlist sha256_Raw (some m2)).1

/-- The words `wallet_mnemonic_from_data` joins for the entropy `data`. -/
def entropy_words (wordlist : List CStr) (sha256_Raw : List Nat → List Nat) (data : List Nat) :
    List CStr :=
  (List.range (data.length * 3 / 4)).map
    (fun i => wordlist.getD (group_value (data ++ [(sha256_Raw data).getD 0 0]) i) [])

/-- The four secret buffers `mnemonic`, `seed`, `seed_index` and `rand_data_32` hold only
zeros. -/
def statics_zero (st : State) : Prop :=
  st.mnemonic = List.replicate 256 NUL ∧ st.seed = List.replicate 64 0 ∧
    st.seed_index = List.replicate 25 0 ∧ st.rand_data_32 = List.replicate 32 0

/-- Stand-in collaborators used to instantiate the theorems: the stand-in word list and
digest, a random source that delivers the bytes 1 to 32, flash pages that keep what is
stored and read it back, child derivations that only count
the depth and always return the failure status 0, and a signing primitive that always
succeeds. -/
def demo_env : Env where
  wordlist := demo_wordlist
  sha256_Raw := demo_sha256
  random_bytes := (List.range 32).map (fun i => i + 1)
  pbkdf2_hmac_sha512 := fun _ _ _ keylen => List.replicate keylen 1
  hdnode_from_seed := fun seed => ⟨0, 0, 0, seed.take 32, (seed.drop 32).take 32, []⟩
  hdnode_fill_public_key := fun node => { node with public_key := List.replicate 33 2 }
  hdnode_private_ckd := fun node i => ({ node with depth := node.depth + 1, child_num := i }, 0)
  hdnode_private_ckd_prime := fun node i =>
    ({ node with depth := node.depth + 1, child_num := i + 2 ^ 31 }, 0)
  hdnode_serialize_public := fun node _ => String.mk (List.replicate node.depth 'x')
  memory_master := fun s p =>
    match p with
    | none => (s, s.master)
    | some v => ({ s with master := v }, v)
  memory_chaincode := fun s p =>
    match p with
    | none => (s, s.chaincode)
    | some v => ({ s with chaincode := v }, v)
  memory_mnemonic := fun s p =>
    match p with
    | none => (s, s.mnemonic)
    | some v => ({ s with mnemonic := v }, v)
  uECC_sign_digest := fun _ _ => (1, List.replicate 64 3)
  uECC_get_public_key33 := fun _ => List.replicate 33 2
  hex_to_uint8 := fun _ => List.replicate 32 0
  uint8_to_hex := fun bytes len => String.mk ((bytes.take len).map (fun b => Char.ofNat (48 + b)))
  uninit_node := ⟨7, 7, 7, [], [], []⟩
  uninit_idx := 7
  uninit_stack := ['?', '?']

/-- A stand-in state: cleared buffers, a master key and chain code in flash, no report yet. -/
def demo_state : State where
  mnemonic := List.replicate 256 NUL
  seed_index := List.replicate 25 0
  seed := List.replicate 64 0
  rand_data_32 := List.replicate 32 0
  salt := List.replicate 268 0
  storage := ⟨List.replicate 32 1, List.replicate 32 2, List.replicate 32 0⟩
  reports := []

/-- One component of a key path: a decimal numeral and an optional marker behind it. -/
structure PathComp where
  digits : List Char
  suffix : Option Char

/-- The characters of a key path component. -/
def comp_text (c : PathComp) : CStr := c.digits ++ c.suffix.toList

/-- Value of a decimal numeral. -/
def decimal_value (ds : List Char) : Nat := ds.foldl (fun v d => 10 * v + (d.toNat - 48)) 0

/-- A component as the key path format describes it: a non-empty decimal numeral below
2^31, with no marker or one of the markers apostrophe, `p`, `h`, `H`. -/
def comp_valid (c : PathComp) : Prop :=
  c.digits ≠ [] ∧ (∀ d ∈ c.digits, is_digit d = true) ∧ decimal_value c.digits < 2 ^ 31 ∧
    (c.suffix = none ∨ c.suffix = some (Char.ofNat 39) ∨ c.suffix = some 'p' ∨
      c.suffix = some 'h' ∨ c.suffix = some 'H')

/-- The separators of the key path format: slash, comma, space, backslash. -/
def is_separator (s : Char) : Prop := s = '/' ∨ s = ',' ∨ s = ' ' ∨ s = Char.ofNat 92

/-- A key path text: each component with the separator in front of it; with a leading `m`
the text is `m` followed by all of that, without it the separator in front of the first
component is left out. -/
def key_path_text (lead_m : Bool) (comps : List (Char × PathComp)) : CStr :=
  if lead_m then 'm' :: comps.flatMap (fun p => p.1 :: comp_text p.2)
  else (comps.flatMap (fun p => p.1 :: comp_text p.2)).drop 1

/-- The node `wallet_generate_key` starts from: depth, child number and fingerprint 0, the
given chain code and private key, public key filled. -/
def root_node (env : Env) (node : HDNode) (privkeymaster chaincode : List Nat) : HDNode :=
  env.hdnode_fill_public_key
    { node with
      depth := 0
      child_num := 0
      fingerprint := 0
      chain_code := bytes_at chaincode 32
      private_key := bytes_at privkeymaster 32 }

/-- One derivation step of the spec: hardened for a component with a marker, normal otherwise. -/
def derive_step (env : Env) (node : HDNode) (c : PathComp) : HDNode :=
  if c.suffix.isSome then (env.hdnode_private_ckd_prime node (decimal_value c.digits)).1
  else (env.hdnode_private_ckd node (decimal_value c.digits)).1

/-- The left-to-right fold of the derivation steps over the components of a path. -/
def derive_path (env : Env) (root : HDNode) (comps : List PathComp) : HDNode :=
  comps.foldl (derive_step env) root

/-- A stand-in key path: the components 44 and 0, both with an apostrophe, then 7 without
a marker; with a leading `m` its text is m/44'/0',7. -/
def demo_path : List (Char × PathComp) :=
  [('/', ⟨['4', '4'], some (Char.ofNat 39)⟩), ('/', ⟨['0'], some (Char.ofNat 39)⟩),
    (',', ⟨['7'], none⟩)]

/-- The collaborators `env` with the statuses returned by `hdnode_private_ckd` and
`hdnode_private_ckd_prime` replaced by `f` and `g`; the nodes they leave are unchanged. -/
def with_ckd_status (env : Env) (f g : HDNode → Nat → Int) : Env :=
  { env with
    hdnode_private_ckd := fun node i => ((env.hdnode_private_ckd node i).1, f node i)
    hdnode_private_ckd_prime := fun node i => ((env.hdnode_private_ckd_prime node i).1, g node i) }

/-- Source `wallet_get_pubkeyhash`: the 20 bytes written to `pubkeyhash`.  The digest
functions are `sha256_Raw(data, len, digest)` and `ripemd160(msg, msg_len, hash)`. -/
def wallet_get_pubkeyhash (sha256_Raw ripemd160 : List Nat → List Nat) (pub_key : List Nat) :
    List Nat :=
  let h :=
    if u8 (pub_key.getD 0 0) = 0x04 then bytes_at (sha256_Raw (bytes_at pub_key 65)) 32
    else if u8 (pub_key.getD 0 0) = 0x00 then bytes_at (sha256_Raw (bytes_at pub_key 1)) 32
    else bytes_at (sha256_Raw (bytes_at pub_key 33)) 32
  bytes_at (ripemd160 h) 20

/-- Source `wallet_get_address_raw`: the 21 bytes written to `addr_raw`. -/
def wallet_get_address_raw (sha256_Raw ripemd160 : List Nat → List Nat) (pub_key : List Nat)
    (version : Nat) : List Nat :=
  u8 version :: wallet_get_pubkeyhash sha256_Raw ripemd160 pub_key

/-- Source `wallet_get_address`: the text left in `addr`; `base58_encode_check data len size`
is the text `base58_encode_check(data, len, str, strsize)` leaves in `str`. -/
def wallet_get_address (sha256_Raw ripemd160 : List Nat → List Nat)
    (base58_encode_check : List Nat → Nat → Nat → CStr) (pub_key : List Nat) (version : Nat)
    (addrsize : Nat) : CStr :=
  let raw := wallet_get_address_raw sha256_Raw ripemd160 pub_key version
  base58_encode_check raw 21 addrsize

/-- Source `wallet_get_wif`: the text left in `wif`. -/
def wallet_get_wif (base58_encode_check : List Nat → Nat → Nat → CStr) (priv_key : List Nat)
    (version : Nat) (wifsize : Nat) : CStr :=
  let data := u8 version :: bytes_at priv_key 32
  let data := data ++ [0x01]
  base58_encode_check data 34 wifsize

/-- A stand-in for RIPEMD-160: 20 bytes, each the number of input bytes modulo 256. -/
def demo_ripemd160 (input : List Nat) : List Nat := List.replicate 20 (input.length % 256)

/-- A stand-in for `base58_encode_check`: two letters from a to p per byte, and nothing
when the letters and the terminator do not fit the `size` characters of the output. -/
def demo_base58_encode (data : List Nat) (len : Nat) (size : Nat) : CStr :=
  if 2 * len + 1 ≤ size then
    (data.take len).flatMap
      (fun b => [Char.ofNat (97 + b / 16 % 16), Char.ofNat (97 + b % 16)])
  else []

/-- A stand-in for the decoder of `demo_base58_encode`: one byte per pair of letters. -/
def demo_base58_decode : CStr → Option (List Nat)
  | [] => some []
  | [_] => none
  | c :: d :: cs =>
    (demo_base58_decode cs).map (fun r => ((c.toNat - 97) * 16 + (d.toNat - 97)) :: r)

/-- Modelled from the spec: the tokens of a text "separated by spaces and/or commas" are
the non-empty pieces that remain when the text is cut at every space and every comma. -/
def spec_tokens (text : CStr) : List CStr :=
  (text.splitOnP (fun c => c = ' ' || c = ',')).filter (fun t => decide (t ≠ []))

/-- Modelled from the spec: each token that occurs in the word list replaced by its first
0-based position plus 1, each token that does not occur dropped. -/
def found_indices (wordlist : List CStr) (tokens : List CStr) : List Nat :=
  tokens.filterMap (fun w => if w ∈ wordlist then some (word_position wordlist w + 1) else none)


/-- The indices of `current_word[10]` that one run of the inner loop
`while (mnemo[i] != ' ' && mnemo[i] != 0)` of `wallet_mnemonic_check` stores to, in order,
`j` being the number of characters stored so far: `current_word[j] = mnemo[i]` in the loop
and `current_word[j] = 0` behind it; the return taken when `j >= sizeof(current_word)`
stores nothing more. -/
def read_current_word_stores : List Char → Nat → List Nat
  | [], j => [j]
  | c :: cs, j =>
    if c = ' ' then [j]
    else if 10 ≤ j then []
    else j :: read_current_word_stores cs (j + 1)

/-- The indices of `current_word[10]` stored to by the outer loop `while (mnemo[i])` of
`wallet_mnemonic_check`, pass after pass, up to the end of the text or the first
`return 0`. -/
def check_loop_word_stores (wordlist : List CStr) : Nat → List Char → List Nat
  | 0, _ => []
  | _ + 1, [] => []
  | fuel + 1, c :: cs =>
    read_current_word_stores (c :: cs) 0 ++
      match read_current_word (c :: cs) [] with
      | none => []
      | some (current_word, rest) =>
        match find_word wordlist current_word 0 with
        | none => []
        | some _ => check_loop_word_stores wordlist fuel (rest.drop 1)

/-- The indices of `current_word[10]` that a call of `wallet_mnemonic_check` stores to:
none when the call returns before the word loop. -/
def current_word_stores (wordlist : List CStr) (mnemo : Option CStr) : List Nat :=
  match mnemo with
  | none => []
  | some mnemo =>
    let n := (split_seed mnemo).1
    if n ≠ 12 ∧ n ≠ 18 ∧ n ≠ 24 then []
    else check_loop_word_stores wordlist mnemo.length mnemo

/-- The byte indices of `bits[33]` that the loop `for (ki = 0; ki < 11; ki++)` of
`wallet_mnemonic_check` stores to for a word found at `k` when the bit counter is `bi`:
`bits[bi / 8] |= ...` for every set bit of `k`. -/
def push_index_bits_stores (k bi : Nat) : List Nat :=
  (List.range 11).filterMap
    (fun ki => if k &&& (1 <<< (10 - ki)) ≠ 0 then some ((bi + ki) / 8) else none)

/-- The byte indices of `bits[33]` stored to by the outer loop of `wallet_mnemonic_check`
that starts with the bit counter `bi`, up to the end of the text or the first `return 0`. -/
def check_loop_bits_stores (wordlist : List CStr) : Nat → List Char → Nat → List Nat
  | 0, _, _ => []
  | _ + 1, [], _ => []
  | fuel + 1, c :: cs, bi =>
    match read_current_word (c :: cs) [] with
    | none => []
    | some (current_word, rest) =>
      match find_word wordlist current_word 0 with
      | none => []
      | some k =>
        push_index_bits_stores k bi ++
          check_loop_bits_stores wordlist fuel (rest.drop 1) (bi + 11)

/-- The byte indices of `bits[33]` that the word loop of a call of `wallet_mnemonic_check`
stores to: none when the call returns before the word loop. -/
def bits_stores (wordlist : List CStr) (mnemo : Option CStr) : List Nat :=
  match mnemo with
  | none => []
  | some mnemo =>
    let n := (split_seed mnemo).1
    if n ≠ 12 ∧ n ≠ 18 ∧ n ≠ 24 then []
    else check_loop_bits_stores wordlist mnemo.length mnemo 0

/-- The number of words the outer loop of `wallet_mnemonic_check` finds in the word list
before the text ends or a `return 0` is taken. -/
def check_loop_matched (wordlist : List CStr) : Nat → List Char → Nat
  | 0, _ => 0
  | _ + 1, [] => 0
  | fuel + 1, c :: cs =>
    match read_current_word (c :: cs) [] with
    | none => 0
    | some (current_word, rest) =>
      match find_word wordlist current_word 0 with
      | none => 0
      | some _ => check_loop_matched wordlist fuel (rest.drop 1) + 1

/-- The report of `wallet_mnemonic_check` for a bit count that differs from `n * 11`. -/
def report_bit_count : Report := ⟨"seed", "Mnemonic check error. [0]", .ERROR⟩


/-- A stand-in word list with a comma in one word: entry 0 is "a,b", the other 2047
entries are those of the stand-in word list. -/
def comma_wordlist : List CStr :=
  (List.range 2048).map (fun k => if k = 0 then ['a', ',', 'b'] else demo_word k)

end Wallet

namespace Wallet

/-! ## Facts about the stand-in word list -/

theorem char_ofNat_toNat (n : Nat) (h : n < 128) : (Char.ofNat n).toNat = n := by
  revert n; decide

theorem demo_char_ne (n : Nat) (h1 : 97 ≤ n) (h2 : n < 128) (c : Char) (hc : c.toNat < 97) :
    Char.ofNat n ≠ c := by
  intro h
  have := char_ofNat_toNat n h2
  rw [h] at this
  omega

theorem demo_word_injOn (a b : Nat) (ha : a < 2048) (hb : b < 2048)
    (h : demo_word a = demo_word b) : a = b := by
  simp only [demo_word, List.cons.injEq, and_true] at h
  obtain ⟨h1, h2, h3⟩ := h
  have e1 := congrArg Char.toNat h1
  have e2 := congrArg Char.toNat h2
  have e3 := congrArg Char.toNat h3
  rw [char_ofNat_toNat _ (by omega), char_ofNat_toNat _ (by omega)] at e1 e2 e3
  omega

theorem demo_wordlist_ok : WordlistOK demo_wordlist where
  length_eq := by simp [demo_wordlist]
  nodup := by
    unfold demo_wordlist
    refine List.Nodup.map_on ?_ (List.nodup_range 2048)
    intro a ha b hb h
    exact demo_word_injOn a b (List.mem_range.mp ha) (List.mem_range.mp hb) h
  word_ok := by
    intro w hw
    simp only [demo_wordlist, List.mem_map, List.mem_range] at hw
    obtain ⟨k, hk, rfl⟩ := hw
    have h1 : ∀ c : Char, c.toNat < 97 → c ∉ demo_word k := by
      intro c hc
      simp only [demo_word, List.mem_cons, List.mem_singleton, List.not_mem_nil, or_false,
        not_or]
      refine ⟨?_, ?_, ?_⟩ <;> exact fun h => demo_char_ne _ (by omega) (by omega) c hc h.symm
    refine ⟨by simp [demo_word], by simp [demo_word], h1 _ (by decide), h1 _ (by decide),
      h1 _ (by decide)⟩

/-! ## Length guard of `wallet_mnemonic_from_data` -/

/-- Claim C3: `wallet_mnemonic_from_data` returns no mnemonic exactly when `len` is not a
multiple of 4, or is below 16, or is above 32; for every other `len` it returns one. -/
theorem wallet_mnemonic_from_data_none_iff (wordlist : List CStr)
    (sha256_Raw : List Nat → List Nat) (data : List Nat) (len : Int) :
    (wallet_mnemonic_from_data wordlist sha256_Raw data len = none ↔
        (¬ (4 ∣ len) ∨ len < 16 ∨ len > 32)) ∧
      (¬ (¬ (4 ∣ len) ∨ len < 16 ∨ len > 32) →
        ∃ m, wallet_mnemonic_from_data wordlist sha256_Raw data len = some m) := by
  unfold wallet_mnemonic_from_data
  rw [Int.dvd_iff_tmod_eq_zero]
  constructor
  · split <;> simp_all
  · intro h
    rw [if_neg h]
    exact ⟨_, rfl⟩

/-! ## Word-count gate of `wallet_mnemonic_check` -/

theorem check_word_count_gate (wordlist : List CStr) (sha256_Raw : List Nat → List Nat)
    (mnemo : CStr) (h : (split_seed mnemo).1 ∉ [12, 18, 24]) :
    wallet_mnemonic_check wordlist sha256_Raw (some mnemo) = (0, [report_word_count]) := by
  simp only [List.mem_cons, List.mem_singleton, List.not_mem_nil, or_false, not_or] at h
  simp only [wallet_mnemonic_check]
  rw [if_pos h]

theorem split_seed_stores_fit (message : CStr) (hfit : split_seed_fits message) :
    (∀ i ∈ split_seed_msg_stores message, i < 255) ∧
      ∀ i ∈ split_seed_word_stores message, i < 25 := by
  obtain ⟨h1, h2⟩ := hfit
  constructor
  · intro i hi
    have := List.mem_range.mp hi
    omega
  · intro i hi
    have := List.mem_range.mp hi
    omega

/-- Inside the arrays of `split_seed`, a text whose number of tokens (split on spaces and
commas) is not 12, 18 or 24 makes `wallet_mnemonic_check` return 0 with the single report
("seed", "Mnemonic must have 12, 18, or 24 words.", ERROR); hence a text that is accepted
has 12, 18 or 24 tokens. -/
theorem wallet_mnemonic_check_word_count (wordlist : List CStr)
    (sha256_Raw : List Nat → List Nat) (mnemo : CStr) (hfit : split_seed_fits mnemo) :
    (∀ i ∈ split_seed_word_stores mnemo, i < 25) ∧
      ((split_seed mnemo).1 ∉ [12, 18, 24] →
        wallet_mnemonic_check wordlist sha256_Raw (some mnemo) =
          (0, [⟨"seed", "Mnemonic must have 12, 18, or 24 words.", Status.ERROR⟩])) ∧
      ((wallet_mnemonic_check wordlist sha256_Raw (some mnemo)).1 = 1 →
        (split_seed mnemo).1 ∈ [12, 18, 24]) := by
  refine ⟨(split_seed_stores_fit mnemo hfit).2, check_word_count_gate wordlist sha256_Raw mnemo,
    ?_⟩
  intro h1
  by_contra hn
  rw [check_word_count_gate wordlist sha256_Raw mnemo hn] at h1
  simp at h1

/-- Claim C5 at its failing input: for the text of 25 words "a", 49 characters long,
`split_seed` counts 25 tokens and stores the NULL that ends its loop at index 25 of the
array it was given, which `wallet_mnemonic_check` declares as `char *sham[25]`. -/
theorem split_seed_overruns_sham :
    ([' '].intercalate (List.replicate 25 ['a'])).length = 49 ∧
      (split_seed ([' '].intercalate (List.replicate 25 ['a']))).1 = 25 ∧
      25 ∈ split_seed_word_stores ([' '].intercalate (List.replicate 25 ['a'])) := by
  decide

/-! ## Bit groups -/

theorem and_shift_pos (x k : Nat) : (x &&& (1 <<< k) > 0) ↔ x.testBit k = true := by
  rw [Nat.one_shiftLeft, Nat.and_two_pow]
  cases h : x.testBit k <;> simp [Nat.pos_pow_of_pos]

theorem ite_toNat (b : Bool) : (if b = true then 1 else 0) = b.toNat := by
  cases b <;> rfl

theorem word_index_eq (bits : List Nat) (i : Nat) : word_index bits i = group_value bits i := by
  simp only [word_index, group_value, bit_at, and_shift_pos, Nat.mul_comm i 11]
  simp only [List.range, List.range.loop, List.foldl, List.map, List.sum_cons, List.sum_nil,
    ite_toNat, Nat.reducePow, Nat.reduceSub]
  omega

theorem value11_lt (f : Nat → Bool) : value11 f < 2048 := by
  simp only [value11, List.range, List.range.loop, List.foldl, List.map, List.sum_cons,
    List.sum_nil, Nat.reducePow, Nat.reduceSub]
  have h : ∀ b : Bool, b.toNat ≤ 1 := by decide
  have h0 := h (f 0); have h1 := h (f 1); have h2 := h (f 2); have h3 := h (f 3)
  have h4 := h (f 4); have h5 := h (f 5); have h6 := h (f 6); have h7 := h (f 7)
  have h8 := h (f 8); have h9 := h (f 9); have h10 := h (f 10)
  omega

theorem value11_testBit (f : Nat → Bool) (j : Nat) (hj : j < 11) :
    (value11 f).testBit (10 - j) = f j := by
  rw [Nat.testBit_to_div_mod]
  simp only [value11, List.range, List.range.loop, List.foldl, List.map, List.sum_cons,
    List.sum_nil, Nat.reducePow, Nat.reduceSub]
  have h : ∀ b : Bool, b.toNat ≤ 1 := by decide
  have h0 := h (f 0); have h1 := h (f 1); have h2 := h (f 2); have h3 := h (f 3)
  have h4 := h (f 4); have h5 := h (f 5); have h6 := h (f 6); have h7 := h (f 7)
  have h8 := h (f 8); have h9 := h (f 9); have h10 := h (f 10)
  have hb : ∀ b : Bool, ∀ n : Nat, (n % 2 = b.toNat) → decide (n % 2 = 1) = b := by
    intro b n; cases b <;> simp
  apply hb
  interval_cases j <;> simp only [Nat.reducePow, Nat.reduceSub] <;> omega

theorem group_value_eq (bits : List Nat) (i : Nat) :
    group_value bits i = value11 (fun j => bit_at bits (11 * i + j)) := rfl

/-! ## Words joined by spaces and their tokens -/

theorem intercalate_sp_nil : [' '].intercalate ([] : List CStr) = [] := rfl

theorem intercalate_sp_singleton (w : CStr) : [' '].intercalate [w] = w := by
  simp [List.intercalate]

theorem intercalate_sp_cons_cons (w w' : CStr) (ws : List CStr) :
    [' '].intercalate (w :: w' :: ws) = w ++ ' ' :: [' '].intercalate (w' :: ws) := by
  simp [List.intercalate]

theorem intercalate_sp_snoc (pre : List CStr) (x : CStr) :
    [' '].intercalate (pre ++ [x]) = pre.flatMap (fun w => w ++ [' ']) ++ x := by
  induction pre with
  | nil => simp [intercalate_sp_singleton]
  | cons w pre ih =>
    cases pre with
    | nil => simp [intercalate_sp_cons_cons, intercalate_sp_singleton]
    | cons w' pre =>
      rw [List.cons_append, List.cons_append, intercalate_sp_cons_cons, ← List.cons_append, ih]
      simp

theorem foldl_append_flatMap {α β : Type} (f : α → List β) (l : List α) (acc : List β) :
    l.foldl (fun p i => p ++ f i) acc = acc ++ l.flatMap f := by
  induction l generalizing acc with
  | nil => simp
  | cons a l ih => simp [ih]

theorem strtok_from_word (d : List Char) (w : CStr) (hw : ∀ c ∈ w, c ∉ d) (rest cur : List Char) :
    strtok_from d (w ++ rest) cur = strtok_from d rest (cur ++ w) := by
  induction w generalizing cur with
  | nil => simp
  | cons c w ih =>
    have hc : c ∉ d := hw c (List.mem_cons_self _ _)
    rw [List.cons_append, strtok_from, if_neg hc, ih (fun x hx => hw x (List.mem_cons_of_mem _ hx))]
    simp

theorem strtok_all_intercalate (d : List Char) (hd : ' ' ∈ d) (ws : List CStr)
    (hws : ∀ w ∈ ws, w ≠ [] ∧ ∀ c ∈ w, c ∉ d) :
    strtok_all d ([' '].intercalate ws) = ws := by
  unfold strtok_all
  induction ws with
  | nil => simp [intercalate_sp_nil, strtok_from]
  | cons w ws ih =>
    obtain ⟨hne, hnd⟩ := hws w (List.mem_cons_self _ _)
    have ih := ih (fun x hx => hws x (List.mem_cons_of_mem _ hx))
    cases ws with
    | nil =>
      rw [intercalate_sp_singleton]
      have := strtok_from_word d w hnd [] []
      rw [List.append_nil] at this
      rw [this, strtok_from]
      simp [hne]
    | cons w' ws =>
      rw [intercalate_sp_cons_cons, strtok_from_word d w hnd, strtok_from, if_pos hd]
      simp only [List.nil_append, hne, if_false]
      rw [ih]

/-! ## The text built by `wallet_mnemonic_from_data` -/

theorem bytes_at_eq_self (data : List Nat) (hb : ∀ b ∈ data, b < 256) :
    bytes_at data data.length = data := by
  apply List.ext_getElem
  · simp [bytes_at]
  · intro i h1 h2
    simp only [bytes_at, List.getElem_map, List.getElem_range, u8]
    rw [List.getD_eq_getElem _ _ h2]
    exact Nat.mod_eq_of_lt (hb _ (List.getElem_mem _))

theorem bytes_at_length (src : List Nat) (n : Nat) : (bytes_at src n).length = n := by
  simp [bytes_at]

theorem from_data_bits_eq (sha256_Raw : List Nat → List Nat) (data : List Nat)
    (h32 : data.length ≤ 32) (hb : ∀ b ∈ data, b < 256) :
    ∃ rest, from_data_bits sha256_Raw data data.length =
      data ++ u8 ((sha256_Raw data).getD 0 0) :: rest := by
  simp only [from_data_bits, memcpy, bytes_at_eq_self data hb]
  have hl : data.length < ((bytes_at (sha256_Raw data) 32 ++
      List.drop 32 (List.replicate 33 0)).set data.length
        ((bytes_at (sha256_Raw data) 32 ++ List.drop 32 (List.replicate 33 0)).getD 0 0)).length := by
    simp [bytes_at_length]; omega
  rw [List.drop_eq_getElem_cons hl]
  rw [List.getElem_set_self]
  have h0 : (bytes_at (sha256_Raw data) 32 ++ List.drop 32 (List.replicate 33 0)).getD 0 0 =
      u8 ((sha256_Raw data).getD 0 0) := by
    simp [bytes_at, List.getD_eq_getElem?_getD, List.range_succ_eq_map]
  rw [h0]
  exact ⟨_, rfl⟩

theorem from_data_loop_eq (wordlist : List CStr) (bits : List Nat) (mlen : Nat) (hm : 0 < mlen) :
    from_data_loop wordlist bits mlen =
      [' '].intercalate ((List.range mlen).map (fun i => wordlist.getD (word_index bits i) [])) := by
  obtain ⟨k, rfl⟩ : ∃ k, mlen = k + 1 := ⟨mlen - 1, by omega⟩
  rw [from_data_loop, foldl_append_flatMap, List.nil_append, List.range_succ, List.map_append,
    List.map_singleton, intercalate_sp_snoc, List.flatMap_append, List.flatMap_singleton]
  congr 1
  · rw [List.flatMap_map]
    apply List.flatMap_congr
    intro i hi
    have := List.mem_range.mp hi
    simp only [from_data_piece, this, Nat.add_lt_add_iff_right, if_true]
  · simp only [from_data_piece, Nat.lt_irrefl, if_false, List.append_nil]

theorem bit_at_append_cons (data : List Nat) (x : Nat) (rest : List Nat) (p : Nat)
    (hp : p / 8 ≤ data.length) :
    bit_at (data ++ u8 x :: rest) p = bit_at (data ++ [x]) p := by
  unfold bit_at
  rcases Nat.lt_or_eq_of_le hp with h | h
  · simp [List.getD_eq_getElem?_getD, List.getElem?_append_left h]
  · simp only [List.getD_eq_getElem?_getD, h, List.getElem?_append_right (Nat.le_refl _),
      Nat.sub_self, List.getElem?_cons_zero, Option.getD_some, u8]
    have : (256 : Nat) = 2 ^ 8 := by norm_num
    rw [this, Nat.testBit_mod_two_pow]
    have : 7 - p % 8 < 8 := by omega
    simp [this]

theorem group_value_congr (a b : List Nat) (i : Nat)
    (h : ∀ j < 11, bit_at a (11 * i + j) = bit_at b (11 * i + j)) :
    group_value a i = group_value b i := by
  simp only [group_value]
  have e : (List.range 11).map (fun j => (bit_at a (11 * i + j)).toNat * 2 ^ (10 - j)) =
      (List.range 11).map (fun j => (bit_at b (11 * i + j)).toNat * 2 ^ (10 - j)) :=
    List.map_congr_left (fun j hj => by rw [h j (List.mem_range.mp hj)])
  rw [e]

/-- The text `wallet_mnemonic_from_data` returns for an accepted length. -/
theorem from_data_eq (wordlist : List CStr) (sha256_Raw : List Nat → List Nat) (data : List Nat)
    (h4 : data.length % 4 = 0) (h16 : 16 ≤ data.length) (h32 : data.length ≤ 32)
    (hb : ∀ b ∈ data, b < 256) :
    wallet_mnemonic_from_data wordlist sha256_Raw data data.length =
      some ([' '].intercalate ((List.range (data.length * 3 / 4)).map
        (fun i => wordlist.getD (group_value (data ++ [(sha256_Raw data).getD 0 0]) i) []))) := by
  have hg : ¬ (((data.length : Int).tmod 4 ≠ 0) ∨ (data.length : Int) < 16 ∨
      (data.length : Int) > 32) := by
    have h0 : (data.length : Int).tmod 4 = 0 := Int.dvd_iff_tmod_eq_zero.mp (by omega)
    rintro (h | h | h)
    · exact h h0
    · omega
    · omega
  simp only [wallet_mnemonic_from_data]
  rw [if_neg hg]
  simp only [Int.toNat_ofNat]
  rw [from_data_loop_eq _ _ _ (by omega)]
  obtain ⟨rest, hrest⟩ := from_data_bits_eq sha256_Raw data h32 hb
  rw [hrest]
  have e : ∀ i ∈ List.range (data.length * 3 / 4),
      wordlist.getD (word_index (data ++ u8 ((sha256_Raw data).getD 0 0) :: rest) i) [] =
        wordlist.getD (group_value (data ++ [(sha256_Raw data).getD 0 0]) i) [] := by
    intro i hi
    have hi := List.mem_range.mp hi
    rw [word_index_eq, group_value_congr _ (data ++ [(sha256_Raw data).getD 0 0])]
    intro j hj
    apply bit_at_append_cons
    omega
  rw [List.map_congr_left e]

theorem intercalate_sp_head (w : CStr) (ws : List CStr) (hw : w ≠ []) :
    ([' '].intercalate (w :: ws)).head? = w.head? := by
  cases ws with
  | nil => rw [intercalate_sp_singleton]
  | cons w' ws => rw [intercalate_sp_cons_cons, List.head?_append_of_ne_nil _ hw]

theorem intercalate_sp_getLast (pre : List CStr) (x : CStr) (hx : x ≠ []) :
    ([' '].intercalate (pre ++ [x])).getLast? = x.getLast? := by
  rw [intercalate_sp_snoc, List.getLast?_append_of_ne_nil _ hx]

theorem intercalate_sp_no_outer_space (ws : List CStr) (hne : ws ≠ [])
    (hws : ∀ w ∈ ws, w ≠ [] ∧ ' ' ∉ w) :
    ([' '].intercalate ws).head? ≠ some ' ' ∧ ([' '].intercalate ws).getLast? ≠ some ' ' := by
  constructor
  · cases ws with
    | nil => exact absurd rfl hne
    | cons w ws =>
      obtain ⟨h1, h2⟩ := hws w (List.mem_cons_self _ _)
      rw [intercalate_sp_head w ws h1]
      intro h
      exact h2 (List.mem_of_mem_head? (by rw [h]; exact rfl))
  · rcases List.eq_nil_or_concat ws with h | ⟨pre, x, h⟩
    · exact absurd h hne
    · rw [List.concat_eq_append] at h
      subst h
      obtain ⟨h1, h2⟩ := hws x (by simp)
      rw [intercalate_sp_getLast pre x h1]
      intro h
      exact h2 (List.mem_of_mem_getLast? (by rw [h]; exact rfl))

theorem getD_mem_wordlist (wordlist : List CStr) (hwl : WordlistOK wordlist) (g : Nat)
    (hg : g < 2048) : wordlist.getD g [] ∈ wordlist := by
  rw [List.getD_eq_getElem _ _ (by rw [hwl.length_eq]; exact hg)]
  exact List.getElem_mem _

/-- Claim C2: for an entropy of `len` bytes, `len` a multiple of 4 between 16 and 32,
`wallet_mnemonic_from_data` returns `len * 3 / 4` words of the word list joined by single
spaces, with no space in front or at the end; word `i` is the entry of the word list whose
position is the big-endian value of bits `11 * i .. 11 * i + 10` of the entropy bytes
followed by the first byte of the SHA-256 digest of the entropy. -/
theorem wallet_mnemonic_from_data_words (wordlist : List CStr)
    (sha256_Raw : List Nat → List Nat) (data : List Nat) (hwl : WordlistOK wordlist)
    (h4 : data.length % 4 = 0) (h16 : 16 ≤ data.length) (h32 : data.length ≤ 32)
    (hb : ∀ b ∈ data, b < 256) :
    ∃ words : List CStr,
      wallet_mnemonic_from_data wordlist sha256_Raw data data.length =
          some ([' '].intercalate words) ∧
        words.length = data.length * 3 / 4 ∧
        (∀ i, i < data.length * 3 / 4 →
          group_value (data ++ [(sha256_Raw data).getD 0 0]) i < wordlist.length ∧
          words[i]? = wordlist[group_value (data ++ [(sha256_Raw data).getD 0 0]) i]?) ∧
        ([' '].intercalate words).head? ≠ some ' ' ∧
        ([' '].intercalate words).getLast? ≠ some ' ' := by
  refine ⟨_, from_data_eq wordlist sha256_Raw data h4 h16 h32 hb, by simp, ?_, ?_⟩
  · intro i hi
    have hg : group_value (data ++ [(sha256_Raw data).getD 0 0]) i < wordlist.length := by
      rw [hwl.length_eq, group_value_eq]
      exact value11_lt _
    refine ⟨hg, ?_⟩
    rw [List.getElem?_map, List.getElem?_range hi, Option.map_some', List.getD_eq_getElem _ _ hg,
      List.getElem?_eq_getElem hg]
  · apply intercalate_sp_no_outer_space
    · intro h
      have := congrArg List.length h
      simp at this
      omega
    · intro w hw
      simp only [List.mem_map, List.mem_range] at hw
      obtain ⟨i, _, rfl⟩ := hw
      have hm := getD_mem_wordlist wordlist hwl
        (group_value (data ++ [(sha256_Raw data).getD 0 0]) i) (value11_lt _)
      have := hwl.word_ok _ hm
      exact ⟨this.1, this.2.2.1⟩

/-- Instance of claim C2: 16 zero bytes with the stand-in word list and digest. -/
theorem wallet_mnemonic_from_data_words_witness :
    ∃ words : List CStr,
      wallet_mnemonic_from_data demo_wordlist demo_sha256 (List.replicate 16 0)
          (List.replicate 16 0).length = some ([' '].intercalate words) ∧
        words.length = (List.replicate 16 0).length * 3 / 4 ∧
        (∀ i, i < (List.replicate 16 0).length * 3 / 4 →
          group_value (List.replicate 16 0 ++ [(demo_sha256 (List.replicate 16 0)).getD 0 0]) i
              < demo_wordlist.length ∧
          words[i]? =
            demo_wordlist[group_value
              (List.replicate 16 0 ++ [(demo_sha256 (List.replicate 16 0)).getD 0 0]) i]?) ∧
        ([' '].intercalate words).head? ≠ some ' ' ∧
        ([' '].intercalate words).getLast? ≠ some ' ' :=
  wallet_mnemonic_from_data_words demo_wordlist demo_sha256 (List.replicate 16 0)
    demo_wordlist_ok (by decide) (by decide) (by decide) (by decide)

/-! ## The bit buffer of `wallet_mnemonic_check` -/

theorem ne_zero_and_shift (x k : Nat) : (x &&& (1 <<< k) ≠ 0) ↔ x.testBit k = true := by
  rw [← and_shift_pos]; omega

theorem bit_at_set (bits : List Nat) (q v p : Nat) (hq : q < bits.length) :
    bit_at (bits.set q v) p = if p / 8 = q then v.testBit (7 - p % 8) else bit_at bits p := by
  unfold bit_at
  rw [List.getD_eq_getElem?_getD, List.getElem?_set]
  by_cases h : q = p / 8
  · rw [if_pos h, if_pos hq, if_pos h.symm]; rfl
  · rw [if_neg h, if_neg (Ne.symm h), List.getD_eq_getElem?_getD]

theorem u8_testBit (x i : Nat) (hi : i < 8) : (u8 x).testBit i = x.testBit i := by
  have : (256 : Nat) = 2 ^ 8 := by norm_num
  rw [u8, this, Nat.testBit_mod_two_pow]
  simp [hi]

theorem bit_at_set_bit (bits : List Nat) (bi p : Nat) (h : bi / 8 < bits.length) :
    bit_at (bits.set (bi / 8) (u8 (bits.getD (bi / 8) 0 ||| (1 <<< (7 - bi % 8))))) p =
      (bit_at bits p || decide (p = bi)) := by
  rw [bit_at_set _ _ _ _ h]
  by_cases hp : p / 8 = bi / 8
  · rw [if_pos hp, u8_testBit _ _ (by omega), Nat.testBit_or, Nat.one_shiftLeft,
      Nat.testBit_two_pow, bit_at, hp]
    congr 1
    apply decide_eq_decide.mpr
    omega
  · rw [if_neg hp]
    have : p ≠ bi := fun e => hp (by rw [e])
    simp [this]

theorem push_index_bit_spec (k : Nat) (st : List Nat × Nat) (ki : Nat)
    (h : st.2 / 8 < st.1.length) :
    (push_index_bit k st ki).2 = st.2 + 1 ∧
      (push_index_bit k st ki).1.length = st.1.length ∧
      ∀ p, bit_at (push_index_bit k st ki).1 p =
        (bit_at st.1 p || (decide (p = st.2) && k.testBit (10 - ki))) := by
  refine ⟨rfl, ?_, ?_⟩
  · simp only [push_index_bit]; split <;> simp
  · intro p
    simp only [push_index_bit, ne_zero_and_shift]
    by_cases hk : k.testBit (10 - ki) = true
    · rw [if_pos hk, bit_at_set_bit _ _ _ h, hk, Bool.and_true]
    · rw [if_neg hk]
      simp [hk]

theorem push_index_bits_prefix (k : Nat) (st : List Nat × Nat) (j : Nat)
    (h : st.2 + j ≤ 8 * st.1.length) :
    ((List.range j).foldl (push_index_bit k) st).2 = st.2 + j ∧
      ((List.range j).foldl (push_index_bit k) st).1.length = st.1.length ∧
      ∀ p, bit_at ((List.range j).foldl (push_index_bit k) st).1 p =
        (bit_at st.1 p ||
          (decide (st.2 ≤ p ∧ p < st.2 + j) && k.testBit (10 - (p - st.2)))) := by
  induction j with
  | zero => simp
  | succ j ih =>
    obtain ⟨ih1, ih2, ih3⟩ := ih (by omega)
    rw [List.range_succ, List.foldl_append, List.foldl_cons, List.foldl_nil]
    obtain ⟨s1, s2, s3⟩ := push_index_bit_spec k ((List.range j).foldl (push_index_bit k) st) j
      (by rw [ih1, ih2]; omega)
    refine ⟨by rw [s1, ih1]; omega, by rw [s2, ih2], ?_⟩
    intro p
    rw [s3, ih3, ih1]
    by_cases hp : p = st.2 + j
    · subst hp
      have e1 : (st.2 ≤ st.2 + j ∧ st.2 + j < st.2 + j) = False := by simp
      have e2 : (st.2 ≤ st.2 + j ∧ st.2 + j < st.2 + (j + 1)) = True := by simp
      simp [e1, e2]
    · have e : (st.2 ≤ p ∧ p < st.2 + (j + 1)) ↔ (st.2 ≤ p ∧ p < st.2 + j) := by omega
      simp [hp, e]

/-! ## The word loop of `wallet_mnemonic_check` -/

theorem find_word_eq (wordlist : List CStr) (w : CStr) (k : Nat) :
    find_word wordlist w k =
      if w ∈ wordlist then some (k + word_position wordlist w) else none := by
  induction wordlist generalizing k with
  | nil => simp [find_word]
  | cons x xs ih =>
    rw [find_word, word_position]
    by_cases h : w = x
    · subst h
      rw [if_pos rfl, if_pos (List.mem_cons_self _ _), if_pos rfl, Nat.add_zero]
    · rw [if_neg h, ih, if_neg h]
      simp only [List.mem_cons, h, false_or]
      split
      · congr 1; omega
      · rfl

theorem word_position_getElem (wordlist : List CStr) (hnd : wordlist.Nodup) (g : Nat)
    (hg : g < wordlist.length) : word_position wordlist wordlist[g] = g := by
  induction wordlist generalizing g with
  | nil => simp at hg
  | cons x xs ih =>
    rw [List.nodup_cons] at hnd
    cases g with
    | zero => simp [word_position]
    | succ g =>
      have hg2 : g < xs.length := by simpa using hg
      have hne : xs[g] ≠ x := fun e => hnd.1 (by rw [← e]; exact List.getElem_mem _)
      simp only [List.getElem_cons_succ, word_position, if_neg hne]
      rw [ih hnd.2 g hg2]

theorem check_words_ok (wordlist : List CStr) (ws : List CStr) (st : List Nat × Nat)
    (h : ∀ w ∈ ws, w.length ≤ 10 ∧ w ∈ wordlist) :
    check_words wordlist ws st = .ok (push_all (ws.map (word_position wordlist)) st) := by
  induction ws generalizing st with
  | nil => rfl
  | cons w ws ih =>
    obtain ⟨h1, h2⟩ := h w (List.mem_cons_self _ _)
    rw [check_words, if_neg (by omega), find_word_eq, if_pos h2]
    simp only [Nat.zero_add]
    rw [ih _ (fun x hx => h x (List.mem_cons_of_mem _ hx))]
    rfl

theorem check_words_error (wordlist : List CStr) (ws : List CStr) (st : List Nat × Nat)
    (h : ∃ w ∈ ws, ¬ (w.length ≤ 10 ∧ w ∈ wordlist)) :
    check_words wordlist ws st = .error report_word_not_in_list := by
  induction ws generalizing st with
  | nil => simp at h
  | cons w ws ih =>
    rw [check_words]
    by_cases h1 : 10 < w.length
    · rw [if_pos h1]
    · rw [if_neg h1, find_word_eq]
      by_cases h2 : w ∈ wordlist
      · rw [if_pos h2]
        simp only
        apply ih
        obtain ⟨x, hx, hbad⟩ := h
        rcases List.mem_cons.mp hx with e | e
        · subst e; exact absurd ⟨by omega, h2⟩ hbad
        · exact ⟨x, e, hbad⟩
      · rw [if_neg h2]

theorem read_current_word_eq (w : CStr) (hw : ' ' ∉ w) (rest acc : List Char)
    (hr : rest = [] ∨ rest.head? = some ' ') (ha : acc.length ≤ 10) :
    read_current_word (w ++ rest) acc =
      if acc.length + w.length ≤ 10 then some (acc ++ w, rest) else none := by
  induction w generalizing acc with
  | nil =>
    simp only [List.nil_append, List.length_nil, Nat.add_zero, ha, if_true, List.append_nil]
    rcases hr with h | h
    · subst h; rfl
    · obtain ⟨r, rfl⟩ := List.head?_eq_some_iff.mp h
      simp [read_current_word]
  | cons c w ih =>
    have hc : c ≠ ' ' := fun e => hw (by rw [e]; exact List.mem_cons_self _ _)
    have hw2 : ' ' ∉ w := fun e => hw (List.mem_cons_of_mem _ e)
    rw [List.cons_append, read_current_word, if_neg hc]
    by_cases h10 : 10 ≤ acc.length
    · rw [if_pos h10, if_neg (by simp; omega)]
    · rw [if_neg h10, ih hw2 _ (by simp; omega)]
      simp only [List.length_append, List.length_singleton, List.length_cons, List.append_assoc,
        List.singleton_append]
      by_cases hh : acc.length + (w.length + 1) ≤ 10
      · rw [if_pos hh, if_pos (by simp only [List.length_nil]; omega)]
      · rw [if_neg hh, if_neg (by simp only [List.length_nil]; omega)]

theorem check_loop_intercalate (wordlist : List CStr) (ws : List CStr)
    (hws : ∀ w ∈ ws, w ≠ [] ∧ ' ' ∉ w) (fuel : Nat) (st : List Nat × Nat)
    (hf : ([' '].intercalate ws).length ≤ fuel) :
    check_loop wordlist fuel ([' '].intercalate ws) st = check_words wordlist ws st := by
  induction ws generalizing fuel st with
  | nil =>
    rw [intercalate_sp_nil]
    cases fuel <;> rfl
  | cons w ws ih =>
    obtain ⟨hne, hsp⟩ := hws w (List.mem_cons_self _ _)
    have ih := ih (fun x hx => hws x (List.mem_cons_of_mem _ hx))
    obtain ⟨rest, hrest, hr, hdrop⟩ : ∃ rest, [' '].intercalate (w :: ws) = w ++ rest ∧
        (rest = [] ∨ rest.head? = some ' ') ∧ rest.drop 1 = [' '].intercalate ws := by
      cases ws with
      | nil => exact ⟨[], by rw [intercalate_sp_singleton, List.append_nil], Or.inl rfl, rfl⟩
      | cons w' ws => exact ⟨_, intercalate_sp_cons_cons w w' ws, Or.inr rfl, rfl⟩
    rw [hrest] at hf ⊢
    obtain ⟨c, cs, hw⟩ : ∃ c cs, w = c :: cs := by
      cases w with
      | nil => exact absurd rfl hne
      | cons c cs => exact ⟨c, cs, rfl⟩
    obtain ⟨f, rfl⟩ : ∃ f, fuel = f + 1 := by
      refine ⟨fuel - 1, ?_⟩
      rw [hw] at hf
      simp at hf
      omega
    have hrd := read_current_word_eq w hsp rest [] hr (by simp)
    rw [hw] at hrd hf
    rw [hw, List.cons_append, check_loop, ← List.cons_append, hrd, check_words]
    simp only [List.length_nil, Nat.zero_add, List.nil_append]
    by_cases h10 : (c :: cs).length ≤ 10
    · rw [if_pos h10, if_neg (by omega)]
      simp only
      cases hfw : find_word wordlist (c :: cs) 0 with
      | none => rfl
      | some k =>
        simp only
        rw [hdrop]
        apply ih
        rw [← hdrop]
        simp only [List.length_append, List.length_cons, List.length_drop] at hf ⊢
        omega
    · rw [if_neg h10, if_pos (by omega)]

theorem push_index_bit_lt (k : Nat) (st : List Nat × Nat) (ki : Nat)
    (h : ∀ q, st.1.getD q 0 < 256) : ∀ q, (push_index_bit k st ki).1.getD q 0 < 256 := by
  intro q
  simp only [push_index_bit]
  split
  · rw [List.getD_eq_getElem?_getD, List.getElem?_set]
    split
    · split
      · simp only [Option.getD_some, u8]; omega
      · simp
    · rw [← List.getD_eq_getElem?_getD]; exact h q
  · exact h q

theorem push_index_bits_lt (k : Nat) (st : List Nat × Nat)
    (h : ∀ q, st.1.getD q 0 < 256) : ∀ q, (push_index_bits k st).1.getD q 0 < 256 := by
  unfold push_index_bits
  generalize List.range 11 = l
  induction l generalizing st with
  | nil => exact h
  | cons a l ih => exact ih _ (push_index_bit_lt k st a h)

theorem bitsInv_init : BitsInv [] (List.replicate 33 0, 0) where
  bi_eq := rfl
  length_eq := rfl
  lt := by
    intro q
    rw [List.getD_eq_getElem?_getD, List.getElem?_replicate]
    split <;> simp
  bit := by
    intro p
    simp only [bit_at, index_string_bit, List.getD_eq_getElem?_getD, List.getElem?_replicate]
    split <;> simp

theorem bitsInv_push (ks : List Nat) (st : List Nat × Nat) (k : Nat) (h : BitsInv ks st)
    (hk : ks.length < 24) : BitsInv (ks ++ [k]) (push_index_bits k st) := by
  obtain ⟨s1, s2, s3⟩ := push_index_bits_prefix k st 11 (by rw [h.bi_eq, h.length_eq]; omega)
  refine ⟨?_, ?_, push_index_bits_lt k st h.lt, ?_⟩
  · show ((List.range 11).foldl (push_index_bit k) st).2 = _
    rw [s1, h.bi_eq]; simp; omega
  · show ((List.range 11).foldl (push_index_bit k) st).1.length = _
    rw [s2, h.length_eq]
  · intro p
    show bit_at ((List.range 11).foldl (push_index_bit k) st).1 p = _
    rw [s3, h.bit, h.bi_eq]
    simp only [index_string_bit, List.getD_eq_getElem?_getD]
    rcases Nat.lt_trichotomy (p / 11) ks.length with hlt | heq | hgt
    · rw [List.getElem?_append_left hlt]
      have : ¬ (11 * ks.length ≤ p ∧ p < 11 * ks.length + 11) := by omega
      simp [this]
    · rw [List.getElem?_append_right (by omega), heq, Nat.sub_self, List.getElem?_cons_zero,
        List.getElem?_eq_none (by omega)]
      have h1 : (11 * ks.length ≤ p ∧ p < 11 * ks.length + 11) := by omega
      have h2 : p - 11 * ks.length = p % 11 := by omega
      simp [h1, h2]
    · have e1 : (ks ++ [k])[p / 11]? = none :=
        List.getElem?_eq_none (by rw [List.length_append, List.length_singleton]; omega)
      have e2 : ks[p / 11]? = none := List.getElem?_eq_none (by omega)
      rw [e1, e2]
      have : ¬ (11 * ks.length ≤ p ∧ p < 11 * ks.length + 11) := by omega
      simp [this]

theorem bitsInv_push_all (ks pre : List Nat) (st : List Nat × Nat) (h : BitsInv pre st)
    (hk : pre.length + ks.length ≤ 24) : BitsInv (pre ++ ks) (push_all ks st) := by
  induction ks generalizing pre st with
  | nil => simpa [push_all] using h
  | cons k ks ih =>
    have := ih (pre ++ [k]) (push_index_bits k st) (bitsInv_push pre st k h (by simp at hk; omega))
      (by simp at hk ⊢; omega)
    simpa [push_all] using this

/-! ## Bytes of the bit buffer -/

theorem toNat_testBit (b i : Nat) : (b.testBit i).toNat = b / 2 ^ i % 2 := by
  rw [Nat.testBit_to_div_mod]
  rcases Nat.mod_two_eq_zero_or_one (b / 2 ^ i) with h | h <;> simp [h]

theorem byte_eq_sum_bits (b : Nat) (hb : b < 256) :
    b = ((List.range 8).map (fun j => (b.testBit (7 - j)).toNat * 2 ^ (7 - j))).sum := by
  simp only [List.range, List.range.loop, List.map, List.sum_cons, List.sum_nil, toNat_testBit,
    Nat.reducePow, Nat.reduceSub]
  omega

theorem bit_at_byte (bits : List Nat) (q j : Nat) (hj : j < 8) :
    bit_at bits (8 * q + j) = (bits.getD q 0).testBit (7 - j) := by
  unfold bit_at
  have h1 : (8 * q + j) / 8 = q := by omega
  have h2 : (8 * q + j) % 8 = j := by omega
  rw [h1, h2]

theorem getD_eq_packed_byte (ks : List Nat) (bits : List Nat) (q : Nat)
    (hlt : bits.getD q 0 < 256) (hbit : ∀ p, bit_at bits p = index_string_bit ks p) :
    bits.getD q 0 = packed_byte ks q := by
  rw [packed_byte]
  have e : (List.range 8).map (fun j => (index_string_bit ks (8 * q + j)).toNat * 2 ^ (7 - j)) =
      (List.range 8).map (fun j => ((bits.getD q 0).testBit (7 - j)).toNat * 2 ^ (7 - j)) :=
    List.map_congr_left (fun j hj => by
      rw [← hbit, bit_at_byte bits q j (List.mem_range.mp hj)])
  rw [e]
  exact byte_eq_sum_bits _ hlt

theorem packed_byte_lt (ks : List Nat) (q : Nat) : packed_byte ks q < 256 := by
  simp only [packed_byte, List.range, List.range.loop, List.map, List.sum_cons, List.sum_nil,
    Nat.reducePow, Nat.reduceSub]
  have h : ∀ b : Bool, b.toNat ≤ 1 := by decide
  have h0 := h (index_string_bit ks (8 * q + 0)); have h1 := h (index_string_bit ks (8 * q + 1))
  have h2 := h (index_string_bit ks (8 * q + 2)); have h3 := h (index_string_bit ks (8 * q + 3))
  have h4 := h (index_string_bit ks (8 * q + 4)); have h5 := h (index_string_bit ks (8 * q + 5))
  have h6 := h (index_string_bit ks (8 * q + 6)); have h7 := h (index_string_bit ks (8 * q + 7))
  omega

set_option maxRecDepth 100000 in
theorem and_f0 : ∀ x < 256, x &&& 0xF0 = x / 16 * 16 := by decide
set_option maxRecDepth 100000 in
theorem and_fc : ∀ x < 256, x &&& 0xFC = x / 4 * 4 := by decide

/-! ## The verdict of `wallet_mnemonic_check` on words joined by single spaces -/

theorem split_seed_intercalate (ws : List CStr)
    (h : ∀ w ∈ ws, w ≠ [] ∧ ' ' ∉ w ∧ ',' ∉ w) :
    split_seed ([' '].intercalate ws) = (ws.length, ws) := by
  have := strtok_all_intercalate [' ', ','] (by simp) ws (fun w hw => by
    obtain ⟨h1, h2, h3⟩ := h w hw
    refine ⟨h1, fun c hc hd => ?_⟩
    simp only [List.mem_cons, List.mem_singleton, List.not_mem_nil, or_false] at hd
    rcases hd with e | e
    · exact h2 (e ▸ hc)
    · exact h3 (e ▸ hc))
  simp only [split_seed, this]

theorem memcpy_getD_zero (dst src : List Nat) :
    (memcpy dst src 32).getD 0 0 = u8 (src.getD 0 0) := by
  simp [memcpy, bytes_at, List.getD_eq_getElem?_getD, List.range_succ_eq_map]

theorem memcpy_getD_32 (dst src : List Nat) :
    (memcpy dst src 32).getD 32 0 = dst.getD 32 0 := by
  simp only [memcpy, List.getD_eq_getElem?_getD]
  rw [List.getElem?_append_right (by rw [bytes_at_length]), bytes_at_length, Nat.sub_self,
    List.getElem?_drop]

theorem bytes_at_set_32 (ks : List Nat) (bits : List Nat) (v c : Nat) (hc : c ≤ 32)
    (hlt : ∀ q, bits.getD q 0 < 256) (hbit : ∀ p, bit_at bits p = index_string_bit ks p) :
    bytes_at (bits.set 32 v) c = packed_bytes ks c := by
  simp only [bytes_at, packed_bytes]
  apply List.map_congr_left
  intro i hi
  have hi := List.mem_range.mp hi
  rw [List.getD_eq_getElem?_getD, List.getElem?_set, if_neg (by omega),
    ← List.getD_eq_getElem?_getD, u8, Nat.mod_eq_of_lt (hlt i)]
  exact getD_eq_packed_byte ks bits i (hlt i) hbit

theorem wallet_mnemonic_check_eval (wordlist : List CStr) (sha256_Raw : List Nat → List Nat)
    (ws : List CStr) (hn : ws.length = 12 ∨ ws.length = 18 ∨ ws.length = 24)
    (hws : ∀ w ∈ ws, w ≠ [] ∧ w.length ≤ 10 ∧ ' ' ∉ w ∧ ',' ∉ w ∧ w ∈ wordlist) :
    wallet_mnemonic_check wordlist sha256_Raw (some ([' '].intercalate ws)) =
      ((if top_bits ((sha256_Raw (packed_bytes (ws.map (word_position wordlist))
              (ws.length * 4 / 3))).getD 0 0) (ws.length / 3) =
            top_bits (packed_byte (ws.map (word_position wordlist)) (ws.length * 4 / 3))
              (ws.length / 3)
        then 1 else 0), []) := by
  have hsplit := split_seed_intercalate ws (fun w hw =>
    ⟨(hws w hw).1, (hws w hw).2.2.1, (hws w hw).2.2.2.1⟩)
  have hloop := check_loop_intercalate wordlist ws (fun w hw => ⟨(hws w hw).1, (hws w hw).2.2.1⟩)
    ([' '].intercalate ws).length (List.replicate 33 0, 0) (Nat.le_refl _)
  rw [check_words_ok wordlist ws _ (fun w hw => ⟨(hws w hw).2.1, (hws w hw).2.2.2.2⟩)] at hloop
  have inv := bitsInv_push_all (ws.map (word_position wordlist)) [] _ bitsInv_init
    (by simp; omega)
  rw [List.nil_append] at inv
  generalize push_all (ws.map (word_position wordlist)) (List.replicate 33 0, 0) = r at hloop inv
  obtain ⟨bits, bi⟩ := r
  obtain ⟨hbi, hlen, hlt, hbit⟩ := inv
  simp only [List.length_map] at hbi
  have hlen : bits.length = 33 := hlen
  have hlt : ∀ q, bits.getD q 0 < 256 := hlt
  have hbit : ∀ p, bit_at bits p = index_string_bit (ws.map (word_position wordlist)) p := hbit
  simp only [wallet_mnemonic_check, hsplit, hloop]
  have hpb := fun q => getD_eq_packed_byte _ bits q (hlt q) hbit
  have h32 : ∀ v, (bits.set 32 v).getD 32 0 = v := by
    intro v
    rw [List.getD_eq_getElem?_getD, List.getElem?_set, if_pos rfl, if_pos (by omega)]
    rfl
  rw [if_neg (by omega), if_neg (by omega)]
  simp only [memcpy_getD_zero, memcpy_getD_32, h32, hpb,
    bytes_at_set_32 _ bits _ _ (show ws.length * 4 / 3 ≤ 32 by omega) hlt hbit]
  have hp := packed_byte_lt (ws.map (word_position wordlist)) (ws.length * 4 / 3)
  generalize packed_byte (ws.map (word_position wordlist)) (ws.length * 4 / 3) = pb at hp ⊢
  generalize (sha256_Raw (packed_bytes (ws.map (word_position wordlist))
    (ws.length * 4 / 3))).getD 0 0 = h0
  have hu : u8 h0 < 256 := Nat.mod_lt _ (by norm_num)
  rcases hn with h | h | h <;> rw [h]
  · simp only [if_true, show (12 = 12) = True from eq_self 12]
    congr 1
    apply if_congr _ rfl rfl
    rw [and_f0 _ hu, and_f0 _ hp]
    simp only [top_bits, u8]
    omega
  · simp only [if_true, show ((18 : Nat) = 12) = False by simp, if_false]
    congr 1
    apply if_congr _ rfl rfl
    rw [and_fc _ hu, and_fc _ hp]
    simp only [top_bits, u8]
    omega
  · simp only [if_true, show ((24 : Nat) = 12) = False by simp,
      show ((24 : Nat) = 18) = False by simp, if_false]
    congr 1
    apply if_congr _ rfl rfl
    simp only [top_bits, u8]
    omega

theorem wallet_mnemonic_check_bad_word (wordlist : List CStr)
    (sha256_Raw : List Nat → List Nat) (ws : List CStr) (htok : ∀ w ∈ ws, w ≠ [] ∧ ' ' ∉ w)
    (hbad : ∃ w ∈ ws, w ∉ wordlist) :
    (wallet_mnemonic_check wordlist sha256_Raw (some ([' '].intercalate ws))).1 = 0 := by
  simp only [wallet_mnemonic_check]
  split
  · rfl
  · rw [check_loop_intercalate wordlist ws htok _ _ (Nat.le_refl _),
      check_words_error wordlist ws _ (by
        obtain ⟨w, hw, hb⟩ := hbad
        exact ⟨w, hw, fun h => hb h.2⟩)]

theorem read_current_word_stores_lt (w : CStr) (hw : ' ' ∉ w) (rest : List Char)
    (hr : rest = [] ∨ rest.head? = some ' ') (j : Nat) (hj : j ≤ 10)
    (hne : j + w.length ≠ 10) :
    ∀ i ∈ read_current_word_stores (w ++ rest) j, i < 10 := by
  induction w generalizing j with
  | nil =>
    intro i hi
    have hj2 : j < 10 := by simp at hne; omega
    rcases hr with h | h
    · subst h
      simp only [List.nil_append, read_current_word_stores, List.mem_singleton] at hi
      omega
    · obtain ⟨r, rfl⟩ := List.head?_eq_some_iff.mp h
      simp only [List.nil_append, read_current_word_stores, if_true, List.mem_singleton] at hi
      omega
  | cons c w ih =>
    intro i hi
    have hc : c ≠ ' ' := fun e => hw (by rw [e]; exact List.mem_cons_self _ _)
    have hw2 : ' ' ∉ w := fun e => hw (List.mem_cons_of_mem _ e)
    rw [List.cons_append, read_current_word_stores, if_neg hc] at hi
    by_cases h10 : 10 ≤ j
    · rw [if_pos h10] at hi; simp at hi
    · rw [if_neg h10] at hi
      rcases List.mem_cons.mp hi with e | e
      · omega
      · exact ih hw2 (j + 1) (by omega) (by simp at hne ⊢; omega) i e

theorem check_loop_word_stores_intercalate (wordlist : List CStr) (ws : List CStr)
    (hws : ∀ w ∈ ws, w ≠ [] ∧ ' ' ∉ w ∧ w.length ≠ 10) (fuel : Nat) :
    ∀ i ∈ check_loop_word_stores wordlist fuel ([' '].intercalate ws), i < 10 := by
  induction ws generalizing fuel with
  | nil =>
    intro i hi
    rw [intercalate_sp_nil] at hi
    cases fuel <;> simp [check_loop_word_stores] at hi
  | cons w ws ih =>
    obtain ⟨hne, hsp, h10⟩ := hws w (List.mem_cons_self _ _)
    have ih := ih (fun x hx => hws x (List.mem_cons_of_mem _ hx))
    obtain ⟨rest, hrest, hr, hdrop⟩ : ∃ rest, [' '].intercalate (w :: ws) = w ++ rest ∧
        (rest = [] ∨ rest.head? = some ' ') ∧ rest.drop 1 = [' '].intercalate ws := by
      cases ws with
      | nil => exact ⟨[], by rw [intercalate_sp_singleton, List.append_nil], Or.inl rfl, rfl⟩
      | cons w' ws => exact ⟨_, intercalate_sp_cons_cons w w' ws, Or.inr rfl, rfl⟩
    rw [hrest]
    have hst := read_current_word_stores_lt w hsp rest hr 0 (by omega) (by omega)
    have hrd := read_current_word_eq w hsp rest [] hr (by simp)
    obtain ⟨c, cs, hw⟩ : ∃ c cs, w = c :: cs := by
      cases w with
      | nil => exact absurd rfl hne
      | cons c cs => exact ⟨c, cs, rfl⟩
    cases fuel with
    | zero => intro i hi; simp [check_loop_word_stores] at hi
    | succ fuel =>
      rw [hw] at hst hrd
      intro i hi
      rw [hw, List.cons_append, check_loop_word_stores, ← List.cons_append, hrd,
        List.mem_append] at hi
      rcases hi with hi | hi
      · exact hst i hi
      · by_cases hl : ([] : List Char).length + (c :: cs).length ≤ 10
        · rw [if_pos hl] at hi
          simp only [List.nil_append] at hi
          cases hf : find_word wordlist (c :: cs) 0 with
          | none => rw [hf] at hi; simp at hi
          | some k =>
            rw [hf] at hi
            simp only [hdrop] at hi
            exact ih fuel i hi
        · rw [if_neg hl] at hi; simp at hi

/-- Inside the buffers (a text of fewer than 256 characters, no token of exactly 10
characters): for a text of `n` non-empty tokens without comma separated by single spaces,
`n` being 12, 18 or 24, every store to `current_word` is below index 10 and
`wallet_mnemonic_check` returns 1 exactly when every token is a word of the word list
and the top `n / 3` bits of the first byte of the SHA-256 digest of the first `n * 4 / 3`
bytes of `B` equal the top `n / 3` bits of byte `n * 4 / 3` of `B`, where `B` packs the
11-bit positions of the words big-endian into bytes; a token that is missing from the
word list or longer than the longest word makes it return 0. -/
theorem wallet_mnemonic_check_iff (wordlist : List CStr) (sha256_Raw : List Nat → List Nat)
    (ws : List CStr) (hwl : WordlistOK wordlist)
    (hn : ws.length = 12 ∨ ws.length = 18 ∨ ws.length = 24)
    (htok : ∀ w ∈ ws, w ≠ [] ∧ ' ' ∉ w ∧ ',' ∉ w ∧ w.length ≠ 10)
    (hfit : ([' '].intercalate ws).length < 256) :
    (split_seed_fits ([' '].intercalate ws) ∧
        ∀ i ∈ current_word_stores wordlist (some ([' '].intercalate ws)), i < 10) ∧
      ((wallet_mnemonic_check wordlist sha256_Raw (some ([' '].intercalate ws))).1 = 1 ↔
        (∀ w ∈ ws, w ∈ wordlist) ∧
          top_bits ((sha256_Raw (packed_bytes (ws.map (word_position wordlist))
              (ws.length * 4 / 3))).getD 0 0) (ws.length / 3) =
            top_bits (packed_byte (ws.map (word_position wordlist)) (ws.length * 4 / 3))
              (ws.length / 3)) ∧
      ((∃ w ∈ ws, w ∉ wordlist ∨ 8 < w.length) →
        (wallet_mnemonic_check wordlist sha256_Raw (some ([' '].intercalate ws))).1 = 0) := by
  have htok2 : ∀ w ∈ ws, w ≠ [] ∧ ' ' ∉ w := fun w hw => ⟨(htok w hw).1, (htok w hw).2.1⟩
  have hbad : (∃ w ∈ ws, w ∉ wordlist) →
      (wallet_mnemonic_check wordlist sha256_Raw (some ([' '].intercalate ws))).1 = 0 :=
    wallet_mnemonic_check_bad_word wordlist sha256_Raw ws htok2
  have hsplit := split_seed_intercalate ws (fun w hw =>
    ⟨(htok w hw).1, (htok w hw).2.1, (htok w hw).2.2.1⟩)
  refine ⟨⟨⟨hfit, ?_⟩, ?_⟩, ?_, ?_⟩
  · have : (split_seed ([' '].intercalate ws)).2 = ws := by rw [hsplit]
    rw [split_seed] at this
    simp only at this
    rw [this]; omega
  · intro i hi
    simp only [current_word_stores] at hi
    split at hi
    · simp at hi
    · exact check_loop_word_stores_intercalate wordlist ws
        (fun w hw => ⟨(htok w hw).1, (htok w hw).2.1, (htok w hw).2.2.2⟩) _ i hi
  · by_cases hall : ∀ w ∈ ws, w ∈ wordlist
    · rw [wallet_mnemonic_check_eval wordlist sha256_Raw ws hn (fun w hw => by
        obtain ⟨h1, h2, h3, h4, _⟩ := hwl.word_ok w (hall w hw)
        exact ⟨h1, by omega, h3, h4, hall w hw⟩)]
      simp only [hall, implies_true, true_and]
      split <;> simp_all
    · constructor
      · intro h1
        have : ∃ w ∈ ws, w ∉ wordlist := by
          by_contra hc
          exact hall (fun w hw => by_contra (fun hnot => hc ⟨w, hw, hnot⟩))
        rw [hbad this] at h1
        exact absurd h1 (by decide)
      · intro h; exact absurd h.1 hall
  · rintro ⟨w, hw, h | h⟩
    · exact hbad ⟨w, hw, h⟩
    · refine hbad ⟨w, hw, fun hin => ?_⟩
      have := (hwl.word_ok w hin).2.1
      omega

/-- Claim C4 at its failing input: in the text of 18 tokens whose first token is the ten
characters "zzzzzzzzzz", a token longer than every word of the list, the inner loop of
`wallet_mnemonic_check` stores ten characters and then the terminator at index 10 of the
10-byte buffer `current_word`, whatever the word list. -/
theorem check_ten_character_token (wordlist : List CStr) :
    (split_seed "zzzzzzzzzz a a a a a a a a a a a a a a a a a".toList).1 = 18 ∧
      "zzzzzzzzzz a a a a a a a a a a a a a a a a a".toList.length < 256 ∧
      10 ∈ current_word_stores wordlist
        (some "zzzzzzzzzz a a a a a a a a a a a a a a a a a".toList) := by
  have hn : (split_seed "zzzzzzzzzz a a a a a a a a a a a a a a a a a".toList).1 = 18 := by
    decide
  refine ⟨hn, by decide, ?_⟩
  simp only [current_word_stores, hn]
  rw [if_neg (by decide)]
  have hl : "zzzzzzzzzz a a a a a a a a a a a a a a a a a".toList.length = 43 + 1 := by decide
  rw [hl]
  have ht : "zzzzzzzzzz a a a a a a a a a a a a a a a a a".toList =
      'z' :: "zzzzzzzzz a a a a a a a a a a a a a a a a a".toList := by decide
  rw [ht, check_loop_word_stores]
  apply List.mem_append_left
  decide

/-! ## The index bits of an encoded entropy -/

theorem word_position_getD (wordlist : List CStr) (hwl : WordlistOK wordlist) (g : Nat)
    (hg : g < 2048) : word_position wordlist (wordlist.getD g []) = g := by
  have h : g < wordlist.length := by rw [hwl.length_eq]; exact hg
  rw [List.getD_eq_getElem _ _ h]
  exact word_position_getElem wordlist hwl.nodup g h

theorem positions_of_groups (wordlist : List CStr) (hwl : WordlistOK wordlist) (B : List Nat)
    (m : Nat) :
    ((List.range m).map (fun i => wordlist.getD (group_value B i) [])).map
        (word_position wordlist) = (List.range m).map (group_value B) := by
  rw [List.map_map]
  apply List.map_congr_left
  intro i _
  exact word_position_getD wordlist hwl _ (value11_lt _)

theorem index_string_bit_groups (B : List Nat) (m p : Nat) :
    index_string_bit ((List.range m).map (group_value B)) p =
      (decide (p < 11 * m) && bit_at B p) := by
  unfold index_string_bit
  rw [List.getD_eq_getElem?_getD, List.getElem?_map]
  by_cases h : p / 11 < m
  · rw [List.getElem?_range h]
    simp only [Option.map_some', Option.getD_some]
    rw [group_value_eq, value11_testBit _ _ (Nat.mod_lt _ (by norm_num))]
    have e : 11 * (p / 11) + p % 11 = p := Nat.div_add_mod p 11
    have hp : p < 11 * m := by omega
    simp [e, hp]
  · rw [List.getElem?_eq_none (by simp; omega)]
    have hp : ¬ p < 11 * m := by omega
    simp [hp]

theorem packed_byte_groups_full (B : List Nat) (m q : Nat) (hq : 8 * q + 8 ≤ 11 * m)
    (hB : B.getD q 0 < 256) :
    packed_byte ((List.range m).map (group_value B)) q = B.getD q 0 := by
  rw [packed_byte]
  have e : (List.range 8).map (fun j =>
      (index_string_bit ((List.range m).map (group_value B)) (8 * q + j)).toNat * 2 ^ (7 - j)) =
      (List.range 8).map (fun j => ((B.getD q 0).testBit (7 - j)).toNat * 2 ^ (7 - j)) :=
    List.map_congr_left (fun j hj => by
      have hj := List.mem_range.mp hj
      rw [index_string_bit_groups, bit_at_byte B q j hj]
      have : 8 * q + j < 11 * m := by omega
      simp [this])
  rw [e]
  exact (byte_eq_sum_bits _ hB).symm

theorem packed_bytes_groups (data : List Nat) (x : Nat) (m : Nat)
    (hm : 8 * data.length ≤ 11 * m) (hb : ∀ b ∈ data, b < 256) :
    packed_bytes ((List.range m).map (group_value (data ++ [x]))) data.length = data := by
  apply List.ext_getElem
  · simp [packed_bytes]
  · intro i h1 h2
    simp only [packed_bytes, List.getElem_map, List.getElem_range]
    have hg : (data ++ [x]).getD i 0 = data[i] := by
      rw [List.getD_eq_getElem?_getD, List.getElem?_append_left h2, List.getElem?_eq_getElem h2]
      rfl
    rw [packed_byte_groups_full _ _ _ (by omega) (by rw [hg]; exact hb _ (List.getElem_mem _)), hg]

theorem packed_byte_expand (ks : List Nat) (q : Nat) :
    packed_byte ks q =
      (index_string_bit ks (8 * q + 0)).toNat * 128 + (index_string_bit ks (8 * q + 1)).toNat * 64 +
      (index_string_bit ks (8 * q + 2)).toNat * 32 + (index_string_bit ks (8 * q + 3)).toNat * 16 +
      (index_string_bit ks (8 * q + 4)).toNat * 8 + (index_string_bit ks (8 * q + 5)).toNat * 4 +
      (index_string_bit ks (8 * q + 6)).toNat * 2 + (index_string_bit ks (8 * q + 7)).toNat := by
  simp only [packed_byte, List.range, List.range.loop, List.map, List.sum_cons, List.sum_nil,
    Nat.reducePow, Nat.reduceSub]
  omega

theorem byte_expand (x : Nat) :
    x % 256 =
      (x.testBit 7).toNat * 128 + (x.testBit 6).toNat * 64 + (x.testBit 5).toNat * 32 +
      (x.testBit 4).toNat * 16 + (x.testBit 3).toNat * 8 + (x.testBit 2).toNat * 4 +
      (x.testBit 1).toNat * 2 + (x.testBit 0).toNat := by
  simp only [toNat_testBit, Nat.reducePow]
  omega

theorem top_bits_packed_last (data : List Nat) (x : Nat) (m c : Nat)
    (hm : 11 * m = 8 * data.length + c) (hc : c = 4 ∨ c = 6 ∨ c = 8) :
    top_bits (packed_byte ((List.range m).map (group_value (data ++ [x]))) data.length) c =
      top_bits x c := by
  have hx : ∀ j, j < 8 → bit_at (data ++ [x]) (8 * data.length + j) = x.testBit (7 - j) := by
    intro j hj
    rw [bit_at_byte _ _ _ hj, List.getD_eq_getElem?_getD,
      List.getElem?_append_right (Nat.le_refl _), Nat.sub_self, List.getElem?_cons_zero,
      Option.getD_some]
  rw [packed_byte_expand]
  simp only [top_bits, index_string_bit_groups, hm]
  rw [hx 0 (by omega), hx 1 (by omega), hx 2 (by omega), hx 3 (by omega), hx 4 (by omega),
    hx 5 (by omega), hx 6 (by omega), hx 7 (by omega), byte_expand x]
  have hd : ∀ j, decide (8 * data.length + j < 8 * data.length + c) = decide (j < c) := by
    intro j; simp
  simp only [hd, Nat.reduceSub]
  have h : ∀ b : Bool, b.toNat ≤ 1 := by decide
  have h0 := h (x.testBit 0); have h1 := h (x.testBit 1); have h2 := h (x.testBit 2)
  have h3 := h (x.testBit 3); have h4 := h (x.testBit 4); have h5 := h (x.testBit 5)
  have h6 := h (x.testBit 6); have h7 := h (x.testBit 7)
  clear hm hx hd h
  rcases hc with h | h | h <;> subst h <;>
    simp only [Nat.reduceLT, decide_True, decide_False, Bool.true_and, Bool.false_and,
      Bool.toNat_false, Nat.zero_mul, Nat.reducePow, Nat.reduceSub] <;>
    generalize (x.testBit 0).toNat = b0 at * <;>
    generalize (x.testBit 1).toNat = b1 at * <;>
    generalize (x.testBit 2).toNat = b2 at * <;>
    generalize (x.testBit 3).toNat = b3 at * <;>
    generalize (x.testBit 4).toNat = b4 at * <;>
    generalize (x.testBit 5).toNat = b5 at * <;>
    generalize (x.testBit 6).toNat = b6 at * <;>
    generalize (x.testBit 7).toNat = b7 at * <;>
    omega

/-! ## From text to indices and back -/

theorem word_position_lt (wordlist : List CStr) (w : CStr) (h : w ∈ wordlist) :
    word_position wordlist w < wordlist.length := by
  induction wordlist with
  | nil => simp at h
  | cons x xs ih =>
    rw [word_position]
    by_cases e : w = x
    · rw [if_pos e]; simp
    · rw [if_neg e]
      have := ih (by simpa [e] using h)
      simp; omega

theorem getD_word_position (wordlist : List CStr) (w : CStr) (h : w ∈ wordlist) :
    wordlist.getD (word_position wordlist w) [] = w := by
  induction wordlist with
  | nil => simp at h
  | cons x xs ih =>
    rw [word_position]
    by_cases e : w = x
    · rw [if_pos e, e]; rfl
    · rw [if_neg e]
      have := ih (by simpa [e] using h)
      simpa using this

theorem index_fold (wordlist : List CStr) (hlen : wordlist.length ≤ 65535) (ws : List CStr)
    (hws : ∀ w ∈ ws, w ∈ wordlist) (pre zs : List Nat) (hz : ws.length ≤ zs.length) :
    ws.foldl (index_step wordlist) (pre ++ zs, pre.length) =
      (pre ++ ws.map (fun w => word_position wordlist w + 1) ++ zs.drop ws.length,
        pre.length + ws.length) := by
  induction ws generalizing pre zs with
  | nil => simp
  | cons w ws ih =>
    have hw := hws w (List.mem_cons_self _ _)
    obtain ⟨z, zs', rfl⟩ : ∃ z zs', zs = z :: zs' := by
      cases zs with
      | nil => simp at hz
      | cons z zs' => exact ⟨z, zs', rfl⟩
    rw [List.foldl_cons, index_step, find_word_eq, if_pos hw]
    simp only [Nat.zero_add]
    have hu : u16 (word_position wordlist w + 1) = word_position wordlist w + 1 := by
      have := word_position_lt wordlist w hw
      rw [u16]; omega
    rw [hu, List.set_append_right _ _ (Nat.le_refl _), Nat.sub_self, List.set_cons_zero]
    have := ih (fun x hx => hws x (List.mem_cons_of_mem _ hx))
      (pre ++ [word_position wordlist w + 1]) zs' (by simpa using hz)
    simp only [List.length_append, List.length_singleton, List.append_assoc,
      List.singleton_append] at this
    rw [this]
    simp [Nat.add_assoc, Nat.add_comm 1]

theorem wallet_index_from_mnemonic_words (wordlist : List CStr) (hwl : WordlistOK wordlist)
    (ws : List CStr) (hws : ∀ w ∈ ws, w ∈ wordlist) (hn : ws.length ≤ 25) :
    wallet_index_from_mnemonic wordlist ([' '].intercalate ws) =
      ws.map (fun w => word_position wordlist w + 1) ++ List.replicate (25 - ws.length) 0 := by
  have hsplit := split_seed_intercalate ws (fun w hw =>
    ⟨(hwl.word_ok w (hws w hw)).1, (hwl.word_ok w (hws w hw)).2.2.1,
      (hwl.word_ok w (hws w hw)).2.2.2.1⟩)
  have := index_fold wordlist (by rw [hwl.length_eq]; norm_num) ws hws [] (List.replicate 25 0)
    (by simpa using hn)
  simp only [List.nil_append, List.length_nil, Nat.zero_add] at this
  simp only [wallet_index_from_mnemonic, hsplit, this, List.drop_replicate]

theorem from_index_loop_eq (wordlist : List CStr) (ks : List Nat) (tail : List Nat)
    (ht : tail = [] ∨ tail.head? = some 0) (acc : CStr) :
    from_index_loop wordlist (ks.map (fun k => k + 1) ++ tail) acc =
      acc ++ ks.flatMap (fun k => wordlist.getD k [] ++ [' ']) := by
  induction ks generalizing acc with
  | nil =>
    rcases ht with h | h
    · subst h; simp [from_index_loop]
    · obtain ⟨r, rfl⟩ := List.head?_eq_some_iff.mp h
      simp [from_index_loop]
  | cons k ks ih =>
    rw [List.map_cons, List.cons_append, from_index_loop, if_neg (by omega), ih]
    simp

theorem flatMap_space_eq (ws : List CStr) (hne : ws ≠ []) :
    ws.flatMap (fun w => w ++ [' ']) = [' '].intercalate ws ++ [' '] := by
  rcases List.eq_nil_or_concat ws with h | ⟨pre, x, h⟩
  · exact absurd h hne
  · rw [List.concat_eq_append] at h
    subst h
    rw [intercalate_sp_snoc, List.flatMap_append, List.flatMap_singleton, List.append_assoc]

theorem is_erased_2x_false (idx : List Nat) (h : idx.getD 0 0 ≠ 0xFFFF) :
    is_erased_2x idx = false := by
  cases hb : is_erased_2x idx with
  | false => rfl
  | true =>
    rw [is_erased_2x, List.all_eq_true] at hb
    have := hb 0 (by simp)
    simp [MEM_PAGE_ERASE_2X, List.getD_eq_getElem?_getD] at this
    exact absurd (by simpa [List.getD_eq_getElem?_getD] using this) h

theorem index_roundtrip (wordlist : List CStr) (hwl : WordlistOK wordlist) (ws : List CStr)
    (hws : ∀ w ∈ ws, w ∈ wordlist) (h1 : 1 ≤ ws.length) (hn : ws.length ≤ 24) :
    wallet_mnemonic_from_index wordlist
        (wallet_index_from_mnemonic wordlist ([' '].intercalate ws)) =
      some ([' '].intercalate ws) := by
  rw [wallet_index_from_mnemonic_words wordlist hwl ws hws (by omega)]
  have hne : ws ≠ [] := by
    intro e; rw [e] at h1; simp at h1
  obtain ⟨w0, ws', rfl⟩ : ∃ w0 ws', ws = w0 :: ws' := by
    cases ws with
    | nil => exact absurd rfl hne
    | cons w0 ws' => exact ⟨w0, ws', rfl⟩
  have hw0 := word_position_lt wordlist w0 (hws w0 (List.mem_cons_self _ _))
  rw [hwl.length_eq] at hw0
  rw [wallet_mnemonic_from_index, is_erased_2x_false _ (by
    simp only [List.map_cons, List.cons_append, List.getD_cons_zero]; omega)]
  simp only [Bool.false_eq_true, if_false]
  have hmap : (w0 :: ws').map (fun w => word_position wordlist w + 1) =
      ((w0 :: ws').map (word_position wordlist)).map (fun k => k + 1) := by
    rw [List.map_map]; rfl
  rw [hmap, from_index_loop_eq wordlist _ _ (by
    right
    obtain ⟨d, hd⟩ : ∃ d, 25 - (w0 :: ws').length = d + 1 := ⟨24 - (w0 :: ws').length, by omega⟩
    rw [hd]; rfl)]
  rw [List.nil_append, List.flatMap_map]
  have hfm : (w0 :: ws').flatMap (fun w => wordlist.getD (word_position wordlist w) [] ++ [' ']) =
      (w0 :: ws').flatMap (fun w => w ++ [' ']) :=
    List.flatMap_congr (fun w hw => by
      show wordlist.getD (word_position wordlist w) [] ++ [' '] = w ++ [' ']
      rw [getD_word_position wordlist w (hws w hw)])
  rw [hfm, flatMap_space_eq _ hne, List.dropLast_concat]

/-! ## Round trip through the validator -/

theorem entropy_words_mem (wordlist : List CStr) (hwl : WordlistOK wordlist)
    (sha256_Raw : List Nat → List Nat) (data : List Nat) :
    ∀ w ∈ entropy_words wordlist sha256_Raw data, w ∈ wordlist := by
  intro w hw
  simp only [entropy_words, List.mem_map, List.mem_range] at hw
  obtain ⟨i, _, rfl⟩ := hw
  exact getD_mem_wordlist wordlist hwl _ (value11_lt _)

theorem entropy_words_length (wordlist : List CStr) (sha256_Raw : List Nat → List Nat)
    (data : List Nat) : (entropy_words wordlist sha256_Raw data).length = data.length * 3 / 4 := by
  simp [entropy_words]

theorem from_data_entropy_words (wordlist : List CStr) (sha256_Raw : List Nat → List Nat)
    (data : List Nat) (h4 : data.length % 4 = 0) (h16 : 16 ≤ data.length)
    (h32 : data.length ≤ 32) (hb : ∀ b ∈ data, b < 256) :
    wallet_mnemonic_from_data wordlist sha256_Raw data data.length =
      some ([' '].intercalate (entropy_words wordlist sha256_Raw data)) :=
  from_data_eq wordlist sha256_Raw data h4 h16 h32 hb

/-- The validator accepts the words of an entropy of 16, 24 or 32 bytes, with no report. -/
theorem check_entropy_words (wordlist : List CStr) (hwl : WordlistOK wordlist)
    (sha256_Raw : List Nat → List Nat) (data : List Nat)
    (hlen : data.length = 16 ∨ data.length = 24 ∨ data.length = 32)
    (hb : ∀ b ∈ data, b < 256) :
    wallet_mnemonic_check wordlist sha256_Raw
        (some ([' '].intercalate (entropy_words wordlist sha256_Raw data))) = (1, []) := by
  have hmem := entropy_words_mem wordlist hwl sha256_Raw data
  have hl := entropy_words_length wordlist sha256_Raw data
  rw [wallet_mnemonic_check_eval wordlist sha256_Raw _ (by rw [hl]; omega) (fun w hw => by
    obtain ⟨h1, h2, h3, h4, _⟩ := hwl.word_ok w (hmem w hw)
    exact ⟨h1, by omega, h3, h4, hmem w hw⟩)]
  have hks : (entropy_words wordlist sha256_Raw data).map (word_position wordlist) =
      (List.range (data.length * 3 / 4)).map
        (group_value (data ++ [(sha256_Raw data).getD 0 0])) :=
    positions_of_groups wordlist hwl _ _
  have hq : (entropy_words wordlist sha256_Raw data).length * 4 / 3 = data.length := by
    rw [hl]; omega
  rw [hks, hq, packed_bytes_groups data _ _ (by omega) hb,
    top_bits_packed_last data _ _ _ (by rw [hl]; omega) (by rw [hl]; omega)]
  simp

/-- The validator rejects the words of an entropy of 20 or 28 bytes: 15 and 21 words. -/
theorem check_entropy_words_rejected (wordlist : List CStr) (hwl : WordlistOK wordlist)
    (sha256_Raw : List Nat → List Nat) (data : List Nat)
    (hlen : data.length = 20 ∨ data.length = 28) :
    wallet_mnemonic_check wordlist sha256_Raw
        (some ([' '].intercalate (entropy_words wordlist sha256_Raw data))) =
      (0, [report_word_count]) := by
  have hmem := entropy_words_mem wordlist hwl sha256_Raw data
  have hl := entropy_words_length wordlist sha256_Raw data
  have hsplit := split_seed_intercalate (entropy_words wordlist sha256_Raw data) (fun w hw =>
    ⟨(hwl.word_ok w (hmem w hw)).1, (hwl.word_ok w (hmem w hw)).2.2.1,
      (hwl.word_ok w (hmem w hw)).2.2.2.1⟩)
  simp only [wallet_mnemonic_check, hsplit, hl]
  rw [if_pos (by omega)]

theorem roundtrip_eq_check (wordlist : List CStr) (hwl : WordlistOK wordlist)
    (sha256_Raw : List Nat → List Nat) (data : List Nat) (h4 : data.length % 4 = 0)
    (h16 : 16 ≤ data.length) (h32 : data.length ≤ 32) (hb : ∀ b ∈ data, b < 256) :
    mnemonic_roundtrip wordlist sha256_Raw data data.length =
      some (wallet_mnemonic_check wordlist sha256_Raw
        (some ([' '].intercalate (entropy_words wordlist sha256_Raw data)))).1 := by
  have hl := entropy_words_length wordlist sha256_Raw data
  simp only [mnemonic_roundtrip, from_data_entropy_words wordlist sha256_Raw data h4 h16 h32 hb,
    index_roundtrip wordlist hwl _ (entropy_words_mem wordlist hwl sha256_Raw data)
      (by rw [hl]; omega) (by rw [hl]; omega)]

/-- Claim C1, amended: for an entropy of 16, 24 or 32 bytes the text of
`wallet_mnemonic_from_data`, turned into indices by `wallet_index_from_mnemonic` and back
into text by `wallet_mnemonic_from_index`, is accepted by `wallet_mnemonic_check`
(return value 1). -/
theorem mnemonic_roundtrip_accepts (wordlist : List CStr) (sha256_Raw : List Nat → List Nat)
    (data : List Nat) (hwl : WordlistOK wordlist)
    (hlen : data.length = 16 ∨ data.length = 24 ∨ data.length = 32)
    (hb : ∀ b ∈ data, b < 256) :
    mnemonic_roundtrip wordlist sha256_Raw data data.length = some 1 := by
  rw [roundtrip_eq_check wordlist hwl sha256_Raw data (by omega) (by omega) (by omega) hb,
    check_entropy_words wordlist hwl sha256_Raw data hlen hb]

/-- Instance of claim C1, amended: 16 zero bytes. -/
theorem mnemonic_roundtrip_accepts_witness :
    mnemonic_roundtrip demo_wordlist demo_sha256 (List.replicate 16 0)
      (List.replicate 16 0).length = some 1 :=
  mnemonic_roundtrip_accepts demo_wordlist demo_sha256 (List.replicate 16 0) demo_wordlist_ok
    (by decide) (by decide)

/-- Claim C1 fails as stated: for entropies of 20 and of 28 bytes the round trip ends with
`wallet_mnemonic_check` returning 0 (it counts 15 and 21 words). -/
theorem mnemonic_roundtrip_counterexample :
    mnemonic_roundtrip demo_wordlist demo_sha256 (List.replicate 20 0) 20 = some 0 ∧
      mnemonic_roundtrip demo_wordlist demo_sha256 (List.replicate 28 0) 28 = some 0 := by
  have h20 := roundtrip_eq_check demo_wordlist demo_wordlist_ok demo_sha256 (List.replicate 20 0)
    (by decide) (by decide) (by decide) (by decide)
  have h28 := roundtrip_eq_check demo_wordlist demo_wordlist_ok demo_sha256 (List.replicate 28 0)
    (by decide) (by decide) (by decide) (by decide)
  rw [check_entropy_words_rejected demo_wordlist demo_wordlist_ok demo_sha256 _
    (by decide)] at h20 h28
  exact ⟨h20, h28⟩

theorem demo_word_mem (k : Nat) (hk : k < 2048) : demo_word k ∈ demo_wordlist :=
  List.mem_map.mpr ⟨k, List.mem_range.mpr hk, rfl⟩

theorem demo_word_position (k : Nat) (hk : k < 2048) :
    word_position demo_wordlist (demo_word k) = k := by
  have h := word_position_getD demo_wordlist demo_wordlist_ok k hk
  have e : demo_wordlist.getD k [] = demo_word k := by
    simp [demo_wordlist, List.getD_eq_getElem?_getD, List.getElem?_range hk]
  rw [e] at h
  exact h

theorem demo_word_checks (k : Nat) (hk : k < 2048) :
    demo_word k ≠ [] ∧ (demo_word k).length ≤ 10 ∧ ' ' ∉ demo_word k ∧ ',' ∉ demo_word k ∧
      demo_word k ∈ demo_wordlist := by
  obtain ⟨h1, h2, h3, h4, _⟩ := demo_wordlist_ok.word_ok _ (demo_word_mem k hk)
  exact ⟨h1, by omega, h3, h4, demo_word_mem k hk⟩

/-- Claim C6 at its failing input: twelve times word 0 of the stand-in list is a phrase of
dictionary words whose checksum bits do not match; `wallet_mnemonic_check` returns 0 and
makes no report. -/
theorem wallet_mnemonic_check_silent_mismatch :
    wallet_mnemonic_check demo_wordlist demo_sha256
        (some ([' '].intercalate (List.replicate 12 (demo_word 0)))) = (0, []) := by
  rw [wallet_mnemonic_check_eval demo_wordlist demo_sha256 (List.replicate 12 (demo_word 0))
    (by decide) (fun w hw => by
      rw [List.eq_of_mem_replicate hw]
      exact demo_word_checks 0 (by decide))]
  rw [List.map_replicate, demo_word_position 0 (by decide)]
  decide

/-! ## Secret buffers and the generation request -/

/-- Claim C7 at its failing input: `wallet_master_from_mnemonic` called with the text
"abc" returns after the failed validation with "abc" still in the buffer `mnemonic`. -/
theorem wallet_master_from_mnemonic_keeps_text (env : Env) (st : State) (salt : Option CStr)
    (s_len : Nat) (strength : Int) :
    (wallet_master_from_mnemonic env st (some "abc".toList) 3 salt s_len strength).mnemonic =
        "abc".toList ++ List.replicate 253 NUL ∧
      ¬ statics_zero
        (wallet_master_from_mnemonic env st (some "abc".toList) 3 salt s_len strength) := by
  have hc : cstr (memcpy_chars (List.replicate 256 NUL) "abc".toList 3) = "abc".toList := by
    decide
  have hg := check_word_count_gate env.wordlist env.sha256_Raw "abc".toList (by decide)
  have hm : (wallet_master_from_mnemonic env st (some "abc".toList) 3 salt s_len
      strength).mnemonic = "abc".toList ++ List.replicate 253 NUL := by
    simp only [wallet_master_from_mnemonic, master_check, clear_static_variables, hc, hg,
      if_true]
    rfl
  refine ⟨hm, ?_⟩
  intro h
  have := h.1
  rw [hm] at this
  exact absurd this (by decide)

theorem bytes_at_lt (src : List Nat) (n : Nat) : ∀ b ∈ bytes_at src n, b < 256 := by
  intro b hb
  simp only [bytes_at, List.mem_map, List.mem_range] at hb
  obtain ⟨i, _, rfl⟩ := hb
  exact Nat.mod_lt _ (by norm_num)

theorem bytes_at_idem (src : List Nat) (n : Nat) : bytes_at (bytes_at src n) n = bytes_at src n := by
  have h := bytes_at_eq_self (bytes_at src n) (bytes_at_lt src n)
  rw [bytes_at_length] at h
  exact h

theorem from_data_bits_take (sha256_Raw : List Nat → List Nat) (data : List Nat) (n : Nat) :
    from_data_bits sha256_Raw data n = from_data_bits sha256_Raw (bytes_at data n) n := by
  simp only [from_data_bits, memcpy, bytes_at_idem]

theorem from_data_take (wordlist : List CStr) (sha256_Raw : List Nat → List Nat)
    (data : List Nat) (len : Int) :
    wallet_mnemonic_from_data wordlist sha256_Raw data len =
      wallet_mnemonic_from_data wordlist sha256_Raw (bytes_at data len.toNat) len := by
  simp only [wallet_mnemonic_from_data]
  rw [← from_data_bits_take]

theorem intercalate_sp_length_le (ws : List CStr) (h : ∀ w ∈ ws, w.length ≤ 8) :
    ([' '].intercalate ws).length ≤ 9 * ws.length := by
  induction ws with
  | nil => simp [intercalate_sp_nil]
  | cons w ws ih =>
    have hw := h w (List.mem_cons_self _ _)
    have ih := ih (fun x hx => h x (List.mem_cons_of_mem _ hx))
    cases ws with
    | nil => rw [intercalate_sp_singleton]; simp; omega
    | cons w' ws =>
      rw [intercalate_sp_cons_cons]
      simp only [List.length_append, List.length_cons] at ih ⊢
      omega

theorem intercalate_sp_no_nul (ws : List CStr) (h : ∀ w ∈ ws, NUL ∉ w) :
    NUL ∉ [' '].intercalate ws := by
  induction ws with
  | nil => simp [intercalate_sp_nil]
  | cons w ws ih =>
    have hw := h w (List.mem_cons_self _ _)
    have ih := ih (fun x hx => h x (List.mem_cons_of_mem _ hx))
    cases ws with
    | nil => rw [intercalate_sp_singleton]; exact hw
    | cons w' ws =>
      rw [intercalate_sp_cons_cons]
      intro hm
      rcases List.mem_append.mp hm with e | e
      · exact hw e
      · rcases List.mem_cons.mp e with e | e
        · exact absurd e (by decide)
        · exact ih e

theorem cstr_memcpy_chars (m : CStr) (hn : NUL ∉ m) (hl : m.length < 256) :
    cstr (memcpy_chars (List.replicate 256 NUL) m m.length) = m := by
  have e : (List.range m.length).map (fun i => m.getD i NUL) = m := by
    apply List.ext_getElem
    · simp
    · intro i h1 h2
      simp [List.getD_eq_getElem?_getD, List.getElem?_eq_getElem h2]
  rw [memcpy_chars, e, List.drop_replicate, cstr]
  obtain ⟨d, hd⟩ : ∃ d, 256 - m.length = d + 1 := ⟨255 - m.length, by omega⟩
  rw [hd, List.replicate_succ, List.takeWhile_append_of_pos (fun c hc => by
    simp only [ne_eq, decide_not, Bool.not_eq_true', decide_eq_false_iff_not]
    exact fun e => hn (e ▸ hc))]
  simp

/-- With no text and strength 160 or 224, `wallet_master_from_mnemonic` ends in the
word-count report of the validator and leaves the random bytes and the generated text in
the buffers. -/
theorem master_from_strength_rejected (env : Env) (hwl : WordlistOK env.wordlist) (st : State)
    (m_len : Nat) (salt : Option CStr) (s_len : Nat) (strength : Int)
    (hs : strength = 160 ∨ strength = 224) :
    (wallet_master_from_mnemonic env st none m_len salt s_len strength).reports =
        st.reports ++ [report_word_count] ∧
      (wallet_master_from_mnemonic env st none m_len salt s_len strength).rand_data_32 =
        bytes_at env.random_bytes 32 := by
  have hg : ¬ ((if strength = 0 then 256 else strength).tmod 32 ≠ 0 ∨
      (if strength = 0 then 256 else strength) < 128 ∨
      (if strength = 0 then 256 else strength) > 256) := by
    rcases hs with h | h <;> subst h <;> decide
  have hrand : memcpy (List.replicate 32 0) env.random_bytes 32 = bytes_at env.random_bytes 32 := by
    simp [memcpy]
  obtain ⟨n, hn, hn2⟩ : ∃ n : Nat, (if strength = 0 then 256 else strength) / 8 = (n : Int) ∧
      (n = 20 ∨ n = 28) := by
    rcases hs with h | h <;> subst h
    · exact ⟨20, by decide, Or.inl rfl⟩
    · exact ⟨28, by decide, Or.inr rfl⟩
  have hdl : (bytes_at (bytes_at env.random_bytes 32) n).length = n := bytes_at_length _ _
  have hfd := from_data_entropy_words env.wordlist env.sha256_Raw
    (bytes_at (bytes_at env.random_bytes 32) n) (by omega) (by omega) (by omega)
    (bytes_at_lt _ _)
  rw [hdl] at hfd
  have hfd2 : wallet_mnemonic_from_data env.wordlist env.sha256_Raw
      (bytes_at env.random_bytes 32) (n : Int) = _ :=
    (from_data_take env.wordlist env.sha256_Raw (bytes_at env.random_bytes 32) n).trans hfd
  have hmem := entropy_words_mem env.wordlist hwl env.sha256_Raw
    (bytes_at (bytes_at env.random_bytes 32) n)
  have hl := entropy_words_length env.wordlist env.sha256_Raw
    (bytes_at (bytes_at env.random_bytes 32) n)
  have hcs := cstr_memcpy_chars
    ([' '].intercalate (entropy_words env.wordlist env.sha256_Raw
      (bytes_at (bytes_at env.random_bytes 32) n)))
    (intercalate_sp_no_nul _ (fun w hw => (hwl.word_ok w (hmem w hw)).2.2.2.2))
    (by
      have := intercalate_sp_length_le _ (fun w hw => (hwl.word_ok w (hmem w hw)).2.1)
      rw [hl, hdl] at this
      omega)
  have hrej := check_entropy_words_rejected env.wordlist hwl env.sha256_Raw
    (bytes_at (bytes_at env.random_bytes 32) n) (by rw [hdl]; exact hn2)
  simp only [wallet_master_from_mnemonic, clear_static_variables, if_neg hg, hrand, hn, hfd2,
    Option.getD_some, master_check, hcs, hrej, if_true]
  exact ⟨trivial, trivial⟩

theorem demo_env_wordlist_ok : WordlistOK demo_env.wordlist := by
  have h : demo_env.wordlist = demo_wordlist := by simp only [demo_env]
  rw [h]
  exact demo_wordlist_ok

theorem demo_random_bytes : bytes_at demo_env.random_bytes 32 = (List.range 32).map (fun i => i + 1) := by
  simp only [demo_env]
  rfl

/-- Claim C8 fails as stated: a generation request with no text and strength 160, or 224,
passes the strength test and ends with the report
("seed", "Mnemonic must have 12, 18, or 24 words.", ERROR) instead of success, the random
bytes still in `rand_data_32`. -/
theorem wallet_master_from_mnemonic_strength_160 :
    (wallet_master_from_mnemonic demo_env demo_state none 0 none 0 160).reports =
        [⟨"seed", "Mnemonic must have 12, 18, or 24 words.", Status.ERROR⟩] ∧
      (wallet_master_from_mnemonic demo_env demo_state none 0 none 0 224).reports =
        [⟨"seed", "Mnemonic must have 12, 18, or 24 words.", Status.ERROR⟩] ∧
      (wallet_master_from_mnemonic demo_env demo_state none 0 none 0 160).rand_data_32 =
        (List.range 32).map (fun i => i + 1) := by
  have h160 := master_from_strength_rejected demo_env demo_env_wordlist_ok demo_state 0 none 0 160
    (Or.inl rfl)
  have h224 := master_from_strength_rejected demo_env demo_env_wordlist_ok demo_state 0 none 0 224
    (Or.inr rfl)
  have e1 : demo_state.reports ++ [report_word_count] =
      [⟨"seed", "Mnemonic must have 12, 18, or 24 words.", Status.ERROR⟩] := rfl
  rw [h160.1, h224.1, h160.2, e1, demo_random_bytes]
  exact ⟨rfl, rfl, rfl⟩

/-! ## Key paths -/

theorem digit_not_delim (c : Char) (h : is_digit c = true) : c ∉ key_path_delims := by
  intro hm
  simp only [key_path_delims, List.mem_cons, List.mem_singleton, List.not_mem_nil,
    or_false] at hm
  rcases hm with e | e | e | e | e <;> subst e <;> exact absurd h (by decide)

theorem comp_text_no_delim (c : PathComp) (hc : comp_valid c) :
    ∀ x ∈ comp_text c, x ∉ key_path_delims := by
  intro x hx
  obtain ⟨_, hd, _, hs⟩ := hc
  rcases List.mem_append.mp hx with h | h
  · exact digit_not_delim x (hd x h)
  · rcases hs with e | e | e | e | e <;> rw [e] at h <;> simp at h <;> subst h <;> decide

theorem comp_text_ne_nil (c : PathComp) (hc : comp_valid c) : comp_text c ≠ [] := by
  intro h
  have := List.append_eq_nil.mp h
  exact hc.1 this.1

theorem separator_mem_delims (s : Char) (h : is_separator s) : s ∈ key_path_delims := by
  rcases h with e | e | e | e <;> subst e <;> decide

theorem strtok_from_comps (comps : List (Char × PathComp))
    (h : ∀ p ∈ comps, is_separator p.1 ∧ comp_valid p.2) (cur : CStr) :
    strtok_from key_path_delims (comps.flatMap (fun p => p.1 :: comp_text p.2)) cur =
      (if cur = [] then [] else [cur]) ++ comps.map (fun p => comp_text p.2) := by
  induction comps generalizing cur with
  | nil => simp [strtok_from]
  | cons p ps ih =>
    obtain ⟨hs, hv⟩ := h p (List.mem_cons_self _ _)
    have ih := ih (fun q hq => h q (List.mem_cons_of_mem _ hq))
    rw [List.flatMap_cons, List.cons_append, strtok_from,
      if_pos (separator_mem_delims _ hs),
      strtok_from_word _ _ (comp_text_no_delim _ hv), List.nil_append, ih,
      if_neg (comp_text_ne_nil _ hv)]
    split <;> simp

theorem strtok_all_key_path (lead_m : Bool) (comps : List (Char × PathComp))
    (h : ∀ p ∈ comps, is_separator p.1 ∧ comp_valid p.2) :
    strtok_all key_path_delims (key_path_text lead_m comps) =
      comps.map (fun p => comp_text p.2) := by
  unfold strtok_all key_path_text
  cases lead_m with
  | true =>
    rw [if_pos rfl, strtok_from, if_pos (by decide), if_pos rfl, strtok_from_comps comps h]
    simp
  | false =>
    rw [if_neg (by simp)]
    cases comps with
    | nil => simp [strtok_from]
    | cons p ps =>
      obtain ⟨hs, hv⟩ := h p (List.mem_cons_self _ _)
      rw [List.flatMap_cons, List.cons_append, List.drop_succ_cons, List.drop_zero,
        strtok_from_word _ _ (comp_text_no_delim _ hv), List.nil_append,
        strtok_from_comps ps (fun q hq => h q (List.mem_cons_of_mem _ hq)),
        if_neg (comp_text_ne_nil _ hv)]
      simp

theorem scan_digits_append (ds : List Char) (hd : ∀ d ∈ ds, is_digit d = true)
    (rest : List Char) (hr : ∀ c ∈ rest.head?, is_digit c = false) (acc : Nat) :
    scan_digits (ds ++ rest) acc = ds.foldl (fun v d => 10 * v + (d.toNat - 48)) acc := by
  induction ds generalizing acc with
  | nil =>
    cases rest with
    | nil => rfl
    | cons c cs =>
      have := hr c (by simp)
      simp [scan_digits, this]
  | cons d ds ih =>
    rw [List.cons_append, scan_digits, if_pos (hd d (List.mem_cons_self _ _)),
      ih (fun x hx => hd x (List.mem_cons_of_mem _ hx))]
    rfl

theorem suffix_not_digit (c : PathComp) (hc : comp_valid c) :
    ∀ x ∈ (c.suffix.toList).head?, is_digit x = false := by
  intro x hx
  obtain ⟨_, _, _, hs⟩ := hc
  rcases hs with e | e | e | e | e <;> rw [e] at hx <;> simp at hx <;> subst hx <;> decide

theorem sscanf_lu_comp (c : PathComp) (hc : comp_valid c) :
    sscanf_lu (comp_text c) = some (decimal_value c.digits) := by
  obtain ⟨d, ds, hds⟩ : ∃ d ds, c.digits = d :: ds := by
    cases h : c.digits with
    | nil => exact absurd h hc.1
    | cons d ds => exact ⟨d, ds, rfl⟩
  have hd : is_digit d = true := hc.2.1 d (by rw [hds]; exact List.mem_cons_self _ _)
  have hsp : is_space d = false := by
    have hd2 : 48 ≤ d.toNat ∧ d.toNat ≤ 57 := by
      simpa only [is_digit, decide_eq_true_eq] using hd
    rw [is_space, decide_eq_false_iff_not]
    rintro (e | e)
    · rw [e] at hd
      exact absurd hd (by decide)
    · omega
  have hm : d ≠ '-' := fun e => by rw [e] at hd; exact absurd hd (by decide)
  have hp : d ≠ '+' := fun e => by rw [e] at hd; exact absurd hd (by decide)
  have hv := scan_digits_append c.digits hc.2.1 c.suffix.toList (suffix_not_digit c hc) 0
  have hlt := hc.2.2.1
  rw [comp_text, hds] at *
  simp only [sscanf_lu, List.cons_append, List.dropWhile_cons, hsp, Bool.false_eq_true,
    if_false, List.head?_cons, Option.some.injEq, hm, hp, or_self, hd, if_true]
  rw [List.cons_append] at hv
  rw [hv]
  have e : List.foldl (fun v d => 10 * v + (d.toNat - 48)) 0 (d :: ds) = decimal_value (d :: ds) :=
    rfl
  rw [e, if_neg (by simp only [ULONG_MAX]; omega)]

theorem is_prime_token_comp (c : PathComp) (hc : comp_valid c) :
    is_prime_token (comp_text c) = c.suffix.isSome := by
  obtain ⟨hne, hd, _, hs⟩ := hc
  rcases hs with e | e | e | e | e
  · rw [comp_text, e]
    simp only [Option.toList_none, List.append_nil, Option.isSome_none]
    obtain ⟨pre, x, hx⟩ : ∃ pre x, c.digits = pre ++ [x] := by
      rcases List.eq_nil_or_concat c.digits with h | ⟨pre, x, h⟩
      · exact absurd h hne
      · exact ⟨pre, x, by rw [h, List.concat_eq_append]⟩
    have hxd : is_digit x = true := hd x (by rw [hx]; simp)
    rw [hx, is_prime_token, List.getLast?_append_of_ne_nil _ (by simp)]
    simp only [List.getLast?_singleton, Bool.decide_or, Bool.or_eq_false_iff,
      decide_eq_false_iff_not]
    refine ⟨?_, ?_, ?_, ?_⟩ <;> intro e2 <;> rw [e2] at hxd <;> exact absurd hxd (by decide)
  all_goals
    rw [comp_text, e, is_prime_token, Option.toList_some,
      List.getLast?_append_of_ne_nil _ (by simp)]
    simp

theorem generate_key_step_comp (env : Env) (node : HDNode) (idx : Nat) (c : PathComp)
    (hc : comp_valid c) :
    generate_key_step env (node, idx) (comp_text c) =
      (derive_step env node c, decimal_value c.digits) := by
  have hlt := hc.2.2.1
  have hmod : decimal_value c.digits % 2 ^ 32 = decimal_value c.digits :=
    Nat.mod_eq_of_lt (by omega)
  simp only [generate_key_step, sscanf_lu_comp c hc, is_prime_token_comp c hc,
    Option.getD_some, hmod, derive_step]
  split <;> rfl

theorem generate_key_fold (env : Env) (comps : List PathComp)
    (h : ∀ c ∈ comps, comp_valid c) (node : HDNode) (idx : Nat) :
    ((comps.map comp_text).foldl (generate_key_step env) (node, idx)).1 =
      derive_path env node comps := by
  induction comps generalizing node idx with
  | nil => rfl
  | cons c cs ih =>
    rw [List.map_cons, List.foldl_cons, generate_key_step_comp env node idx c
      (h c (List.mem_cons_self _ _)), ih (fun x hx => h x (List.mem_cons_of_mem _ hx))]
    rfl

/-- Claim C9: for a key path made of an optional leading `m` and components separated by
slash, comma, space or backslash, each a decimal index below 2^31 with an optional marker
apostrophe, `p`, `h` or `H`, `wallet_generate_key` leaves the left-to-right fold over the
components, starting from the depth-0 node with child number 0, fingerprint 0, the given
chain code and private key and the public key filled, of `hdnode_private_ckd_prime` for a
component with a marker and `hdnode_private_ckd` for one without. -/
theorem wallet_generate_key_fold (env : Env) (node : HDNode) (privkeymaster chaincode : List Nat)
    (lead_m : Bool) (comps : List (Char × PathComp))
    (h : ∀ p ∈ comps, is_separator p.1 ∧ comp_valid p.2) :
    wallet_generate_key env node (key_path_text lead_m comps) privkeymaster chaincode =
      (comps.map (fun p => p.2)).foldl
        (fun n c =>
          if c.suffix.isSome then (env.hdnode_private_ckd_prime n (decimal_value c.digits)).1
          else (env.hdnode_private_ckd n (decimal_value c.digits)).1)
        (env.hdnode_fill_public_key
          { node with
            depth := 0
            child_num := 0
            fingerprint := 0
            chain_code := bytes_at chaincode 32
            private_key := bytes_at privkeymaster 32 }) := by
  have hk := strtok_all_key_path lead_m comps h
  have hm : comps.map (fun p => comp_text p.2) = (comps.map (fun p => p.2)).map comp_text := by
    rw [List.map_map]; rfl
  simp only [wallet_generate_key, hk, hm]
  rw [generate_key_fold env _ (fun c hc => by
    obtain ⟨p, hp, rfl⟩ := List.mem_map.mp hc
    exact (h p hp).2)]
  rfl

/-! ## Derivation along a key path and the status of its steps -/

theorem demo_path_valid : ∀ p ∈ demo_path, is_separator p.1 ∧ comp_valid p.2 := by
  intro p hp
  simp only [demo_path, List.mem_cons, List.mem_singleton, List.not_mem_nil, or_false] at hp
  rcases hp with e | e | e <;> subst e <;>
    refine ⟨by simp [is_separator], by decide, by decide, by decide, by simp⟩

/-- Instance of claim C9: the path m/44'/0',7 with the stand-in collaborators. -/
theorem wallet_generate_key_fold_witness :
    wallet_generate_key demo_env demo_env.uninit_node (key_path_text true demo_path)
        (List.replicate 32 1) (List.replicate 32 2) =
      (demo_path.map (fun p => p.2)).foldl
        (fun n c =>
          if c.suffix.isSome then (demo_env.hdnode_private_ckd_prime n (decimal_value c.digits)).1
          else (demo_env.hdnode_private_ckd n (decimal_value c.digits)).1)
        (demo_env.hdnode_fill_public_key
          { demo_env.uninit_node with
            depth := 0
            child_num := 0
            fingerprint := 0
            chain_code := bytes_at (List.replicate 32 2) 32
            private_key := bytes_at (List.replicate 32 1) 32 }) :=
  wallet_generate_key_fold demo_env demo_env.uninit_node (List.replicate 32 1)
    (List.replicate 32 2) true demo_path demo_path_valid

theorem generate_key_step_status (env : Env) (f g : HDNode → Nat → Int) :
    generate_key_step (with_ckd_status env f g) = generate_key_step env := by
  funext st pch
  simp only [generate_key_step, with_ckd_status]

theorem wallet_generate_key_status (env : Env) (f g : HDNode → Nat → Int) (node : HDNode)
    (key_path : CStr) (privkeymaster chaincode : List Nat) :
    wallet_generate_key (with_ckd_status env f g) node key_path privkeymaster chaincode =
      wallet_generate_key env node key_path privkeymaster chaincode := by
  simp only [wallet_generate_key, generate_key_step_status]
  rfl

/-- Claim C10, amended: a failure status returned by `hdnode_private_ckd` or
`hdnode_private_ckd_prime` is not propagated; whatever statuses the derivation steps
return, `wallet_generate_key` leaves the same node and `wallet_sign` and
`wallet_report_xpub` end in the same state, reports included. -/
theorem derivation_status_ignored (env : Env) (f g : HDNode → Nat → Int) (st : State)
    (message : CStr) (msg_len : Int) (keypath : CStr) :
    wallet_sign (with_ckd_status env f g) st message msg_len keypath =
        wallet_sign env st message msg_len keypath ∧
      wallet_report_xpub (with_ckd_status env f g) st keypath =
        wallet_report_xpub env st keypath := by
  constructor
  · simp only [wallet_sign, wallet_generate_key_status]
    rfl
  · simp only [wallet_report_xpub, wallet_generate_key_status]
    rfl

/-- Claim C10 fails as stated: with child derivations that return the failure status on
every step (0, or -1), `wallet_sign` on the path m/0 reports the signature and the public
key with SUCCESS, and `wallet_report_xpub` reports an xpub with SUCCESS. -/
theorem derivation_failure_counterexample :
    (demo_env.hdnode_private_ckd (root_node demo_env demo_env.uninit_node
        demo_state.storage.master demo_state.storage.chaincode) 0).2 = 0 ∧
      ((wallet_sign demo_env demo_state (List.replicate 64 '0') 64 ['m', '/', '0']).reports.map
        (fun r => (r.cmd, r.status))) = [("sign", Status.SUCCESS), ("pubkey", Status.SUCCESS)] ∧
      ((wallet_sign (with_ckd_status demo_env (fun _ _ => -1) (fun _ _ => -1)) demo_state
        (List.replicate 64 '0') 64 ['m', '/', '0']).reports.map
        (fun r => (r.cmd, r.status))) = [("sign", Status.SUCCESS), ("pubkey", Status.SUCCESS)] ∧
      ((wallet_report_xpub demo_env demo_state ['m', '/', '0']).reports.map
        (fun r => (r.cmd, r.status))) = [("xpub", Status.SUCCESS)] := by
  refine ⟨rfl, ?_, ?_, ?_⟩
  · decide
  · decide
  · decide

/-- For a strength that is neither 0 nor a multiple of 32 between 128 and 256, a
generation request only clears the buffers and reports the strength error. -/
theorem master_strength_error (env : Env) (st : State) (m_len : Nat) (salt : Option CStr)
    (s_len : Nat) (strength : Int)
    (hbad : ¬ (strength = 0 ∨ (128 ≤ strength ∧ strength ≤ 256 ∧ 32 ∣ strength))) :
    wallet_master_from_mnemonic env st none m_len salt s_len strength =
      commander_fill_report (clear_static_variables st) "seed"
        "Strength must be a multiple of 32 between 128 and 256." .ERROR := by
  have h0 : strength ≠ 0 := fun e => hbad (Or.inl e)
  have hg : (if strength = 0 then 256 else strength).tmod 32 ≠ 0 ∨
      (if strength = 0 then 256 else strength) < 128 ∨
      (if strength = 0 then 256 else strength) > 256 := by
    rw [if_neg h0]
    by_cases hd : (32 : Int) ∣ strength
    · right
      by_contra hc
      exact hbad (Or.inr ⟨by omega, by omega, hd⟩)
    · left
      rwa [Int.dvd_iff_tmod_eq_zero] at hd
  simp only [wallet_master_from_mnemonic, if_pos hg]

/-- The paths of claim C7 that do clear: `wallet_sign`, `wallet_report_xpub` and the
strength-error return of `wallet_master_from_mnemonic` leave the four buffers zero. -/
theorem statics_zero_cleared_paths (env : Env) (st : State) (message : CStr) (msg_len : Int)
    (keypath : CStr) (m_len : Nat) (salt : Option CStr) (s_len : Nat) (strength : Int)
    (hbad : ¬ (strength = 0 ∨ (128 ≤ strength ∧ strength ≤ 256 ∧ 32 ∣ strength))) :
    statics_zero (wallet_sign env st message msg_len keypath) ∧
      statics_zero (wallet_report_xpub env st keypath) ∧
      statics_zero (wallet_master_from_mnemonic env st none m_len salt s_len strength) := by
  refine ⟨?_, ?_, ?_⟩
  · simp only [wallet_sign, clear_static_variables, statics_zero, and_self]
  · simp only [wallet_report_xpub, clear_static_variables, statics_zero, and_self]
  · rw [master_strength_error env st m_len salt s_len strength hbad]
    simp only [clear_static_variables, commander_fill_report, statics_zero, and_self]

/-! ## The generation request by strength -/

theorem master_store_reports (env : Env) (st : State) (salt : Option CStr) (s_len : Nat) :
    (master_store env st salt s_len).reports =
      st.reports ++
        [if master_store_failed env st salt s_len = true then
            ⟨"seed", "Problem saving BIP32 master key.", .ERROR⟩
          else ⟨"seed", "success", .SUCCESS⟩] := by
  simp only [master_store, master_store_failed, master_node, Bool.or_eq_true]
  split
  · rename_i h1
    simp only [h1, true_or, if_true, clear_static_variables, commander_fill_report]
  · rename_i h1
    split
    · rename_i h2
      simp only [h1, h2, true_or, or_true, false_or, if_true, clear_static_variables,
        commander_fill_report]
    · rename_i h2
      split
      · rename_i h3
        simp only [h1, h2, h3, or_true, false_or, if_true, clear_static_variables,
          commander_fill_report]
      · rename_i h3
        simp only [h1, h2, h3, or_self, if_false, clear_static_variables,
          commander_fill_report]
        rfl

theorem master_store_failed_reports (env : Env) (st : State) (r : List Report)
    (salt : Option CStr) (s_len : Nat) :
    master_store_failed env { st with reports := r } salt s_len =
      master_store_failed env st salt s_len := rfl

theorem master_passphrase_fits (env : Env) (salt : Option CStr) (s_len : Nat)
    (h : salt_fits salt s_len) : master_passphrase env salt s_len = salt.getD [] := by
  cases salt with
  | none => rfl
  | some p =>
    obtain ⟨hn, -, hl⟩ := h
    have e : (List.range s_len).map (fun i => p.getD i NUL) =
        p ++ List.replicate (s_len - p.length) NUL := by
      apply List.ext_getElem
      · simp; omega
      · intro i h1 h2
        simp only [List.getElem_map, List.getElem_range]
        by_cases hi : i < p.length
        · rw [List.getElem_append_left hi, List.getD_eq_getElem _ _ hi]
        · rw [List.getElem_append_right (by omega), List.getElem_replicate,
            List.getD_eq_default _ _ (by omega)]
    obtain ⟨d, hd⟩ : ∃ d, s_len - p.length = d + 1 := ⟨s_len - p.length - 1, by omega⟩
    simp only [master_passphrase, memcpy_chars, e, hd, List.replicate_succ, List.drop_nil,
      List.append_nil, List.append_assoc, List.cons_append, Option.getD_some, cstr]
    rw [List.takeWhile_append_of_pos (fun c hc => by
      simp only [ne_eq, decide_not, Bool.not_eq_true', decide_eq_false_iff_not]
      exact fun e => hn (e ▸ hc))]
    simp

/-- With no text and strength 0, 128, 192 or 256, `wallet_master_from_mnemonic` validates
the generated text and ends with the report that the test on the three stored blocks
selects. -/
theorem master_from_strength_accepted (env : Env) (hwl : WordlistOK env.wordlist) (st : State)
    (m_len : Nat) (salt : Option CStr) (s_len : Nat) (strength : Int)
    (hs : strength = 0 ∨ strength = 128 ∨ strength = 192 ∨ strength = 256) :
    (wallet_master_from_mnemonic env st none m_len salt s_len strength).reports =
      st.reports ++
        [if master_store_failed env (generation_state env st strength) salt s_len = true then
            ⟨"seed", "Problem saving BIP32 master key.", .ERROR⟩
          else ⟨"seed", "success", .SUCCESS⟩] := by
  have hg : ¬ ((if strength = 0 then 256 else strength).tmod 32 ≠ 0 ∨
      (if strength = 0 then 256 else strength) < 128 ∨
      (if strength = 0 then 256 else strength) > 256) := by
    rcases hs with h | h | h | h <;> subst h <;> decide
  have hrand : memcpy (List.replicate 32 0) env.random_bytes 32 = bytes_at env.random_bytes 32 := by
    simp [memcpy]
  obtain ⟨n, hn, hn2⟩ : ∃ n : Nat, (if strength = 0 then 256 else strength) / 8 = (n : Int) ∧
      (n = 16 ∨ n = 24 ∨ n = 32) := by
    rcases hs with h | h | h | h <;> subst h
    · exact ⟨32, by decide, Or.inr (Or.inr rfl)⟩
    · exact ⟨16, by decide, Or.inl rfl⟩
    · exact ⟨24, by decide, Or.inr (Or.inl rfl)⟩
    · exact ⟨32, by decide, Or.inr (Or.inr rfl)⟩
  have hdl : (bytes_at (bytes_at env.random_bytes 32) n).length = n := bytes_at_length _ _
  have hfd := from_data_entropy_words env.wordlist env.sha256_Raw
    (bytes_at (bytes_at env.random_bytes 32) n) (by omega) (by omega) (by omega)
    (bytes_at_lt _ _)
  rw [hdl] at hfd
  have hfd2 : wallet_mnemonic_from_data env.wordlist env.sha256_Raw
      (bytes_at env.random_bytes 32) (n : Int) = _ :=
    (from_data_take env.wordlist env.sha256_Raw (bytes_at env.random_bytes 32) n).trans hfd
  have hmem := entropy_words_mem env.wordlist hwl env.sha256_Raw
    (bytes_at (bytes_at env.random_bytes 32) n)
  have hl := entropy_words_length env.wordlist env.sha256_Raw
    (bytes_at (bytes_at env.random_bytes 32) n)
  have hcs := cstr_memcpy_chars
    ([' '].intercalate (entropy_words env.wordlist env.sha256_Raw
      (bytes_at (bytes_at env.random_bytes 32) n)))
    (intercalate_sp_no_nul _ (fun w hw => (hwl.word_ok w (hmem w hw)).2.2.2.2))
    (by
      have := intercalate_sp_length_le _ (fun w hw => (hwl.word_ok w (hmem w hw)).2.1)
      rw [hl, hdl] at this
      omega)
  have hacc := check_entropy_words env.wordlist hwl env.sha256_Raw
    (bytes_at (bytes_at env.random_bytes 32) n) (by rw [hdl]; exact hn2) (bytes_at_lt _ _)
  have hgen : wallet_master_from_mnemonic env st none m_len salt s_len strength =
      master_check env (generation_state env st strength) salt s_len := by
    simp only [wallet_master_from_mnemonic, generation_state, if_neg hg]
  have hmn : cstr (generation_state env st strength).mnemonic =
      [' '].intercalate (entropy_words env.wordlist env.sha256_Raw
        (bytes_at (bytes_at env.random_bytes 32) n)) := by
    simp only [generation_state, clear_static_variables, hrand, hn, hfd2, Option.getD_some]
    exact hcs
  have hrep : (generation_state env st strength).reports = st.reports := rfl
  rw [hgen]
  simp only [master_check, hmn, hacc]
  rw [if_neg (by decide), master_store_reports, master_store_failed_reports, hrep,
    List.append_nil]

/-- Claim C8, amended: a generation request with no mnemonic text succeeds for the
strengths 0 (default 256), 128, 192 and 256 when the three blocks the storage collaborator
returns for the stored key, chain code and index array are not erased:
`wallet_master_from_mnemonic` reports ("seed", "success", SUCCESS), and for a salt that
is null or is copied together with its terminator the passphrase of the seed is that salt;
for a strength that is neither 0 nor a multiple of 32 between 128 and 256 it reports the
strength error and leaves the storage as it was. -/
theorem wallet_master_from_mnemonic_strengths (env : Env) (st : State) (m_len : Nat)
    (salt : Option CStr) (s_len : Nat) (strength : Int) (hwl : WordlistOK env.wordlist) :
    ((strength = 0 ∨ strength = 128 ∨ strength = 192 ∨ strength = 256) →
        salt_fits salt s_len →
        master_store_failed env (generation_state env st strength) salt s_len = false →
        (wallet_master_from_mnemonic env st none m_len salt s_len strength).reports =
            st.reports ++ [⟨"seed", "success", Status.SUCCESS⟩] ∧
          master_passphrase env salt s_len = salt.getD []) ∧
      (¬ (strength = 0 ∨ (128 ≤ strength ∧ strength ≤ 256 ∧ 32 ∣ strength)) →
        (wallet_master_from_mnemonic env st none m_len salt s_len strength).reports =
            st.reports ++
              [⟨"seed", "Strength must be a multiple of 32 between 128 and 256.",
                Status.ERROR⟩] ∧
          (wallet_master_from_mnemonic env st none m_len salt s_len strength).storage =
            st.storage) := by
  refine ⟨fun hs hsalt hstore => ⟨?_, master_passphrase_fits env salt s_len hsalt⟩,
    fun hbad => ?_⟩
  · rw [master_from_strength_accepted env hwl st m_len salt s_len strength hs, hstore]
    rfl
  · rw [master_strength_error env st m_len salt s_len strength hbad]
    exact ⟨rfl, rfl⟩

theorem index_step_le (wordlist : List CStr) (st : List Nat × Nat) (w : CStr)
    (h : ∀ x ∈ st.1, x ≤ wordlist.length) :
    ∀ x ∈ (index_step wordlist st w).1, x ≤ wordlist.length := by
  rw [index_step, find_word_eq]
  by_cases hw : w ∈ wordlist
  · rw [if_pos hw]
    intro x hx
    rcases List.mem_or_eq_of_mem_set hx with hx | hx
    · exact h x hx
    · have := word_position_lt wordlist w hw
      have hmod : u16 (0 + word_position wordlist w + 1) ≤ 0 + word_position wordlist w + 1 :=
        Nat.mod_le _ _
      omega
  · rw [if_neg hw]
    exact h

theorem index_entries_le (wordlist : List CStr) (text : CStr) :
    ∀ x ∈ wallet_index_from_mnemonic wordlist text, x ≤ wordlist.length := by
  have key : ∀ (ws : List CStr) (st : List Nat × Nat), (∀ x ∈ st.1, x ≤ wordlist.length) →
      ∀ x ∈ (ws.foldl (index_step wordlist) st).1, x ≤ wordlist.length := by
    intro ws
    induction ws with
    | nil => intro st h; exact h
    | cons w ws ih =>
      intro st h
      rw [List.foldl_cons]
      exact ih _ (index_step_le wordlist st w h)
  rw [wallet_index_from_mnemonic]
  exact key _ _ (fun x hx => by rw [List.eq_of_mem_replicate hx]; exact Nat.zero_le _)

theorem index_length (wordlist : List CStr) (text : CStr) :
    (wallet_index_from_mnemonic wordlist text).length = 25 := by
  have key : ∀ (ws : List CStr) (st : List Nat × Nat),
      (ws.foldl (index_step wordlist) st).1.length = st.1.length := by
    intro ws
    induction ws with
    | nil => intro st; rfl
    | cons w ws ih =>
      intro st
      rw [List.foldl_cons, ih, index_step]
      split <;> simp
  rw [wallet_index_from_mnemonic, key]
  simp

/-- The index array of a text is never the erase pattern: its entries are at most the
length of the word list. -/
theorem index_not_erased (wordlist : List CStr) (h : wordlist.length < 65535) (text : CStr) :
    is_erased_2x (wallet_index_from_mnemonic wordlist text) = false := by
  apply is_erased_2x_false
  have hl := index_length wordlist text
  have hm : (wallet_index_from_mnemonic wordlist text).getD 0 0 ∈
      wallet_index_from_mnemonic wordlist text := by
    rw [List.getD_eq_getElem _ _ (by omega)]
    exact List.getElem_mem _
  have := index_entries_le wordlist text _ hm
  omega

theorem demo_store_not_failed :
    master_store_failed demo_env (generation_state demo_env demo_state 128) none 0 = false := by
  rw [master_store_failed]
  simp only [Bool.or_eq_false_iff]
  refine ⟨?_, ?_, ?_⟩
  · show is_erased (List.take 32 (bytes_at (List.replicate 64 1) 64)) = false
    decide
  · show is_erased (List.take 32 (List.drop 32 (bytes_at (List.replicate 64 1) 64))) = false
    decide
  · have e : ∀ s v, (demo_env.memory_mnemonic s (some v)).2 = v := fun _ _ => rfl
    rw [e]
    exact index_not_erased _ (by rw [demo_env_wordlist_ok.length_eq]; norm_num) _

/-- Instance of claim C8, amended: the stand-in collaborators and state, strength 128, no
salt. -/
theorem wallet_master_from_mnemonic_strengths_witness :
    (wallet_master_from_mnemonic demo_env demo_state none 0 none 0 128).reports =
        demo_state.reports ++ [⟨"seed", "success", Status.SUCCESS⟩] ∧
      master_passphrase demo_env none 0 = [] :=
  (wallet_master_from_mnemonic_strengths demo_env demo_state 0 none 0 128
    demo_env_wordlist_ok).1 (by decide) trivial demo_store_not_failed

/-! ## Fuel of the word loop -/

theorem read_current_word_rest (s acc : List Char) (w : CStr) (rest : List Char)
    (h : read_current_word s acc = some (w, rest)) :
    (rest = [] ∨ rest.head? = some ' ') ∧ rest.length ≤ s.length := by
  induction s generalizing acc with
  | nil =>
    simp only [read_current_word, Option.some.injEq, Prod.mk.injEq] at h
    rw [← h.2]
    exact ⟨Or.inl rfl, Nat.le_refl _⟩
  | cons c cs ih =>
    rw [read_current_word] at h
    by_cases hc : c = ' '
    · rw [if_pos hc] at h
      simp only [Option.some.injEq, Prod.mk.injEq] at h
      rw [← h.2, hc]
      exact ⟨Or.inr rfl, Nat.le_refl _⟩
    · rw [if_neg hc] at h
      by_cases h10 : 10 ≤ acc.length
      · rw [if_pos h10] at h
        exact absurd h (by simp)
      · rw [if_neg h10] at h
        obtain ⟨h1, h2⟩ := ih _ h
        exact ⟨h1, by simp only [List.length_cons]; omega⟩

theorem read_current_word_drop (c : Char) (cs : List Char) (w : CStr) (rest : List Char)
    (h : read_current_word (c :: cs) [] = some (w, rest)) :
    (rest.drop 1).length ≤ cs.length := by
  obtain ⟨h1, h2⟩ := read_current_word_rest _ _ _ _ h
  rcases h1 with e | e
  · subst e; simp
  · obtain ⟨r, rfl⟩ := List.head?_eq_some_iff.mp e
    simp only [List.length_cons, List.drop_succ_cons, List.drop_zero] at h2 ⊢
    omega

/-- The fuel of `check_loop` never runs out: any two amounts of fuel that reach the length
of the text give the same result. -/
theorem check_loop_fuel (wordlist : List CStr) (f1 f2 : Nat) (text : List Char)
    (st : List Nat × Nat) (h1 : text.length ≤ f1) (h2 : text.length ≤ f2) :
    check_loop wordlist f1 text st = check_loop wordlist f2 text st := by
  induction f1 generalizing f2 text st with
  | zero =>
    have : text = [] := List.length_eq_zero.mp (by omega)
    subst this
    cases f2 <;> rfl
  | succ f1 ih =>
    cases text with
    | nil => cases f2 <;> rfl
    | cons c cs =>
      obtain ⟨f2, rfl⟩ : ∃ f, f2 = f + 1 := ⟨f2 - 1, by simp at h2; omega⟩
      rw [check_loop, check_loop]
      cases hr : read_current_word (c :: cs) [] with
      | none => rfl
      | some p =>
        obtain ⟨w, rest⟩ := p
        have hd := read_current_word_drop c cs w rest hr
        simp only [List.length_cons] at h1 h2
        simp only
        cases hf : find_word wordlist w 0 with
        | none => rfl
        | some k =>
          simp only
          exact ih f2 (rest.drop 1) _ (by omega) (by omega)

/-! ## The reports of `wallet_sign` -/

theorem bytes_at_take (l : List Nat) (n : Nat) (hn : n ≤ l.length) (hb : ∀ b ∈ l, b < 256) :
    bytes_at l n = l.take n := by
  apply List.ext_getElem
  · simp [bytes_at, hn]
  · intro i h1 h2
    have hi : i < n := by simpa [bytes_at] using h1
    have hl : i < l.length := by omega
    simp only [bytes_at, List.getElem_map, List.getElem_range, u8, List.getElem_take]
    rw [List.getD_eq_getElem _ _ hl]
    exact Nat.mod_eq_of_lt (hb _ (List.getElem_mem _))

theorem bytes_at_of_length (l : List Nat) (n : Nat) (hn : l.length = n) (hb : ∀ b ∈ l, b < 256) :
    bytes_at l n = l := by
  rw [← hn]; exact bytes_at_eq_self l hb

/-- Claim C14: `wallet_get_pubkeyhash` outputs RIPEMD-160(SHA-256(P)), where P is the
first 65 bytes of `pub_key` when `pub_key[0]` is 0x04, its single first byte when
`pub_key[0]` is 0x00, and its first 33 bytes for every other tag byte. -/
theorem wallet_get_pubkeyhash_spec (sha256_Raw ripemd160 : List Nat → List Nat)
    (pub_key : List Nat)
    (hsha : ∀ x, (sha256_Raw x).length = 32 ∧ ∀ b ∈ sha256_Raw x, b < 256)
    (hrip : ∀ x, (ripemd160 x).length = 20 ∧ ∀ b ∈ ripemd160 x, b < 256)
    (hb : ∀ b ∈ pub_key, b < 256) :
    (pub_key.head? = some 0x04 → 65 ≤ pub_key.length →
        wallet_get_pubkeyhash sha256_Raw ripemd160 pub_key =
          ripemd160 (sha256_Raw (pub_key.take 65))) ∧
      (pub_key.head? = some 0x00 →
        wallet_get_pubkeyhash sha256_Raw ripemd160 pub_key =
          ripemd160 (sha256_Raw (pub_key.take 1))) ∧
      (∀ tag, pub_key.head? = some tag → tag ≠ 0x04 → tag ≠ 0x00 → 33 ≤ pub_key.length →
        wallet_get_pubkeyhash sha256_Raw ripemd160 pub_key =
          ripemd160 (sha256_Raw (pub_key.take 33))) := by
  have hs : ∀ x, bytes_at (sha256_Raw x) 32 = sha256_Raw x :=
    fun x => bytes_at_of_length _ _ (hsha x).1 (hsha x).2
  have hr : ∀ x, bytes_at (ripemd160 x) 20 = ripemd160 x :=
    fun x => bytes_at_of_length _ _ (hrip x).1 (hrip x).2
  have htag : ∀ tag, pub_key.head? = some tag → u8 (pub_key.getD 0 0) = tag ∧ 1 ≤ pub_key.length := by
    intro tag h
    obtain ⟨r, rfl⟩ := List.head?_eq_some_iff.mp h
    refine ⟨?_, by simp⟩
    simp only [List.getD_cons_zero, u8]
    exact Nat.mod_eq_of_lt (hb _ (List.mem_cons_self _ _))
  refine ⟨fun h hl => ?_, fun h => ?_, fun tag h h4 h0 hl => ?_⟩
  · simp only [wallet_get_pubkeyhash, (htag _ h).1, if_true, hs, hr,
      bytes_at_take pub_key 65 hl hb]
  · have h1 : ¬ ((0 : Nat) = 4) := by decide
    simp only [wallet_get_pubkeyhash, (htag _ h).1, h1, if_false, if_true, hs, hr,
      bytes_at_take pub_key 1 (htag _ h).2 hb]
  · simp only [wallet_get_pubkeyhash, (htag _ h).1, h4, h0, if_false, hs, hr,
      bytes_at_take pub_key 33 hl hb]

/-- Instance of claim C14: a compressed key with tag 2 and the stand-in digests. -/
theorem wallet_get_pubkeyhash_spec_witness :
    wallet_get_pubkeyhash demo_sha256 demo_ripemd160 (2 :: List.replicate 32 7) =
      demo_ripemd160 (demo_sha256 ((2 :: List.replicate 32 7).take 33)) :=
  (wallet_get_pubkeyhash_spec demo_sha256 demo_ripemd160 (2 :: List.replicate 32 7)
    (fun x => ⟨by simp [demo_sha256], fun b hb => by
      rw [demo_sha256] at hb
      rw [List.eq_of_mem_replicate hb]
      exact Nat.mod_lt _ (by norm_num)⟩)
    (fun x => ⟨by simp [demo_ripemd160], fun b hb => by
      rw [demo_ripemd160] at hb
      rw [List.eq_of_mem_replicate hb]
      exact Nat.mod_lt _ (by norm_num)⟩)
    (by decide)).2.2 2 rfl (by decide) (by decide) (by decide)

/-! ## Addresses, WIF and the seed -/

set_option maxRecDepth 100000 in
theorem char_ofNat_toNat_byte (n : Nat) (h : n < 256) : (Char.ofNat n).toNat = n := by
  revert n; decide

theorem demo_base58_pair (b : Nat) (hb : b < 256) :
    ((Char.ofNat (97 + b / 16 % 16)).toNat - 97) * 16 +
      ((Char.ofNat (97 + b % 16)).toNat - 97) = b := by
  rw [char_ofNat_toNat _ (by omega), char_ofNat_toNat _ (by omega)]
  omega

theorem demo_base58_decode_letters (data : List Nat) (hb : ∀ b ∈ data, b < 256) :
    demo_base58_decode
        (data.flatMap (fun b => [Char.ofNat (97 + b / 16 % 16), Char.ofNat (97 + b % 16)])) =
      some data := by
  induction data with
  | nil => rfl
  | cons b data ih =>
    rw [List.flatMap_cons, List.cons_append, List.cons_append, List.nil_append,
      demo_base58_decode, ih (fun x hx => hb x (List.mem_cons_of_mem _ hx)), Option.map_some',
      demo_base58_pair b (hb b (List.mem_cons_self _ _))]

theorem demo_base58_inverse (data : List Nat) (size : Nat) (hsize : 2 * data.length + 1 ≤ size)
    (hb : ∀ b ∈ data, b < 256) :
    demo_base58_decode (demo_base58_encode data data.length size) = some data := by
  rw [demo_base58_encode, if_pos hsize, List.take_length]
  exact demo_base58_decode_letters data hb

theorem wallet_get_pubkeyhash_length (sha256_Raw ripemd160 : List Nat → List Nat)
    (pub_key : List Nat) :
    (wallet_get_pubkeyhash sha256_Raw ripemd160 pub_key).length = 20 := by
  simp [wallet_get_pubkeyhash, bytes_at]

theorem wallet_get_pubkeyhash_lt (sha256_Raw ripemd160 : List Nat → List Nat)
    (pub_key : List Nat) :
    ∀ b ∈ wallet_get_pubkeyhash sha256_Raw ripemd160 pub_key, b < 256 := by
  intro b hb
  simp only [wallet_get_pubkeyhash, bytes_at, List.mem_map] at hb
  obtain ⟨i, -, rfl⟩ := hb
  exact Nat.mod_lt _ (by norm_num)

/-- Claim C15: when the base58check decoder `decode` inverts `base58_encode_check` on the
21-byte payloads for an output of `addrsize` characters and on the 34-byte payloads for an
output of `wifsize` characters, decoding the output of `wallet_get_address` gives back the
21 bytes `version || wallet_get_pubkeyhash(pub_key)`, and decoding the output of
`wallet_get_wif` for a 32-byte private key gives back the 34 bytes
`version || priv_key || 0x01`. -/
theorem address_wif_roundtrip (sha256_Raw ripemd160 : List Nat → List Nat)
    (base58_encode_check : List Nat → Nat → Nat → CStr) (decode : CStr → Option (List Nat))
    (pub_key priv_key : List Nat) (version addrsize wifsize : Nat)
    (haddr : ∀ data, data.length = 21 → (∀ b ∈ data, b < 256) →
      decode (base58_encode_check data 21 addrsize) = some data)
    (hwif : ∀ data, data.length = 34 → (∀ b ∈ data, b < 256) →
      decode (base58_encode_check data 34 wifsize) = some data)
    (hv : version < 256) (hlen : priv_key.length = 32) (hb : ∀ b ∈ priv_key, b < 256) :
    decode (wallet_get_address sha256_Raw ripemd160 base58_encode_check pub_key version
        addrsize) = some (version :: wallet_get_pubkeyhash sha256_Raw ripemd160 pub_key) ∧
      (version :: wallet_get_pubkeyhash sha256_Raw ripemd160 pub_key).length = 21 ∧
      decode (wallet_get_wif base58_encode_check priv_key version wifsize) =
        some (version :: priv_key ++ [0x01]) ∧
      (version :: priv_key ++ [0x01]).length = 34 := by
  have hu : u8 version = version := Nat.mod_eq_of_lt hv
  have hl := wallet_get_pubkeyhash_length sha256_Raw ripemd160 pub_key
  refine ⟨?_, by simp [hl], ?_, by simp [hlen]⟩
  · have h := haddr (version :: wallet_get_pubkeyhash sha256_Raw ripemd160 pub_key)
      (by simp [hl])
      (fun b hb => by
        rcases List.mem_cons.mp hb with rfl | hb
        · exact hv
        · exact wallet_get_pubkeyhash_lt _ _ _ b hb)
    simpa only [wallet_get_address, wallet_get_address_raw, hu] using h
  · have h := hwif (version :: priv_key ++ [0x01]) (by simp [hlen]) (fun b hb' => by
      rcases List.mem_append.mp hb' with hb' | hb'
      · rcases List.mem_cons.mp hb' with rfl | hb'
        · exact hv
        · exact hb b hb'
      · rw [List.mem_singleton.mp hb']; norm_num)
    simpa only [wallet_get_wif, hu, bytes_at_of_length priv_key 32 hlen hb,
      List.cons_append] using h

/-- Instance of claim C15 with the stand-in digests and the stand-in encoder and decoder,
for an address output of 43 characters and a WIF output of 69 characters. -/
theorem address_wif_roundtrip_witness :
    demo_base58_decode (wallet_get_address demo_sha256 demo_ripemd160 demo_base58_encode
        (2 :: List.replicate 32 7) 128 43) =
        some (128 :: wallet_get_pubkeyhash demo_sha256 demo_ripemd160
          (2 :: List.replicate 32 7)) ∧
      (128 :: wallet_get_pubkeyhash demo_sha256 demo_ripemd160
          (2 :: List.replicate 32 7)).length = 21 ∧
      demo_base58_decode (wallet_get_wif demo_base58_encode (List.replicate 32 5) 128 69) =
        some (128 :: List.replicate 32 5 ++ [0x01]) ∧
      (128 :: List.replicate 32 5 ++ [0x01]).length = 34 :=
  address_wif_roundtrip demo_sha256 demo_ripemd160 demo_base58_encode demo_base58_decode
    (2 :: List.replicate 32 7) (List.replicate 32 5) 128 43 69
    (fun data hl h => by
      have := demo_base58_inverse data 43 (by omega) h
      rwa [hl] at this)
    (fun data hl h => by
      have := demo_base58_inverse data 69 (by omega) h
      rwa [hl] at this)
    (by decide) (by decide) (by decide)

theorem bytes_at_map_toNat (s : CStr) (hb : ∀ c ∈ s, c.toNat < 256) :
    bytes_at (s.map Char.toNat) s.length = s.map Char.toNat := by
  apply bytes_at_of_length _ _ (by simp)
  intro b h
  obtain ⟨c, hc, rfl⟩ := List.mem_map.mp h
  exact hb c hc

theorem mnemonic_to_seed_salt (salt : List Nat) (passphrase : CStr)
    (hb : ∀ c ∈ passphrase, c.toNat < 256) :
    (memcpy_at (memcpy salt ("mnemonic".toList.map Char.toNat) 8) 8
        (passphrase.map Char.toNat) passphrase.length).take (passphrase.length + 8) =
      "mnemonic".toList.map Char.toNat ++ passphrase.map Char.toNat := by
  have e8 : bytes_at ("mnemonic".toList.map Char.toNat) 8 = "mnemonic".toList.map Char.toNat := by
    decide
  rw [memcpy_at, memcpy, e8, bytes_at_map_toNat passphrase hb]
  have h1 : ("mnemonic".toList.map Char.toNat ++ salt.drop 8).take 8 =
      "mnemonic".toList.map Char.toNat := List.take_left' (by decide)
  rw [h1]
  exact List.take_left' (by simp)

/-- Claim C16: for a passphrase of at most 256 bytes, `wallet_mnemonic_to_seed` writes the
64 bytes that PBKDF2-HMAC-SHA512 delivers for the key `mnemo`, the salt
`"mnemonic" || passphrase`, `BIP39_PBKDF2_ROUNDS` rounds and output length 64; the value is
the same for every earlier content `salt` and `salt2` of the static salt buffer, and the
268-byte buffer keeps its size. -/
theorem wallet_mnemonic_to_seed_spec (env : Env) (salt salt2 : List Nat)
    (mnemo passphrase : CStr) (hlen : passphrase.length ≤ 256)
    (hb : ∀ c ∈ passphrase, c.toNat < 256) (hsalt : salt.length = 8 + 256 + 4) :
    (wallet_mnemonic_to_seed env salt mnemo passphrase).1 =
        bytes_at (env.pbkdf2_hmac_sha512 (mnemo.map Char.toNat)
          ("mnemonic".toList.map Char.toNat ++ passphrase.map Char.toNat)
          BIP39_PBKDF2_ROUNDS 64) 64 ∧
      (wallet_mnemonic_to_seed env salt mnemo passphrase).1.length = 64 ∧
      (wallet_mnemonic_to_seed env salt2 mnemo passphrase).1 =
        (wallet_mnemonic_to_seed env salt mnemo passphrase).1 ∧
      (wallet_mnemonic_to_seed env salt mnemo passphrase).2.length = 8 + 256 + 4 := by
  refine ⟨?_, ?_, ?_, ?_⟩
  · simp only [wallet_mnemonic_to_seed, mnemonic_to_seed_salt salt passphrase hb]
  · simp [wallet_mnemonic_to_seed, bytes_at]
  · simp only [wallet_mnemonic_to_seed, mnemonic_to_seed_salt salt passphrase hb,
      mnemonic_to_seed_salt salt2 passphrase hb]
  · simp only [wallet_mnemonic_to_seed, memcpy_at, memcpy, List.length_append,
      List.length_take, List.length_drop, bytes_at_length, hsalt]
    omega

/-- Instance of claim C16: the passphrase "TREZOR" with the stand-in environment and a salt
buffer that an earlier call filled with the byte 9. -/
theorem wallet_mnemonic_to_seed_spec_witness :
    (wallet_mnemonic_to_seed demo_env (List.replicate 268 9) "abc".toList "TREZOR".toList).1 =
        bytes_at (demo_env.pbkdf2_hmac_sha512 ("abc".toList.map Char.toNat)
          ("mnemonic".toList.map Char.toNat ++ "TREZOR".toList.map Char.toNat)
          BIP39_PBKDF2_ROUNDS 64) 64 ∧
      (wallet_mnemonic_to_seed demo_env (List.replicate 268 0) "abc".toList
          "TREZOR".toList).1 =
        (wallet_mnemonic_to_seed demo_env (List.replicate 268 9) "abc".toList
          "TREZOR".toList).1 :=
  have h := wallet_mnemonic_to_seed_spec demo_env (List.replicate 268 9)
    (List.replicate 268 0) "abc".toList "TREZOR".toList (by decide) (by decide) (List.length_replicate _ _)
  ⟨h.1, h.2.2.1⟩

/-! ## Tokens and the index array -/

theorem strtok_from_splitOnP (delims : List Char) (s cur : List Char) :
    strtok_from delims s cur =
      ((s.splitOnP (fun c => decide (c ∈ delims))).modifyHead (fun t => cur ++ t)).filter
        (fun t => decide (t ≠ [])) := by
  induction s generalizing cur with
  | nil =>
    by_cases h : cur = [] <;> simp [strtok_from, List.splitOnP_nil, h]
  | cons c cs ih =>
    rw [strtok_from, List.splitOnP_cons]
    by_cases hc : c ∈ delims
    · have e := ih []
      simp only [List.nil_append] at e
      have e2 : (cs.splitOnP (fun c => decide (c ∈ delims))).modifyHead (fun t => t) =
          cs.splitOnP (fun c => decide (c ∈ delims)) := by
        cases cs.splitOnP (fun c => decide (c ∈ delims)) <;> rfl
      rw [e2] at e
      by_cases h : cur = [] <;> simp [hc, h, e]
    · rw [if_neg hc, ih]
      simp only [hc, decide_False, Bool.false_eq_true, if_false]
      cases cs.splitOnP (fun c => decide (c ∈ delims)) with
      | nil => rfl
      | cons a l => simp [List.modifyHead]

theorem split_seed_spec_tokens (text : CStr) : (split_seed text).2 = spec_tokens text := by
  have e : (fun c : Char => decide (c ∈ [' ', ','])) = (fun c => (c = ' ' || c = ',')) := by
    funext c; simp
  have h := strtok_from_splitOnP [' ', ','] text []
  simp only [List.nil_append] at h
  have e2 : (text.splitOnP (fun c => decide (c ∈ [' ', ',']))).modifyHead (fun t => t) =
      text.splitOnP (fun c => decide (c ∈ [' ', ','])) := by
    cases text.splitOnP (fun c => decide (c ∈ [' ', ','])) <;> rfl
  rw [e2, e] at h
  rw [split_seed, spec_tokens, strtok_all, h]

theorem index_fold_found (wordlist : List CStr) (hlen : wordlist.length ≤ 65535)
    (ws : List CStr) (pre zs : List Nat) (hz : ws.length ≤ zs.length) :
    ws.foldl (index_step wordlist) (pre ++ zs, pre.length) =
      (pre ++ found_indices wordlist ws ++ zs.drop (found_indices wordlist ws).length,
        pre.length + (found_indices wordlist ws).length) := by
  induction ws generalizing pre zs with
  | nil => simp [found_indices]
  | cons w ws ih =>
    by_cases hw : w ∈ wordlist
    · obtain ⟨z, zs', rfl⟩ : ∃ z zs', zs = z :: zs' := by
        cases zs with
        | nil => simp at hz
        | cons z zs' => exact ⟨z, zs', rfl⟩
      rw [List.foldl_cons, index_step, find_word_eq, if_pos hw]
      simp only [Nat.zero_add]
      have hu : u16 (word_position wordlist w + 1) = word_position wordlist w + 1 := by
        have := word_position_lt wordlist w hw
        rw [u16]; omega
      rw [hu, List.set_append_right _ _ (Nat.le_refl _), Nat.sub_self, List.set_cons_zero]
      have := ih (pre ++ [word_position wordlist w + 1]) zs' (by simpa using hz)
      simp only [List.length_append, List.length_singleton, List.append_assoc,
        List.singleton_append] at this
      rw [this]
      simp [found_indices, hw, Nat.add_assoc, Nat.add_comm 1]
    · rw [List.foldl_cons, index_step, find_word_eq, if_neg hw]
      have := ih pre zs (by simp at hz; omega)
      simp only [this]
      simp [found_indices, hw]

theorem found_indices_length_le (wordlist : List CStr) (ws : List CStr) :
    (found_indices wordlist ws).length ≤ ws.length :=
  List.length_filterMap_le _ _

theorem found_indices_range (wordlist : List CStr) (ws : List CStr) :
    ∀ i ∈ found_indices wordlist ws, 1 ≤ i ∧ i ≤ wordlist.length := by
  intro i hi
  simp only [found_indices, List.mem_filterMap] at hi
  obtain ⟨w, -, hw⟩ := hi
  by_cases h : w ∈ wordlist
  · rw [if_pos h] at hw
    have := word_position_lt wordlist w h
    simp only [Option.some.injEq] at hw
    omega
  · rw [if_neg h] at hw; cases hw

theorem wallet_index_from_mnemonic_found (wordlist : List CStr)
    (hlen : wordlist.length ≤ 65535) (text : CStr) (hn : (split_seed text).2.length ≤ 25) :
    wallet_index_from_mnemonic wordlist text =
      found_indices wordlist (split_seed text).2 ++
        List.replicate (25 - (found_indices wordlist (split_seed text).2).length) 0 := by
  have := index_fold_found wordlist hlen (split_seed text).2 [] (List.replicate 25 0)
    (by simpa using hn)
  simp only [List.nil_append, List.length_nil, Nat.zero_add] at this
  simp only [wallet_index_from_mnemonic, this, List.drop_replicate]

/-- Inside the arrays of `split_seed`: for a text of fewer than 256 characters and at most
24 tokens separated by spaces and/or commas (the tokens `split_seed` delivers are these
tokens), `wallet_index_from_mnemonic` returns the 25-entry array that starts with the
first position plus 1 of every token found in the word list, in order, tokens that are
not in the list being dropped; every such index lies in 1..2048, at most 24 of them are
stored and all entries after them are 0. -/
theorem wallet_index_from_mnemonic_spec (wordlist : List CStr) (text : CStr)
    (hlen : wordlist.length = 2048) (hn : (spec_tokens text).length ≤ 24)
    (hfit : text.length < 256) :
    split_seed_fits text ∧
      (split_seed text).2 = spec_tokens text ∧
      wallet_index_from_mnemonic wordlist text =
        found_indices wordlist (spec_tokens text) ++
          List.replicate (25 - (found_indices wordlist (spec_tokens text)).length) 0 ∧
      (found_indices wordlist (spec_tokens text)).length ≤ 24 ∧
      (∀ i ∈ found_indices wordlist (spec_tokens text), 1 ≤ i ∧ i ≤ 2048) ∧
      (wallet_index_from_mnemonic wordlist text).length = 25 := by
  have hs := split_seed_spec_tokens text
  have hf := found_indices_length_le wordlist (spec_tokens text)
  have h := wallet_index_from_mnemonic_found wordlist (by omega) text (by rw [hs]; omega)
  rw [hs] at h
  refine ⟨⟨hfit, ?_⟩, hs, h, by omega, ?_, ?_⟩
  · have e : strtok_all [' ', ','] text = (split_seed text).2 := rfl
    rw [e, hs]; omega
  · have := found_indices_range wordlist (spec_tokens text)
    rwa [hlen] at this
  · rw [h, List.length_append, List.length_replicate]; omega

/-- Instance with the stand-in word list: a text of three tokens, the second of which is
not a word of the list. -/
theorem wallet_index_from_mnemonic_spec_witness :
    spec_tokens "aab,zz  aaa".toList = ["aab".toList, "zz".toList, "aaa".toList] ∧
      wallet_index_from_mnemonic demo_wordlist "aab,zz  aaa".toList =
        found_indices demo_wordlist (spec_tokens "aab,zz  aaa".toList) ++
          List.replicate
            (25 - (found_indices demo_wordlist (spec_tokens "aab,zz  aaa".toList)).length) 0 ∧
      (wallet_index_from_mnemonic demo_wordlist "aab,zz  aaa".toList).length = 25 :=
  have h := wallet_index_from_mnemonic_spec demo_wordlist "aab,zz  aaa".toList
    demo_wordlist_ok.length_eq (by decide) (by decide)
  ⟨by decide, h.2.2.1, h.2.2.2.2.2⟩

/-- Claim C12 at its failing input: the text of 257 letters "a" is a single token, and
`split_seed`, called by `wallet_index_from_mnemonic`, copies its 257 characters into the
256-byte buffer `msg`: the last store is at index 256. -/
theorem split_seed_overruns_msg :
    spec_tokens (List.replicate 257 'a') = [List.replicate 257 'a'] ∧
      256 ∈ split_seed_msg_stores (List.replicate 257 'a') := by
  constructor
  · rw [← split_seed_spec_tokens]
    have h := strtok_from_word [' ', ','] (List.replicate 257 'a') (fun c hc => by
      rw [List.eq_of_mem_replicate hc]; decide) [] []
    rw [List.append_nil, List.nil_append] at h
    rw [split_seed]
    simp only [strtok_all, h]
    rw [strtok_from, if_neg (by simp)]
  · rw [split_seed_msg_stores, List.length_replicate]
    exact List.mem_range.mpr (by decide)

/-! ## From the index array back to the text -/

theorem entries_pred_succ (entries : List Nat) (h : ∀ e ∈ entries, 1 ≤ e) :
    (entries.map (fun e => e - 1)).map (fun k => k + 1) = entries := by
  rw [List.map_map]
  conv_rhs => rw [← List.map_id entries]
  exact List.map_congr_left (fun e he => by
    have := h e he
    simp only [Function.comp_apply, id_eq]; omega)

/-- Claim C13: for an index array made of `k` entries in 1..2048 (`1 ≤ k ≤ 24`) followed by
a zero (such an array is not the erase pattern), `wallet_mnemonic_from_index` returns the
words `wordlist[e - 1]` of the entries before the first zero joined by single spaces with
no trailing space, and `wallet_index_from_mnemonic` of that text returns the same `k`
entries followed by zeros. -/
theorem wallet_mnemonic_from_index_inverse (wordlist : List CStr) (hwl : WordlistOK wordlist)
    (entries tail : List Nat) (h1 : 1 ≤ entries.length) (h24 : entries.length ≤ 24)
    (he : ∀ e ∈ entries, 1 ≤ e ∧ e ≤ 2048) :
    is_erased_2x (entries ++ 0 :: tail) = false ∧
      wallet_mnemonic_from_index wordlist (entries ++ 0 :: tail) =
        some ([' '].intercalate (entries.map (fun e => wordlist.getD (e - 1) []))) ∧
      wallet_index_from_mnemonic wordlist
          ([' '].intercalate (entries.map (fun e => wordlist.getD (e - 1) []))) =
        entries ++ List.replicate (25 - entries.length) 0 := by
  obtain ⟨e0, es, rfl⟩ : ∃ e0 es, entries = e0 :: es := by
    cases entries with
    | nil => simp at h1
    | cons e0 es => exact ⟨e0, es, rfl⟩
  have he0 := he e0 (List.mem_cons_self _ _)
  have hner : is_erased_2x ((e0 :: es) ++ 0 :: tail) = false :=
    is_erased_2x_false _ (by simp only [List.cons_append, List.getD_cons_zero]; omega)
  have hps := entries_pred_succ (e0 :: es) (fun e h => (he e h).1)
  have hwords : ∀ w ∈ (e0 :: es).map (fun e => wordlist.getD (e - 1) []), w ∈ wordlist := by
    intro w hw
    obtain ⟨e, hm, rfl⟩ := List.mem_map.mp hw
    have := he e hm
    exact getD_mem_wordlist wordlist hwl _ (by omega)
  refine ⟨hner, ?_, ?_⟩
  · rw [wallet_mnemonic_from_index, hner]
    simp only [Bool.false_eq_true, if_false]
    have hloop := from_index_loop_eq wordlist ((e0 :: es).map (fun e => e - 1)) (0 :: tail)
      (Or.inr rfl) []
    rw [hps, List.nil_append, List.flatMap_map] at hloop
    rw [hloop]
    have hfm : (e0 :: es).flatMap (fun e => wordlist.getD (e - 1) [] ++ [' ']) =
        ((e0 :: es).map (fun e => wordlist.getD (e - 1) [])).flatMap (fun w => w ++ [' ']) := by
      rw [List.flatMap_map]
    rw [hfm, flatMap_space_eq _ (by simp), List.dropLast_concat]
  · rw [wallet_index_from_mnemonic_words wordlist hwl _ hwords (by simp at h24 ⊢; omega),
      List.map_map, List.length_map]
    congr 1
    conv_rhs => rw [← List.map_id (e0 :: es)]
    exact List.map_congr_left (fun e hm => by
      have := he e hm
      simp only [Function.comp_apply, id_eq]
      rw [word_position_getD wordlist hwl _ (by omega)]; omega)

/-- Instance of claim C13 with the stand-in word list: the entries 2, 1, 2048. -/
theorem wallet_mnemonic_from_index_inverse_witness :
    wallet_mnemonic_from_index demo_wordlist ([2, 1, 2048] ++ 0 :: List.replicate 21 0) =
        some ([' '].intercalate ([2, 1, 2048].map (fun e => demo_wordlist.getD (e - 1) []))) ∧
      wallet_index_from_mnemonic demo_wordlist
          ([' '].intercalate ([2, 1, 2048].map (fun e => demo_wordlist.getD (e - 1) []))) =
        [2, 1, 2048] ++ List.replicate (25 - [2, 1, 2048].length) 0 :=
  (wallet_mnemonic_from_index_inverse demo_wordlist demo_wordlist_ok [2, 1, 2048]
    (List.replicate 21 0) (by decide) (by decide) (by decide)).2

/-! ## Separators and the validator -/

theorem intercalate_cons_cons (sep w w' : List Char) (ws : List CStr) :
    sep.intercalate (w :: w' :: ws) = w ++ sep ++ sep.intercalate (w' :: ws) := by
  simp [List.intercalate, List.intersperse]

theorem intercalate_singleton (sep w : List Char) : sep.intercalate [w] = w := by
  simp [List.intercalate, List.intersperse]

theorem strtok_from_skip (d sep : List Char) (hd : ∀ c ∈ sep, c ∈ d) (rest : List Char) :
    strtok_from d (sep ++ rest) [] = strtok_from d rest [] := by
  induction sep with
  | nil => rfl
  | cons c sep ih =>
    rw [List.cons_append, strtok_from, if_pos (hd c (List.mem_cons_self _ _)), if_pos rfl]
    exact ih (fun x hx => hd x (List.mem_cons_of_mem _ hx))

theorem strtok_from_sep (d sep : List Char) (hd : ∀ c ∈ sep, c ∈ d) (hne : sep ≠ [])
    (rest cur : List Char) (hcur : cur ≠ []) :
    strtok_from d (sep ++ rest) cur = cur :: strtok_from d rest [] := by
  cases sep with
  | nil => exact absurd rfl hne
  | cons c sep =>
    rw [List.cons_append, strtok_from, if_pos (hd c (List.mem_cons_self _ _)), if_neg hcur]
    rw [strtok_from_skip d sep (fun x hx => hd x (List.mem_cons_of_mem _ hx))]

theorem strtok_all_intercalate_sep (d sep : List Char) (hd : ∀ c ∈ sep, c ∈ d)
    (hne : sep ≠ []) (ws : List CStr) (hws : ∀ w ∈ ws, w ≠ [] ∧ ∀ c ∈ w, c ∉ d) :
    strtok_all d (sep.intercalate ws) = ws := by
  unfold strtok_all
  induction ws with
  | nil => simp [List.intercalate, strtok_from]
  | cons w ws ih =>
    obtain ⟨hw, hnd⟩ := hws w (List.mem_cons_self _ _)
    have ih := ih (fun x hx => hws x (List.mem_cons_of_mem _ hx))
    cases ws with
    | nil =>
      have := strtok_from_word d w hnd [] []
      rw [List.append_nil, List.nil_append] at this
      rw [intercalate_singleton, this, strtok_from, if_neg hw]
    | cons w' ws =>
      rw [intercalate_cons_cons, List.append_assoc, strtok_from_word d w hnd, List.nil_append,
        strtok_from_sep d sep hd hne _ _ hw, ih]

theorem split_seed_intercalate_sep (sep : List Char) (hd : ∀ c ∈ sep, c = ' ' ∨ c = ',')
    (hne : sep ≠ []) (ws : List CStr) (h : ∀ w ∈ ws, w ≠ [] ∧ ' ' ∉ w ∧ ',' ∉ w) :
    split_seed (sep.intercalate ws) = (ws.length, ws) := by
  have := strtok_all_intercalate_sep [' ', ','] sep (fun c hc => by
    rcases hd c hc with e | e <;> simp [e]) hne ws (fun w hw => by
    obtain ⟨h1, h2, h3⟩ := h w hw
    refine ⟨h1, fun c hc hd => ?_⟩
    simp only [List.mem_cons, List.mem_singleton, List.not_mem_nil, or_false] at hd
    rcases hd with e | e
    · exact h2 (e ▸ hc)
    · exact h3 (e ▸ hc))
  simp only [split_seed, this]

theorem intercalate_length_ge (sep : List Char) (ws : List CStr) (h : ∀ w ∈ ws, w ≠ []) :
    ws.length ≤ (sep.intercalate ws).length := by
  induction ws with
  | nil => simp
  | cons w ws ih =>
    have hw : 1 ≤ w.length := List.length_pos.mpr (h w (List.mem_cons_self _ _))
    have ih := ih (fun x hx => h x (List.mem_cons_of_mem _ hx))
    cases ws with
    | nil => rw [intercalate_singleton]; simpa using hw
    | cons w' ws =>
      rw [intercalate_cons_cons]
      simp only [List.length_append, List.length_cons] at ih ⊢
      omega

theorem not_mem_intercalate (c : Char) (sep : List Char) (hsep : c ∉ sep) (ws : List CStr)
    (h : ∀ w ∈ ws, c ∉ w) : c ∉ sep.intercalate ws := by
  induction ws with
  | nil => simp [List.intercalate]
  | cons w ws ih =>
    have hw := h w (List.mem_cons_self _ _)
    have ih := ih (fun x hx => h x (List.mem_cons_of_mem _ hx))
    cases ws with
    | nil => rwa [intercalate_singleton]
    | cons w' ws =>
      rw [intercalate_cons_cons]
      simp only [List.mem_append, not_or]
      exact ⟨⟨hw, hsep⟩, ih⟩

theorem check_loop_long_word (wordlist : List CStr) (text : List Char) (hsp : ' ' ∉ text)
    (hlen : 10 < text.length) (st : List Nat × Nat) :
    check_loop wordlist text.length text st = .error report_word_not_in_list := by
  have hrd := read_current_word_eq text hsp [] [] (Or.inl rfl) (by simp)
  rw [List.append_nil, if_neg (by simp only [List.length_nil]; omega)] at hrd
  cases text with
  | nil => simp at hlen
  | cons c cs =>
    rw [List.length_cons, check_loop, hrd]

theorem check_loop_empty_word (wordlist : List CStr) (h0 : [] ∉ wordlist) (w0 : CStr)
    (hne : w0 ≠ []) (hsp : ' ' ∉ w0) (rest : List Char) (fuel : Nat) (st : List Nat × Nat) :
    check_loop wordlist (fuel + 2) (w0 ++ ' ' :: ' ' :: rest) st =
      .error report_word_not_in_list := by
  have hrd := read_current_word_eq w0 hsp (' ' :: ' ' :: rest) [] (Or.inr rfl) (by simp)
  cases w0 with
  | nil => exact absurd rfl hne
  | cons c cs =>
    rw [List.cons_append, check_loop, ← List.cons_append, hrd]
    by_cases h10 : ([] : List Char).length + (c :: cs).length ≤ 10
    · rw [if_pos h10]
      simp only [List.nil_append]
      cases hfw : find_word wordlist (c :: cs) 0 with
      | none => rfl
      | some k =>
        simp only [List.drop_succ_cons, List.drop_zero]
        rw [check_loop]
        simp only [read_current_word, if_true]
        rw [find_word_eq, if_neg h0]
    · rw [if_neg h10]

theorem wallet_mnemonic_check_loop_error (wordlist : List CStr)
    (sha256_Raw : List Nat → List Nat) (text : CStr) (r : Report)
    (hn : (split_seed text).1 = 12 ∨ (split_seed text).1 = 18 ∨ (split_seed text).1 = 24)
    (h : check_loop wordlist text.length text (List.replicate 33 0, 0) = .error r) :
    wallet_mnemonic_check wordlist sha256_Raw (some text) = (0, [r]) := by
  simp only [wallet_mnemonic_check]
  rw [if_neg (by omega), h]

theorem check_comma_joined (wordlist : List CStr) (sha256_Raw : List Nat → List Nat)
    (ws : List CStr) (hn : ws.length = 12 ∨ ws.length = 18 ∨ ws.length = 24)
    (hws : ∀ w ∈ ws, w ≠ [] ∧ ' ' ∉ w ∧ ',' ∉ w) :
    wallet_mnemonic_check wordlist sha256_Raw (some ([','].intercalate ws)) =
      (0, [report_word_not_in_list]) := by
  have hs := split_seed_intercalate_sep [','] (by simp) (by simp) ws hws
  apply wallet_mnemonic_check_loop_error
  · rw [hs]; exact hn
  · apply check_loop_long_word
    · exact not_mem_intercalate ' ' [','] (by decide) ws (fun w hw => (hws w hw).2.1)
    · have := intercalate_length_ge [','] ws (fun w hw => (hws w hw).1)
      omega

theorem check_two_spaces_joined (wordlist : List CStr) (sha256_Raw : List Nat → List Nat)
    (h0 : [] ∉ wordlist) (ws : List CStr)
    (hn : ws.length = 12 ∨ ws.length = 18 ∨ ws.length = 24)
    (hws : ∀ w ∈ ws, w ≠ [] ∧ ' ' ∉ w ∧ ',' ∉ w) :
    wallet_mnemonic_check wordlist sha256_Raw (some ([' ', ' '].intercalate ws)) =
      (0, [report_word_not_in_list]) := by
  have hs := split_seed_intercalate_sep [' ', ' '] (by simp) (by simp) ws hws
  apply wallet_mnemonic_check_loop_error
  · rw [hs]; exact hn
  · obtain ⟨w0, w1, ws', rfl⟩ : ∃ w0 w1 ws', ws = w0 :: w1 :: ws' := by
      match ws, hn with
      | [], hn => simp at hn
      | [_], hn => simp at hn
      | w0 :: w1 :: ws', _ => exact ⟨w0, w1, ws', rfl⟩
    obtain ⟨h1, h2, -⟩ := hws w0 (List.mem_cons_self _ _)
    rw [intercalate_cons_cons]
    obtain ⟨f, hf⟩ : ∃ f, (w0 ++ [' ', ' '] ++ [' ', ' '].intercalate (w1 :: ws')).length =
        f + 2 :=
      ⟨w0.length + ([' ', ' '].intercalate (w1 :: ws')).length, by
        simp only [List.length_append, List.length_cons, List.length_nil]; omega⟩
    rw [hf, List.append_assoc]
    exact check_loop_empty_word wordlist h0 w0 h1 h2 _ f _

theorem demo_phrase_checks : ∀ w ∈ demo_phrase,
    w ≠ [] ∧ w.length ≤ 10 ∧ ' ' ∉ w ∧ ',' ∉ w ∧ w ∈ demo_wordlist := by
  intro w hw
  rw [demo_phrase, List.mem_append] at hw
  rcases hw with hw | hw
  · rw [List.eq_of_mem_replicate hw]; exact demo_word_checks 0 (by decide)
  · rw [List.mem_singleton.mp hw]; exact demo_word_checks 1 (by decide)

theorem demo_phrase_accepted :
    wallet_mnemonic_check demo_wordlist demo_sha256 (some ([' '].intercalate demo_phrase)) =
      (1, []) := by
  rw [wallet_mnemonic_check_eval demo_wordlist demo_sha256 demo_phrase (by decide)
    demo_phrase_checks]
  have e : demo_phrase.map (word_position demo_wordlist) = List.replicate 11 0 ++ [1] := by
    rw [demo_phrase, List.map_append, List.map_replicate, demo_word_position 0 (by decide),
      List.map_singleton, demo_word_position 1 (by decide)]
  rw [e]
  decide

/-- Claim C17 fails: the stand-in phrase joined by commas splits into the same tokens as
the phrase joined by single spaces, which `wallet_mnemonic_check` accepts, but is rejected
with the report for a word that is not in the list. -/
theorem wallet_mnemonic_check_comma_counterexample :
    split_seed ([','].intercalate demo_phrase) = split_seed ([' '].intercalate demo_phrase) ∧
      wallet_mnemonic_check demo_wordlist demo_sha256 (some ([' '].intercalate demo_phrase)) =
        (1, []) ∧
      wallet_mnemonic_check demo_wordlist demo_sha256 (some ([','].intercalate demo_phrase)) =
        (0, [report_word_not_in_list]) := by
  have hws : ∀ w ∈ demo_phrase, w ≠ [] ∧ ' ' ∉ w ∧ ',' ∉ w := fun w hw =>
    ⟨(demo_phrase_checks w hw).1, (demo_phrase_checks w hw).2.2.1,
      (demo_phrase_checks w hw).2.2.2.1⟩
  refine ⟨?_, demo_phrase_accepted, check_comma_joined _ _ _ (by decide) hws⟩
  rw [split_seed_intercalate_sep [','] (by simp) (by simp) demo_phrase hws,
    split_seed_intercalate demo_phrase hws]

/-- Claim C17 as amended: the word loop of `wallet_mnemonic_check` cuts the text at single
spaces only, so the verdict depends on the separators.  For 12, 18 or 24 words of the word
list, the texts with the words joined by commas or by two spaces split into the same
tokens as the text joined by single spaces, and both are rejected: the validator returns 0
and reports "Word not in bip39 wordlist.". -/
theorem wallet_mnemonic_check_separators (wordlist : List CStr)
    (sha256_Raw : List Nat → List Nat) (ws : List CStr)
    (hwl : ∀ w ∈ wordlist, w ≠ [] ∧ ' ' ∉ w ∧ ',' ∉ w)
    (hn : ws.length = 12 ∨ ws.length = 18 ∨ ws.length = 24)
    (hws : ∀ w ∈ ws, w ∈ wordlist) :
    split_seed ([','].intercalate ws) = split_seed ([' '].intercalate ws) ∧
      split_seed ([' ', ' '].intercalate ws) = split_seed ([' '].intercalate ws) ∧
      wallet_mnemonic_check wordlist sha256_Raw (some ([','].intercalate ws)) =
        (0, [report_word_not_in_list]) ∧
      wallet_mnemonic_check wordlist sha256_Raw (some ([' ', ' '].intercalate ws)) =
        (0, [report_word_not_in_list]) := by
  have h : ∀ w ∈ ws, w ≠ [] ∧ ' ' ∉ w ∧ ',' ∉ w := fun w hw => hwl w (hws w hw)
  have h0 : [] ∉ wordlist := fun e => (hwl [] e).1 rfl
  refine ⟨?_, ?_, check_comma_joined _ _ _ hn h, check_two_spaces_joined _ _ h0 _ hn h⟩
  · rw [split_seed_intercalate_sep [','] (by simp) (by simp) ws h, split_seed_intercalate ws h]
  · rw [split_seed_intercalate_sep [' ', ' '] (by simp) (by simp) ws h,
      split_seed_intercalate ws h]

/-- Instance of the amended claim C17: the stand-in phrase joined by two spaces is
rejected with the report for a word that is not in the list. -/
theorem wallet_mnemonic_check_separators_witness :
    wallet_mnemonic_check demo_wordlist demo_sha256
        (some ([' ', ' '].intercalate demo_phrase)) = (0, [report_word_not_in_list]) :=
  (wallet_mnemonic_check_separators demo_wordlist demo_sha256 demo_phrase
    (fun w hw => ⟨(demo_wordlist_ok.word_ok w hw).1, (demo_wordlist_ok.word_ok w hw).2.2.1,
      (demo_wordlist_ok.word_ok w hw).2.2.2.1⟩)
    (by decide) (fun w hw => (demo_phrase_checks w hw).2.2.2.2)).2.2.2

/-! ## Stores to the word buffer -/

/-- Claim C19 at its failing input: for the 12-token text whose first token is the ten
characters "abcdefghij", `wallet_mnemonic_check` stores the terminator at index 10 of the
10-byte buffer `current_word`, whatever the word list. -/
theorem current_word_terminator_store (wordlist : List CStr) :
    10 ∈ current_word_stores wordlist (some "abcdefghij a a a a a a a a a a a".toList) ∧
      (split_seed "abcdefghij a a a a a a a a a a a".toList).1 = 12 := by
  refine ⟨?_, by decide⟩
  have hn : (split_seed "abcdefghij a a a a a a a a a a a".toList).1 = 12 := by decide
  simp only [current_word_stores, hn]
  rw [if_neg (by decide)]
  have hl : "abcdefghij a a a a a a a a a a a".toList.length = 31 + 1 := by decide
  rw [hl]
  have ht : "abcdefghij a a a a a a a a a a a".toList =
      'a' :: "bcdefghij a a a a a a a a a a a".toList := by decide
  rw [ht, check_loop_word_stores]
  apply List.mem_append_left
  decide

theorem read_current_word_stores_le (s : List Char) (j : Nat) (hj : j ≤ 10) :
    ∀ i ∈ read_current_word_stores s j, i ≤ 10 := by
  induction s generalizing j with
  | nil => intro i hi; simp only [read_current_word_stores, List.mem_singleton] at hi; omega
  | cons c cs ih =>
    intro i hi
    rw [read_current_word_stores] at hi
    by_cases hc : c = ' '
    · rw [if_pos hc, List.mem_singleton] at hi; omega
    · rw [if_neg hc] at hi
      by_cases h10 : 10 ≤ j
      · rw [if_pos h10] at hi; simp at hi
      · rw [if_neg h10] at hi
        rcases List.mem_cons.mp hi with e | e
        · omega
        · exact ih (j + 1) (by omega) i e

/-- The overrun of `current_word` is one byte: no store goes past index 10. -/
theorem check_loop_word_stores_le (wordlist : List CStr) (fuel : Nat) (text : List Char) :
    ∀ i ∈ check_loop_word_stores wordlist fuel text, i ≤ 10 := by
  induction fuel generalizing text with
  | zero => intro i hi; simp [check_loop_word_stores] at hi
  | succ fuel ih =>
    cases text with
    | nil => intro i hi; simp [check_loop_word_stores] at hi
    | cons c cs =>
      intro i hi
      rw [check_loop_word_stores, List.mem_append] at hi
      rcases hi with hi | hi
      · exact read_current_word_stores_le _ 0 (by omega) i hi
      · cases hr : read_current_word (c :: cs) [] with
        | none => rw [hr] at hi; simp at hi
        | some p =>
          obtain ⟨w, rest⟩ := p
          rw [hr] at hi
          simp only at hi
          cases hf : find_word wordlist w 0 with
          | none => rw [hf] at hi; simp at hi
          | some k =>
            rw [hf] at hi
            exact ih _ i hi

/-! ## Stores to the bit buffer -/

theorem read_current_word_split (s acc : List Char) (w : CStr) (rest : List Char)
    (h : read_current_word s acc = some (w, rest)) :
    ∃ u, w = acc ++ u ∧ s = u ++ rest ∧ ' ' ∉ u := by
  induction s generalizing acc with
  | nil =>
    simp only [read_current_word, Option.some.injEq, Prod.mk.injEq] at h
    exact ⟨[], by simp [h.1], by simp [h.2], by simp⟩
  | cons c cs ih =>
    rw [read_current_word] at h
    by_cases hc : c = ' '
    · rw [if_pos hc] at h
      simp only [Option.some.injEq, Prod.mk.injEq] at h
      exact ⟨[], by simp [h.1], by simp [h.2], by simp⟩
    · rw [if_neg hc] at h
      by_cases h10 : 10 ≤ acc.length
      · rw [if_pos h10] at h; cases h
      · rw [if_neg h10] at h
        obtain ⟨u, h1, h2, h3⟩ := ih _ h
        refine ⟨c :: u, by simp [h1], by simp [h2], ?_⟩
        simp only [List.mem_cons, not_or]
        exact ⟨fun e => hc e.symm, h3⟩

theorem strtok_all_word_rest (d : List Char) (hd : ' ' ∈ d) (w : CStr) (hne : w ≠ [])
    (hw : ∀ c ∈ w, c ∉ d) (rest : List Char) (hr : rest = [] ∨ rest.head? = some ' ') :
    strtok_all d (w ++ rest) = w :: strtok_all d (rest.drop 1) := by
  unfold strtok_all
  rw [strtok_from_word d w hw, List.nil_append]
  rcases hr with h | h
  · subst h
    rw [strtok_from, if_neg hne]; rfl
  · obtain ⟨r, rfl⟩ := List.head?_eq_some_iff.mp h
    rw [strtok_from, if_pos hd, if_neg hne]; rfl

theorem push_index_bits_snd (k : Nat) (st : List Nat × Nat) :
    (push_index_bits k st).2 = st.2 + 11 := rfl

/-- One pass of the word loop that finds its word consumes one token of `split_seed`. -/
theorem check_loop_pass_token (wordlist : List CStr)
    (hwl : ∀ w ∈ wordlist, w ≠ [] ∧ ' ' ∉ w ∧ ',' ∉ w) (s : List Char) (w : CStr)
    (rest : List Char) (k : Nat) (hr : read_current_word s [] = some (w, rest))
    (hf : find_word wordlist w 0 = some k) :
    (split_seed s).1 = (split_seed (rest.drop 1)).1 + 1 := by
  have hmem : w ∈ wordlist := by
    rw [find_word_eq] at hf
    by_contra hc
    rw [if_neg hc] at hf; cases hf
  obtain ⟨h1, h2, h3⟩ := hwl w hmem
  obtain ⟨u, hu, hs, -⟩ := read_current_word_split s [] w rest hr
  rw [List.nil_append] at hu
  subst hu
  have hrest := (read_current_word_rest s [] w rest hr).1
  have := strtok_all_word_rest [' ', ','] (by simp) w h1 (fun c hc hd => by
    simp only [List.mem_cons, List.mem_singleton, List.not_mem_nil, or_false] at hd
    rcases hd with e | e
    · exact h2 (e ▸ hc)
    · exact h3 (e ▸ hc)) rest hrest
  simp only [split_seed, hs, this, List.length_cons]

theorem check_loop_matched_le (wordlist : List CStr)
    (hwl : ∀ w ∈ wordlist, w ≠ [] ∧ ' ' ∉ w ∧ ',' ∉ w) (fuel : Nat) (text : List Char) :
    check_loop_matched wordlist fuel text ≤ (split_seed text).1 := by
  induction fuel generalizing text with
  | zero => simp [check_loop_matched]
  | succ fuel ih =>
    cases text with
    | nil => simp [check_loop_matched]
    | cons c cs =>
      rw [check_loop_matched]
      cases hr : read_current_word (c :: cs) [] with
      | none => simp
      | some p =>
        obtain ⟨w, rest⟩ := p
        simp only
        cases hf : find_word wordlist w 0 with
        | none => simp
        | some k =>
          simp only
          rw [check_loop_pass_token wordlist hwl _ w rest k hr hf]
          have := ih (rest.drop 1)
          omega

theorem push_index_bits_stores_lt (k bi : Nat) :
    ∀ i ∈ push_index_bits_stores k bi, 8 * i < bi + 11 := by
  intro i hi
  simp only [push_index_bits_stores, List.mem_filterMap, List.mem_range] at hi
  obtain ⟨ki, hki, h⟩ := hi
  split at h
  · simp only [Option.some.injEq] at h
    omega
  · cases h

theorem check_loop_bits_stores_lt (wordlist : List CStr)
    (hwl : ∀ w ∈ wordlist, w ≠ [] ∧ ' ' ∉ w ∧ ',' ∉ w) (fuel : Nat) (text : List Char)
    (bi : Nat) :
    ∀ i ∈ check_loop_bits_stores wordlist fuel text bi,
      8 * i < bi + 11 * (split_seed text).1 := by
  induction fuel generalizing text bi with
  | zero => intro i hi; simp [check_loop_bits_stores] at hi
  | succ fuel ih =>
    cases text with
    | nil => intro i hi; simp [check_loop_bits_stores] at hi
    | cons c cs =>
      intro i hi
      rw [check_loop_bits_stores] at hi
      cases hr : read_current_word (c :: cs) [] with
      | none => rw [hr] at hi; simp at hi
      | some p =>
        obtain ⟨w, rest⟩ := p
        rw [hr] at hi
        simp only at hi
        cases hf : find_word wordlist w 0 with
        | none => rw [hf] at hi; simp at hi
        | some k =>
          rw [hf] at hi
          simp only [List.mem_append] at hi
          rw [check_loop_pass_token wordlist hwl _ w rest k hr hf]
          rcases hi with hi | hi
          · have := push_index_bits_stores_lt k bi i hi
            omega
          · have := ih (rest.drop 1) (bi + 11) i hi
            omega

theorem check_loop_bit_count (wordlist : List CStr)
    (hwl : ∀ w ∈ wordlist, w ≠ [] ∧ ' ' ∉ w ∧ ',' ∉ w) (fuel : Nat) (text : List Char)
    (st st2 : List Nat × Nat) (hfuel : text.length ≤ fuel)
    (h : check_loop wordlist fuel text st = .ok st2) :
    st2.2 = st.2 + 11 * (split_seed text).1 := by
  induction fuel generalizing text st with
  | zero =>
    have : text = [] := List.length_eq_zero.mp (by omega)
    subst this
    simp only [check_loop, Except.ok.injEq] at h
    rw [← h]; rfl
  | succ fuel ih =>
    cases text with
    | nil =>
      simp only [check_loop, Except.ok.injEq] at h
      rw [← h]; rfl
    | cons c cs =>
      rw [check_loop] at h
      cases hr : read_current_word (c :: cs) [] with
      | none => rw [hr] at h; cases h
      | some p =>
        obtain ⟨w, rest⟩ := p
        rw [hr] at h
        simp only at h
        cases hf : find_word wordlist w 0 with
        | none => rw [hf] at h; cases h
        | some k =>
          rw [hf] at h
          simp only at h
          have hd := read_current_word_drop c cs w rest hr
          have := ih (rest.drop 1) (push_index_bits k st)
            (by simp only [List.length_cons] at hfuel; omega) h
          rw [this, push_index_bits_snd, check_loop_pass_token wordlist hwl _ w rest k hr hf]
          omega

theorem check_loop_error_report (wordlist : List CStr) (fuel : Nat) (text : List Char)
    (st : List Nat × Nat) (r : Report) (h : check_loop wordlist fuel text st = .error r) :
    r = report_word_not_in_list := by
  induction fuel generalizing text st with
  | zero => simp [check_loop] at h
  | succ fuel ih =>
    cases text with
    | nil => simp [check_loop] at h
    | cons c cs =>
      rw [check_loop] at h
      cases hr : read_current_word (c :: cs) [] with
      | none =>
        rw [hr] at h
        simp only [Except.error.injEq] at h
        exact h.symm
      | some p =>
        obtain ⟨w, rest⟩ := p
        rw [hr] at h
        simp only at h
        cases hf : find_word wordlist w 0 with
        | none =>
          rw [hf] at h
          simp only [Except.error.injEq] at h
          exact h.symm
        | some k =>
          rw [hf] at h
          exact ih _ _ h

theorem wallet_mnemonic_check_no_bit_count_report (wordlist : List CStr)
    (hwl : ∀ w ∈ wordlist, w ≠ [] ∧ ' ' ∉ w ∧ ',' ∉ w) (sha256_Raw : List Nat → List Nat)
    (mnemo : Option CStr) :
    report_bit_count ∉ (wallet_mnemonic_check wordlist sha256_Raw mnemo).2 := by
  cases mnemo with
  | none => simp only [wallet_mnemonic_check]; decide
  | some mnemo =>
    simp only [wallet_mnemonic_check]
    split
    · decide
    · cases hl : check_loop wordlist mnemo.length mnemo (List.replicate 33 0, 0) with
      | error r =>
        rw [check_loop_error_report _ _ _ _ r hl]
        show report_bit_count ∉ [report_word_not_in_list]
        decide
      | ok st =>
        obtain ⟨bits, bi⟩ := st
        have hb := check_loop_bit_count wordlist hwl _ _ _ _ (Nat.le_refl _) hl
        simp only [Nat.zero_add] at hb
        simp only
        rw [if_neg (by rw [hb]; simp [Nat.mul_comm])]
        split
        · simp
        · split
          · simp
          · split
            · simp
            · decide

/-- Claim C20: with a word list whose words are non-empty and have no space and no comma,
the word loop of `wallet_mnemonic_check` never finds more words than the token count `n`
of `split_seed`; every store to the 33-byte buffer `bits` is at a byte index of at most
32; when the loop ends without a `return 0` the bit counter is `n * 11`; and the report
"Mnemonic check error. [0]" is never made. -/
theorem bits_stores_in_range (wordlist : List CStr)
    (hwl : ∀ w ∈ wordlist, w ≠ [] ∧ ' ' ∉ w ∧ ',' ∉ w) (sha256_Raw : List Nat → List Nat)
    (mnemo : CStr) :
    check_loop_matched wordlist mnemo.length mnemo ≤ (split_seed mnemo).1 ∧
      (∀ i ∈ bits_stores wordlist (some mnemo), i ≤ 32) ∧
      (∀ st, check_loop wordlist mnemo.length mnemo (List.replicate 33 0, 0) = .ok st →
        st.2 = (split_seed mnemo).1 * 11) ∧
      report_bit_count ∉ (wallet_mnemonic_check wordlist sha256_Raw (some mnemo)).2 := by
  refine ⟨check_loop_matched_le wordlist hwl _ _, ?_, ?_,
    wallet_mnemonic_check_no_bit_count_report wordlist hwl sha256_Raw (some mnemo)⟩
  · intro i hi
    simp only [bits_stores] at hi
    split at hi
    · simp at hi
    · have := check_loop_bits_stores_lt wordlist hwl _ _ _ i hi
      omega
  · intro st h
    have := check_loop_bit_count wordlist hwl _ _ _ _ (Nat.le_refl _) h
    simp only [Nat.zero_add] at this
    omega

/-- Instance of claim C20 with the stand-in word list and the stand-in phrase. -/
theorem bits_stores_in_range_witness :
    (∀ i ∈ bits_stores demo_wordlist (some ([' '].intercalate demo_phrase)), i ≤ 32) ∧
      report_bit_count ∉
        (wallet_mnemonic_check demo_wordlist demo_sha256
          (some ([' '].intercalate demo_phrase))).2 :=
  have h := bits_stores_in_range demo_wordlist
    (fun w hw => ⟨(demo_wordlist_ok.word_ok w hw).1, (demo_wordlist_ok.word_ok w hw).2.2.1,
      (demo_wordlist_ok.word_ok w hw).2.2.2.1⟩) demo_sha256 ([' '].intercalate demo_phrase)
  ⟨h.2.1, h.2.2.2⟩

/-! ## Validation of an encoded entropy -/

theorem entropy_words_mem_of_length (wordlist : List CStr) (hlen : wordlist.length = 2048)
    (sha256_Raw : List Nat → List Nat) (data : List Nat) :
    ∀ w ∈ entropy_words wordlist sha256_Raw data, w ∈ wordlist := by
  intro w hw
  simp only [entropy_words, List.mem_map, List.mem_range] at hw
  obtain ⟨i, _, rfl⟩ := hw
  rw [List.getD_eq_getElem _ _ (by rw [hlen]; exact value11_lt _)]
  exact List.getElem_mem _

theorem entropy_words_positions (wordlist : List CStr) (hlen : wordlist.length = 2048)
    (hnd : wordlist.Nodup) (sha256_Raw : List Nat → List Nat) (data : List Nat) :
    (entropy_words wordlist sha256_Raw data).map (word_position wordlist) =
      (List.range (data.length * 3 / 4)).map
        (group_value (data ++ [(sha256_Raw data).getD 0 0])) := by
  rw [entropy_words, List.map_map]
  apply List.map_congr_left
  intro i _
  have h : group_value (data ++ [(sha256_Raw data).getD 0 0]) i < wordlist.length := by
    rw [hlen]; exact value11_lt _
  show word_position wordlist (wordlist.getD _ []) = _
  rw [List.getD_eq_getElem _ _ h]
  exact word_position_getElem wordlist hnd _ h

theorem check_entropy_words_of_shape (wordlist : List CStr) (hlen : wordlist.length = 2048)
    (hnd : wordlist.Nodup)
    (hw : ∀ w ∈ wordlist, w ≠ [] ∧ w.length ≤ 9 ∧ ' ' ∉ w ∧ ',' ∉ w)
    (sha256_Raw : List Nat → List Nat) (data : List Nat)
    (hdata : data.length = 16 ∨ data.length = 24 ∨ data.length = 32)
    (hb : ∀ b ∈ data, b < 256) :
    wallet_mnemonic_check wordlist sha256_Raw
        (some ([' '].intercalate (entropy_words wordlist sha256_Raw data))) = (1, []) := by
  have hmem := entropy_words_mem_of_length wordlist hlen sha256_Raw data
  have hl := entropy_words_length wordlist sha256_Raw data
  rw [wallet_mnemonic_check_eval wordlist sha256_Raw _ (by rw [hl]; omega) (fun w hm => by
    obtain ⟨h1, h2, h3, h4⟩ := hw w (hmem w hm)
    exact ⟨h1, by omega, h3, h4, hmem w hm⟩)]
  have hq : (entropy_words wordlist sha256_Raw data).length * 4 / 3 = data.length := by
    rw [hl]; omega
  rw [entropy_words_positions wordlist hlen hnd, hq, packed_bytes_groups data _ _ (by omega) hb,
    top_bits_packed_last data _ _ _ (by rw [hl]; omega) (by rw [hl]; omega)]
  simp

theorem comma_wordlist_getD (k : Nat) (hk : k < 2048) :
    comma_wordlist.getD k [] = if k = 0 then ['a', ',', 'b'] else demo_word k := by
  simp [comma_wordlist, List.getD_eq_getElem?_getD, List.getElem?_range hk]

theorem comma_wordlist_shape :
    comma_wordlist.length = 2048 ∧ comma_wordlist.Nodup ∧
      ∀ w ∈ comma_wordlist, w ≠ [] ∧ w.length ≤ 9 ∧ ' ' ∉ w := by
  refine ⟨by simp [comma_wordlist], ?_, ?_⟩
  · unfold comma_wordlist
    refine List.Nodup.map_on ?_ (List.nodup_range 2048)
    intro a ha b hb h
    have hne : ∀ k, k < 2048 → ['a', ',', 'b'] ≠ demo_word k := by
      intro k hk e
      have : ',' ∈ demo_word k := by rw [← e]; decide
      exact (demo_wordlist_ok.word_ok _ (demo_word_mem k hk)).2.2.2.1 this
    by_cases ha0 : a = 0 <;> by_cases hb0 : b = 0
    · omega
    · rw [if_pos ha0, if_neg hb0] at h
      exact absurd h (hne b (List.mem_range.mp hb))
    · rw [if_neg ha0, if_pos hb0] at h
      exact absurd h.symm (hne a (List.mem_range.mp ha))
    · rw [if_neg ha0, if_neg hb0] at h
      exact demo_word_injOn a b (List.mem_range.mp ha) (List.mem_range.mp hb) h
  · intro w hw
    simp only [comma_wordlist, List.mem_map, List.mem_range] at hw
    obtain ⟨k, hk, rfl⟩ := hw
    by_cases h0 : k = 0
    · rw [if_pos h0]; decide
    · rw [if_neg h0]
      obtain ⟨h1, h2, h3, -⟩ := demo_wordlist_ok.word_ok _ (demo_word_mem k hk)
      exact ⟨h1, by omega, h3⟩

theorem comma_entropy_words :
    entropy_words comma_wordlist demo_sha256 (List.replicate 16 0) =
      List.replicate 11 ['a', ',', 'b'] ++ [demo_word 1] := by
  have hg : (List.range ((List.replicate 16 0).length * 3 / 4)).map
      (group_value (List.replicate 16 0 ++ [(demo_sha256 (List.replicate 16 0)).getD 0 0])) =
      List.replicate 11 0 ++ [1] := by decide
  have e : entropy_words comma_wordlist demo_sha256 (List.replicate 16 0) =
      ((List.range ((List.replicate 16 0).length * 3 / 4)).map
        (group_value (List.replicate 16 0 ++
          [(demo_sha256 (List.replicate 16 0)).getD 0 0]))).map
        (fun g => comma_wordlist.getD g []) := by
    simp only [entropy_words, List.map_map, Function.comp_def]
  rw [e, hg, List.map_append, List.map_replicate, List.map_singleton,
    comma_wordlist_getD 0 (by decide), comma_wordlist_getD 1 (by decide)]
  rfl

/-- Claim C18 fails for a word list with a comma in a word: the list `comma_wordlist` has
2048 distinct non-empty words of at most 9 characters without a space, the entropy of 16
zero bytes encodes to eleven times "a,b" and one more word, and `wallet_mnemonic_check`
counts 23 tokens in that text and returns 0 with the word-count report. -/
theorem check_from_data_comma_counterexample :
    (comma_wordlist.length = 2048 ∧ comma_wordlist.Nodup ∧
        ∀ w ∈ comma_wordlist, w ≠ [] ∧ w.length ≤ 9 ∧ ' ' ∉ w) ∧
      wallet_mnemonic_check comma_wordlist demo_sha256
          (wallet_mnemonic_from_data comma_wordlist demo_sha256 (List.replicate 16 0) 16) =
        (0, [report_word_count]) := by
  refine ⟨comma_wordlist_shape, ?_⟩
  have h := from_data_entropy_words comma_wordlist demo_sha256 (List.replicate 16 0)
    (by decide) (by decide) (by decide) (by decide)
  rw [List.length_replicate] at h
  simp only [Nat.cast_ofNat] at h
  rw [h, comma_entropy_words]
  have hn : (split_seed ([' '].intercalate
      (List.replicate 11 ['a', ',', 'b'] ++ [demo_word 1]))).1 = 23 := by decide
  simp only [wallet_mnemonic_check, hn]
  rw [if_pos (by decide)]

/-- Claim C18 as amended: for a word list of 2048 distinct non-empty words of at most 9
characters that contain no space and no comma, and every entropy of 16, 24 or 32 bytes,
`wallet_mnemonic_check` applied to the text of `wallet_mnemonic_from_data` returns 1 and
makes no report. -/
theorem check_from_data_accepts (wordlist : List CStr) (sha256_Raw : List Nat → List Nat)
    (data : List Nat) (hlen : wordlist.length = 2048) (hnd : wordlist.Nodup)
    (hw : ∀ w ∈ wordlist, w ≠ [] ∧ w.length ≤ 9 ∧ ' ' ∉ w ∧ ',' ∉ w)
    (hdata : data.length = 16 ∨ data.length = 24 ∨ data.length = 32)
    (hb : ∀ b ∈ data, b < 256) :
    wallet_mnemonic_check wordlist sha256_Raw
        (wallet_mnemonic_from_data wordlist sha256_Raw data data.length) = (1, []) := by
  rw [from_data_entropy_words wordlist sha256_Raw data (by omega) (by omega) (by omega) hb]
  exact check_entropy_words_of_shape wordlist hlen hnd hw sha256_Raw data hdata hb

/-- Instance of the amended claim C18: the stand-in word list and 16 zero bytes. -/
theorem check_from_data_accepts_witness :
    wallet_mnemonic_check demo_wordlist demo_sha256
        (wallet_mnemonic_from_data demo_wordlist demo_sha256 (List.replicate 16 0)
          (List.replicate 16 0).length) = (1, []) :=
  check_from_data_accepts demo_wordlist demo_sha256 (List.replicate 16 0)
    demo_wordlist_ok.length_eq demo_wordlist_ok.nodup
    (fun w hw => ⟨(demo_wordlist_ok.word_ok w hw).1, by
      have := (demo_wordlist_ok.word_ok w hw).2.1
      omega, (demo_wordlist_ok.word_ok w hw).2.2.1, (demo_wordlist_ok.word_ok w hw).2.2.2.1⟩)
    (by decide) (by decide)

end Wallet
